import Mathlib

/-!
MyGin (package gee): router trie and handler chain.

A shallow embedding of `gee/trie.go`, `gee/router.go`, the registration methods
of `gee/gee.go` and the chain driver of `gee/context.go`, followed by theorems
about them.

Modelling conventions.
* A Go `string` is the list of its characters (`Str`).  The code only compares
  against the ASCII characters `/`, `:`, `*` and `-`.
* A Go `map[string]T` is a partial function `Str → Option T`; assignment is
  function update.
* `*node` pointers into the trie become node values; the in-place mutation of
  `insert` becomes a rebuilt tree.
* `parts []string` together with `height int` is represented by the remaining
  suffix `parts[height:]`: `len(parts) == height` is "the suffix is empty"
  and `parts[height]` is its head.
* A Go `HandlerFunc` is a closure.  It is represented by a straight-line body
  of statements (`Stmt`), or `HandlerFunc.nil` for the nil function value.
  The statements have no `defer` and no `recover()`: a panic ends the run, as
  it does in every chain without the `Recovery` middleware.
* The fields `calls` and `out` of `Context` are ghost logs: the positions of
  the handlers invoked so far, and the observable effects so far.
* `Writer` is an `http.ResponseWriter` of net/http.  Of its state only
  `wroteHeader` is kept: `WriteHeader` ignores a call once the header has been
  written and otherwise panics on a status code outside 100..999.
-/

abbrev Str := List Char

namespace strings

/-- Go's `strings.Split(s, sep)` for a one-character separator: the substrings
between the separators, in order (always at least one substring). -/
def Split : Str → Char → List Str
  | [], _ => [[]]
  | c :: cs, sep =>
    if c = sep then [] :: Split cs sep
    else
      match Split cs sep with
      | [] => [[c]]
      | w :: ws => (c :: w) :: ws

/-- Go's `strings.Join(elems, sep)`. -/
def Join (elems : List Str) (sep : Str) : Str :=
  match elems with
  | [] => []
  | [e] => e
  | e :: es => e ++ sep ++ Join es sep

/-- Go's `strings.HasPrefix(s, "*")`. -/
def HasPrefixStar (s : Str) : Bool :=
  match s with
  | c :: _ => c == '*'
  | [] => false

end strings

/-! ## trie.go -/

inductive node where
  | mk (pattern : Str) (part : Str) (children : List node) (isWild : Bool)

namespace node

def pattern : node → Str
  | mk p _ _ _ => p

def part : node → Str
  | mk _ p _ _ => p

def children : node → List node
  | mk _ _ c _ => c

def isWild : node → Bool
  | mk _ _ _ w => w

mutual
/-- Decidable equality of nodes. -/
def decEq : (a b : node) → Decidable (a = b)
  | mk p1 q1 c1 w1, mk p2 q2 c2 w2 =>
    if hp : p1 = p2 then
      if hq : q1 = q2 then
        if hw : w1 = w2 then
          match decEqList c1 c2 with
          | isTrue hc => isTrue (by rw [hp, hq, hw, hc])
          | isFalse hc => isFalse (fun e => hc (by cases e; rfl))
        else isFalse (fun e => hw (by cases e; rfl))
      else isFalse (fun e => hq (by cases e; rfl))
    else isFalse (fun e => hp (by cases e; rfl))
/-- Decidable equality of lists of nodes. -/
def decEqList : (a b : List node) → Decidable (a = b)
  | [], [] => isTrue rfl
  | [], _ :: _ => isFalse (fun e => by cases e)
  | _ :: _, [] => isFalse (fun e => by cases e)
  | x :: xs, y :: ys =>
    match decEq x y with
    | isTrue hx =>
      match decEqList xs ys with
      | isTrue hxs => isTrue (by rw [hx, hxs])
      | isFalse hxs => isFalse (fun e => hxs (by cases e; rfl))
    | isFalse hx => isFalse (fun e => hx (by cases e; rfl))
end

instance : DecidableEq node := decEq

/-- The zero value `&node{}`. -/
def zero : node := mk [] [] [] false

/-- The test of `matchChild` and `matchChildern`:
`child.part == part || child.isWild`. -/
def matchesPart (part : Str) (child : node) : Bool :=
  child.part == part || child.isWild

/-- First child that matches, used by insert. -/
def matchChild (n : node) (part : Str) : Option node :=
  n.children.find? (matchesPart part)

/-- All children that match, in order, used by search. -/
def matchChildern (n : node) (part : Str) : List node :=
  n.children.filter (matchesPart part)

/-- The literal `&node{part: part, isWild: part[0] == ':' || part[0] == '*'}`.
(`part[0]` panics on an empty part; `insert` only receives the segments of
`parsePattern`, which are never empty, so that case is given `false`.) -/
def fresh (part : Str) : node :=
  mk [] part [] (match part with
    | c :: _ => c == ':' || c == '*'
    | [] => false)

/-- Apply `f` to the first element of the list satisfying `p` (the effect of
mutating the node behind the pointer returned by `matchChild`). -/
def modifyFirst (p : node → Bool) (f : node → node) : List node → List node
  | [] => []
  | c :: cs => if p c then f c :: cs else c :: modifyFirst p f cs

/-- The method `insert`; `parts` is `parts[height:]`. -/
def insert (n : node) (pattern : Str) : List Str → node
  | [] => mk pattern n.part n.children n.isWild
  | part :: rest =>
    match n.matchChild part with
    | none =>
      mk n.pattern n.part (n.children ++ [(fresh part).insert pattern rest]) n.isWild
    | some _ =>
      mk n.pattern n.part
        (modifyFirst (matchesPart part) (fun child => child.insert pattern rest) n.children)
        n.isWild

/-- The return block of `search`: nil when the pattern is empty. -/
def terminal (n : node) : Option node :=
  if n.pattern = [] then none else some n

/-- The method `search`; `parts` is `parts[height:]`. -/
def search (n : node) : List Str → Option node
  | [] => n.terminal
  | part :: rest =>
    if strings.HasPrefixStar n.part then n.terminal
    else (n.matchChildern part).findSome? (fun child => child.search rest)

mutual
/-- The method `travel`: appends to `list` every node of the subtree with a
non-empty pattern, in depth-first order. -/
def travel : node → List node → List node
  | mk pattern part children isWild, list =>
    travelChildren children
      (if pattern ≠ [] then list ++ [mk pattern part children isWild] else list)
/-- The `for _, child := range n.children` loop of `travel`. -/
def travelChildren : List node → List node → List node
  | [], list => list
  | c :: cs, list => travelChildren cs (travel c list)
end

end node

/-! ## context.go: handlers and the chain driver -/

/-- One statement of a handler body. -/
inductive Stmt where
  /-- Handler code of its own, with the observable effect `e`. -/
  | mark (e : Nat)
  /-- The call `c.Next()`. -/
  | Next
  /-- The call `c.Fail(code, err)`. -/
  | Fail (code : Int) (err : Str)
  /-- The call `c.String(code, text)` with the text already formatted. -/
  | String (code : Int) (text : Str)
deriving DecidableEq

/-- A Go `HandlerFunc` value: the nil function or a body. -/
inductive HandlerFunc where
  | nil
  | fn (body : List Stmt)
deriving DecidableEq

/-- An observable effect of running a chain. -/
inductive Event where
  | mark (e : Nat)
  /-- The response written by `c.JSON(code, H\x7b"message": err\x7d)`. -/
  | json (code : Int) (err : Str)
  /-- The response written by `c.String(code, text)`. -/
  | text (code : Int) (text : Str)
deriving DecidableEq

abbrev Params := Str → Option Str

/-- Map assignment `m[k] = v`. -/
def mapSet {V : Type} (m : Str → Option V) (k : Str) (v : V) : Str → Option V :=
  fun x => if x = k then some v else m x

/-- The struct `Context` (without `Writer`, `Req` and `engine`, whose effects
are recorded in `out`). -/
structure Context where
  Path : Str
  Method : Str
  Params : Params
  StatusCode : Int
  handlers : List HandlerFunc
  index : Int
  /-- Ghost: positions of the handlers invoked so far, oldest first. -/
  calls : List Nat
  /-- Ghost: observable effects so far, oldest first. -/
  out : List Event
  /-- State of `Writer`: the response header has been written. -/
  wroteHeader : Bool

/-- The context `newContext` returns, with the chain `ServeHTTP` attaches. -/
def newContext (path method : Str) (middlewares : List HandlerFunc) : Context :=
  { Path := path, Method := method, Params := fun _ => none, StatusCode := 0,
    handlers := middlewares, index := -1, calls := [], out := [], wroteHeader := false }

/-- How a run of chain code ends. -/
inductive Outcome where
  /-- The fuel of the model ran out (no Go behaviour). -/
  | timeout
  /-- A Go panic (call of a nil handler, index out of range, invalid status code
  in `WriteHeader`), with the context at that moment. -/
  | panic (c : Context)
  /-- Normal return. -/
  | ok (c : Context)

namespace Context

/-- The call `c.Writer.WriteHeader(code)` of net/http: ignored when the header
has been written, a panic ("invalid WriteHeader code") for a code outside
100..999, and otherwise the header is written.  (Recent versions of net/http
leave the header open after an informational code; the write that follows in
`String` and `JSON` closes it, so both methods behave as defined here.) -/
def WriteHeader (c : Context) (code : Int) : Outcome :=
  if c.wroteHeader then Outcome.ok c
  else if code < 100 ∨ 999 < code then Outcome.panic c
  else Outcome.ok { c with wroteHeader := true }

/-- The call `c.Writer.Write(data)` of net/http, with the effect `e`: it writes
the header first when that has not been done. -/
def Write (c : Context) (e : Event) : Context :=
  { c with wroteHeader := true, out := c.out ++ [e] }

/-- The method `Status`: `c.StatusCode = code` then
`c.Writer.WriteHeader(code)`. -/
def Status (c : Context) (code : Int) : Outcome :=
  WriteHeader { c with StatusCode := code } code

/-- The method `String`: `SetHeader`, `Status(code)`, then the write. -/
def String (c : Context) (code : Int) (text : Str) : Outcome :=
  match c.Status code with
  | Outcome.ok c1 => Outcome.ok (c1.Write (Event.text code text))
  | o => o

/-- The method `JSON` on `H\x7b"message": err\x7d`: `SetHeader`, `Status(code)`,
then the encoder writes. -/
def JSON (c : Context) (code : Int) (err : Str) : Outcome :=
  match c.Status code with
  | Outcome.ok c1 => Outcome.ok (c1.Write (Event.json code err))
  | o => o

/-- The method `Fail`: `c.index = len(c.handlers)` then `c.JSON(...)`. -/
def Fail (c : Context) (code : Int) (err : Str) : Outcome :=
  JSON { c with index := c.handlers.length } code err

mutual
/-- The method `Next`. -/
def Next : Nat → Context → Outcome
  | 0, _ => Outcome.timeout
  | fuel + 1, c => loop fuel c.handlers.length { c with index := c.index + 1 }
/-- The loop `for ; c.index < s; c.index++ \x7b c.handlers[c.index](c) \x7d`. -/
def loop : Nat → Nat → Context → Outcome
  | 0, _, _ => Outcome.timeout
  | fuel + 1, s, c =>
    if c.index < s then
      if c.index < 0 then Outcome.panic c
      else
        match c.handlers[c.index.toNat]? with
        | none => Outcome.panic c
        | some HandlerFunc.nil => Outcome.panic c
        | some (HandlerFunc.fn body) =>
          match call fuel body { c with calls := c.calls ++ [c.index.toNat] } with
          | Outcome.ok c1 => loop fuel s { c1 with index := c1.index + 1 }
          | o => o
    else Outcome.ok c
/-- Running the body of a handler on the context. -/
def call : Nat → List Stmt → Context → Outcome
  | 0, _, _ => Outcome.timeout
  | _ + 1, [], c => Outcome.ok c
  | fuel + 1, Stmt.mark e :: rest, c =>
    call fuel rest { c with out := c.out ++ [Event.mark e] }
  | fuel + 1, Stmt.Next :: rest, c =>
    match Next fuel c with
    | Outcome.ok c1 => call fuel rest c1
    | o => o
  | fuel + 1, Stmt.Fail code err :: rest, c =>
    match c.Fail code err with
    | Outcome.ok c1 => call fuel rest c1
    | o => o
  | fuel + 1, Stmt.String code text :: rest, c =>
    match c.String code text with
    | Outcome.ok c1 => call fuel rest c1
    | o => o
end

end Context

/-- The context an outcome carries, if any. -/
def Outcome.ctx : Outcome → Option Context
  | Outcome.timeout => none
  | Outcome.panic c => some c
  | Outcome.ok c => some c

/-- The outcome is a normal return. -/
def Outcome.isOk : Outcome → Bool
  | Outcome.ok _ => true
  | _ => false

/-! ## router.go -/

structure router where
  roots : Str → Option node
  handlers : Str → Option HandlerFunc

def newRouter : router :=
  { roots := fun _ => none, handlers := fun _ => none }

/-- The loop of `parsePattern` over `vs`, with its `break`. -/
def parsePattern.loop : List Str → List Str → List Str
  | [], parts => parts
  | item :: vs, parts =>
    if item ≠ [] then
      if item.head? = some '*' then parts ++ [item]
      else parsePattern.loop vs (parts ++ [item])
    else parsePattern.loop vs parts

def parsePattern (pattern : Str) : List Str :=
  parsePattern.loop (strings.Split pattern '/') []

/-- The result of `getRoute`. -/
inductive RouteResult where
  /-- A Go runtime panic (index out of range in the parameter loop). -/
  | panic
  /-- The return value `(nil, nil)`. -/
  | notFound
  /-- The return value `(n, params)`. -/
  | found (n : node) (params : Params)

namespace router

/-- The key `method + "-" + pattern`. -/
def key (method pattern : Str) : Str := method ++ ['-'] ++ pattern

def addRoute (r : router) (method pattern : Str) (handler : HandlerFunc) : router :=
  let parts := parsePattern pattern
  let root := match r.roots method with
    | some root => root
    | none => node.zero
  { roots := mapSet r.roots method (root.insert pattern parts),
    handlers := mapSet r.handlers (key method pattern) handler }

/-- The parameter loop of `getRoute` over `parts[index:]`; `none` is a Go
panic (`part[0]` of an empty string, `searchParts[index]` or
`searchParts[index:]` out of range). -/
def getRoute.loop (searchParts : List Str) : Nat → List Str → Params → Option Params
  | _, [], params => some params
  | _, [] :: _, _ => none
  | index, (c :: name) :: parts, params =>
    if c = ':' then
      match searchParts[index]? with
      | none => none
      | some v => getRoute.loop searchParts (index + 1) parts (mapSet params name v)
    else if c = '*' ∧ (c :: name).length > 1 then
      if index ≤ searchParts.length then
        some (mapSet params name (strings.Join (searchParts.drop index) ['/']))
      else none
    else getRoute.loop searchParts (index + 1) parts params

def getRoute (r : router) (method path : Str) : RouteResult :=
  let searchParts := parsePattern path
  match r.roots method with
  | none => RouteResult.notFound
  | some root =>
    match root.search searchParts with
    | some n =>
      match getRoute.loop searchParts 0 (parsePattern n.pattern) (fun _ => none) with
      | some params => RouteResult.found n params
      | none => RouteResult.panic
    | none => RouteResult.notFound

/-- The map read `r.handlers[key]`: the nil function when the key is absent. -/
def handlerAt (r : router) (k : Str) : HandlerFunc :=
  match r.handlers k with
  | some h => h
  | none => HandlerFunc.nil

/-- The synthetic handler of `handle` for an unmatched path. -/
def notFoundHandler (path : Str) : HandlerFunc :=
  HandlerFunc.fn [Stmt.String 404 ("404 NOT FOUND: ".toList ++ path ++ ['\n'])]

/-- The statements of `handle` before `c.Next()`; `none` when `getRoute`
panics. -/
def handle.attach (r : router) (c : Context) : Option Context :=
  match r.getRoute c.Method c.Path with
  | RouteResult.panic => none
  | RouteResult.found n params =>
    some { c with Params := params,
                  handlers := c.handlers ++ [r.handlerAt (key c.Method n.pattern)] }
  | RouteResult.notFound =>
    some { c with handlers := c.handlers ++ [notFoundHandler c.Path] }

def handle (fuel : Nat) (r : router) (c : Context) : Outcome :=
  match handle.attach r c with
  | none => Outcome.panic c
  | some c1 => c1.Next fuel

def getRoutes (r : router) (method : Str) : Option (List node) :=
  match r.roots method with
  | none => none
  | some root => some (root.travel [])

end router

/-- A call `addRoute(method, pattern, handler)`. -/
structure Route where
  method : Str
  pattern : Str
  handler : HandlerFunc

/-- The router reached from `newRouter()` by the calls `ops`, in order. -/
def routerOf (ops : List Route) : router :=
  ops.foldl (fun r op => r.addRoute op.method op.pattern op.handler) newRouter

/-! ## gee.go -/

/-- The method `RouterGroup.addRoute`, on the router of the engine: the
pattern is the field `prefix` of the group, here `pre`, followed by `comp`. -/
def RouterGroup.addRoute (r : router) (pre method comp : Str) (handler : HandlerFunc) :
    router :=
  r.addRoute method (pre ++ comp) handler

/-- The method `RouterGroup.GET`. -/
def RouterGroup.GET (r : router) (pre pattern : Str) (handler : HandlerFunc) : router :=
  RouterGroup.addRoute r pre "GET".toList pattern handler

/-- The method `RouterGroup.POST`. -/
def RouterGroup.POST (r : router) (pre pattern : Str) (handler : HandlerFunc) : router :=
  RouterGroup.addRoute r pre "POST".toList pattern handler

/-- A call of one of the two callers of `RouterGroup.addRoute`, the only caller
of the unexported `router.addRoute`: `group.GET(pattern, handler)` or
`group.POST(pattern, handler)` on a group whose field `prefix` holds `pre`.
`Static` registers through `GET`. -/
inductive Registration where
  | GET (pre pattern : Str) (handler : HandlerFunc)
  | POST (pre pattern : Str) (handler : HandlerFunc)

/-- The router of the engine after the call. -/
def Registration.run (r : router) : Registration → router
  | Registration.GET pre pattern handler => RouterGroup.GET r pre pattern handler
  | Registration.POST pre pattern handler => RouterGroup.POST r pre pattern handler

/-- The router of an engine made by `New()` after the calls `regs`, in order. -/
def engineRouter (regs : List Registration) : router :=
  regs.foldl Registration.run newRouter

/-- The call `router.addRoute(method, pattern, handler)` a registration makes. -/
def Registration.route : Registration → Route
  | Registration.GET pre pattern handler => Route.mk "GET".toList (pre ++ pattern) handler
  | Registration.POST pre pattern handler => Route.mk "POST".toList (pre ++ pattern) handler

/-! ## Definitions used by the statements and proofs -/

/-- Follows the spec's words: split on `/`, drop the empty components, and
cut the list off immediately after the first component whose first character
is `*`. -/
def parsePatternSpec (p : Str) : List Str :=
  let comps := (p.splitOn '/').filter (fun s => s ≠ [])
  comps.takeWhile (fun s => !strings.HasPrefixStar s) ++
    (comps.dropWhile (fun s => !strings.HasPrefixStar s)).take 1

/-- The cut of the spec, as a function of the component list. -/
def cutAfterStar (l : List Str) : List Str :=
  l.takeWhile (fun s => !strings.HasPrefixStar s) ++
    (l.dropWhile (fun s => !strings.HasPrefixStar s)).take 1

/-- A pattern segment that captures: it begins with `:` or `*`. -/
def isCapture (s : Str) : Bool :=
  match s with
  | c :: _ => c == ':' || c == '*'
  | [] => false

/-- A pattern segment `:name`. -/
def isColon (s : Str) : Bool := s.head? == some ':'

/-- What every run keeps: the chain and the request fields are untouched, the
two logs only grow at the end, and the cursor never falls below a bound that is
at most the chain length. -/
def Context.Ext (c c1 : Context) : Prop :=
  c1.handlers = c.handlers ∧ c1.Path = c.Path ∧ c1.Method = c.Method ∧
  c1.Params = c.Params ∧
  (∃ t, c1.calls = c.calls ++ t) ∧ (∃ t, c1.out = c.out ++ t) ∧
  (∀ k : Int, k ≤ c.handlers.length → k ≤ c.index → k ≤ c1.index)

/-- Fuel that suffices for the handlers of a chain suffix. -/
def chainCost : List HandlerFunc → Nat
  | [] => 0
  | HandlerFunc.nil :: hs => 2 + chainCost hs
  | HandlerFunc.fn body :: hs => body.length + 2 + chainCost hs

/-- With enough fuel `Next` returns `c1`. -/
def Context.NextTo (c c1 : Context) : Prop := ∃ f, Context.Next f c = Outcome.ok c1

/-- With enough fuel the loop returns `c1`. -/
def Context.LoopTo (s : Nat) (c c1 : Context) : Prop := ∃ f, Context.loop f s c = Outcome.ok c1

/-- With enough fuel the body returns `c1`. -/
def Context.CallTo (body : List Stmt) (c c1 : Context) : Prop :=
  ∃ f, Context.call f body c = Outcome.ok c1

/-- The call `WriteHeader(code)` panics on `c`: no header has been written and
the code lies outside 100..999. -/
def Context.badCode (c : Context) (code : Int) : Bool :=
  !c.wroteHeader && (decide (code < 100) || decide (999 < code))

/-- The context `Fail` returns when it does not panic. -/
def Context.failed (c : Context) (code : Int) (err : Str) : Context :=
  { c with index := c.handlers.length, StatusCode := code, wroteHeader := true,
           out := c.out ++ [Event.json code err] }

/-- The context at the panic of `Fail`. -/
def Context.failedAt (c : Context) (code : Int) : Context :=
  { c with index := c.handlers.length, StatusCode := code }

/-- The context `String` returns when it does not panic. -/
def Context.written (c : Context) (code : Int) (text : Str) : Context :=
  { c with StatusCode := code, wroteHeader := true, out := c.out ++ [Event.text code text] }

/-- The context at the panic of `String`. -/
def Context.writtenAt (c : Context) (code : Int) : Context :=
  { c with StatusCode := code }

/-- Every status code the body passes to `Fail` or `String` lies in 100..999. -/
def codesOk : List Stmt → Bool
  | [] => true
  | Stmt.Fail code _ :: rest => decide (100 ≤ code) && decide (code ≤ 999) && codesOk rest
  | Stmt.String code _ :: rest => decide (100 ≤ code) && decide (code ≤ 999) && codesOk rest
  | _ :: rest => codesOk rest

/-- The effect of a body on the context when it contains no `Next` and no
write panics. -/
def straight : List Stmt → Context → Context
  | [], c => c
  | Stmt.mark e :: rest, c => straight rest { c with out := c.out ++ [Event.mark e] }
  | Stmt.Next :: rest, c => straight rest c
  | Stmt.Fail code err :: rest, c => straight rest (c.failed code err)
  | Stmt.String code text :: rest, c => straight rest (c.written code text)

/-- The observable effects of a body that contains no `Next`, in order, when
no write panics. -/
def eventsOf : List Stmt → List Event
  | [] => []
  | Stmt.mark e :: rest => Event.mark e :: eventsOf rest
  | Stmt.Next :: rest => eventsOf rest
  | Stmt.Fail code err :: rest => Event.json code err :: eventsOf rest
  | Stmt.String code text :: rest => Event.text code text :: eventsOf rest

/-- The body calls `Fail`. -/
def callsFail : List Stmt → Bool
  | [] => false
  | Stmt.Fail _ _ :: _ => true
  | _ :: rest => callsFail rest

/-- A middleware: `before` code, one call of `Next`, `after` code. -/
structure Middleware where
  before : List Stmt
  after : List Stmt

/-- The handler of a middleware. -/
def Middleware.fn (M : Middleware) : HandlerFunc :=
  HandlerFunc.fn (M.before ++ Stmt.Next :: M.after)

/-- A property of the context an outcome carries: `P` at a panic, `Q` at a
normal return, nothing when the fuel ran out. -/
def Outcome.sat (o : Outcome) (P Q : Context → Prop) : Prop :=
  match o with
  | Outcome.timeout => True
  | Outcome.panic c => P c
  | Outcome.ok c => Q c

/-- The effects of `body` occur, in order and without interruption, in the
log of the context, provided position `i` was invoked. -/
def bodyRan (i : Nat) (body : List Stmt) (c : Context) : Prop :=
  i ∈ c.calls → ∃ pre post, c.out = pre ++ eventsOf body ++ post

/-- Position `i` is followed at once by position `i + 1` in the log of
invocations, provided position `i` was invoked. -/
def nextRan (i : Nat) (c : Context) : Prop :=
  i ∈ c.calls → ∃ pre post, c.calls = pre ++ [i, i + 1] ++ post

/-- Handler `i` has just returned: it is the last invocation logged and the
cursor already stands at `i + 1`. -/
def pendingNext (i : Nat) (c : Context) : Prop :=
  (∃ pre, c.calls = pre ++ [i]) ∧ c.index = (i : Int) + 1

/-- Follows the claim's words: the handler most recently registered under the
key `k` by the calls `ops`. -/
def lastRegistered (ops : List Route) (k : Str) : Option HandlerFunc :=
  (ops.reverse.find? (fun op => router.key op.method op.pattern = k)).map Route.handler

/-- The node `d` is `n` or lies below it. -/
inductive node.Reaches : node → node → Prop where
  | self (n : node) : node.Reaches n n
  | child (n c d : node) : c ∈ n.children → node.Reaches c d → node.Reaches n d

/-- The node reached from `n` by taking, level by level, the child with the
given index. -/
def node.follow (n : node) : List Nat → Option node
  | [] => some n
  | i :: path =>
    match n.children[i]? with
    | some c => c.follow path
    | none => none

/-- What `insert` keeps at every node: the children have pairwise different
parts, each has a non-empty part and is wild exactly when the part begins with
`:` or `*`, and a wild child has no child after it. -/
def node.Tidy (n : node) : Prop :=
  (n.children.map node.part).Nodup ∧
  (∀ c ∈ n.children, c.part ≠ [] ∧ c.isWild = isCapture c.part) ∧
  (∀ pre post, n.children.map node.isWild = pre ++ true :: post → post = [])

/-- Follows the claim's words: the end node of the chain that starts at `n`
and takes, level by level, the child with the given index.  Each node of the
chain below `n` has a part equal to the request segment of its level or is
wild, and the chain ends at its first node that stands at depth `len(parts)`
or has a part beginning with `*`. -/
def node.walk (n : node) : List Str → List Nat → Option node
  | [], path => if path = [] then some n else none
  | part :: rest, path =>
    if strings.HasPrefixStar n.part then (if path = [] then some n else none)
    else
      match path with
      | [] => none
      | i :: path1 =>
        match n.children[i]? with
        | some c => if node.matchesPart part c then c.walk rest path1 else none
        | none => none

/-- Depth-first order of the children lists: at the first level where the two
chains differ, the first one takes an earlier child. -/
def pathBefore (p q : List Nat) : Prop :=
  ∃ common i j p1 q1, p = common ++ i :: p1 ∧ q = common ++ j :: q1 ∧ i < j

/-- The trie of the routes `/a/b` and `/:x/c`, in this order: the root has the
children `a` and `:x`. -/
def demoTrie : node :=
  (node.zero.insert "/a/b".toList (parsePattern "/a/b".toList)).insert
    "/:x/c".toList (parsePattern "/:x/c".toList)

/-- Index of the first element of the list that satisfies `q`: the position of
the child `matchChild` returns. -/
def node.firstIdx (q : node → Bool) : List node → Option Nat
  | [] => none
  | c :: cs => if q c then some 0 else (node.firstIdx q cs).map (fun i => i + 1)

/-- The routing invariant of a subtrie whose root stands at depth `d`: a node
that carries a pattern stands at the depth given by the number of segments of
that pattern, and the segment at depth `d` of every pattern stored below the
child with index `i` is routed by `matchChild` to that very child. -/
inductive node.Routed : Nat → node → Prop where
  | mk (d : Nat) (n : node) :
      (n.pattern ≠ [] → (parsePattern n.pattern).length = d) →
      (∀ (i : Nat) (c : node), n.children[i]? = some c → node.Routed (d + 1) c) →
      (∀ (i : Nat) (c : node), n.children[i]? = some c →
        ∀ e, node.Reaches c e → e.pattern ≠ [] →
          ∃ p, (parsePattern e.pattern)[d]? = some p ∧
            node.firstIdx (node.matchesPart p) n.children = some i) →
      node.Routed d n

/-- The nodes `cs` lead from `n` down to `e`, each a child of the one before. -/
inductive node.Chain : node → List node → node → Prop where
  | nil (n : node) : node.Chain n [] n
  | cons (n c : node) (cs : List node) (e : node) :
      c ∈ n.children → node.Chain c cs e → node.Chain n (c :: cs) e

/-- Follows the claim's words: the handler given to the most recent call
`addRoute(m, P, ...)` among the calls `ops`. -/
def lastCall (ops : List Route) (m P : Str) : Option HandlerFunc :=
  (ops.reverse.find? (fun op => decide (op.method = m ∧ op.pattern = P))).map Route.handler

/-! # Theorems -/

/-! ## The pattern parser -/

theorem strings.Split_eq_splitOn (p : Str) (sep : Char) :
    strings.Split p sep = p.splitOn sep := by
  induction p with
  | nil => simp [strings.Split, List.splitOn]
  | cons c cs ih =>
    have hne : cs.splitOn sep ≠ [] := List.splitOnP_ne_nil _ cs
    rw [strings.Split, ih]
    simp only [List.splitOn, List.splitOnP_cons]
    by_cases h : c = sep
    · simp [h]
    · simp only [h, if_false, beq_iff_eq]
      cases hs : List.splitOnP (fun x => x == sep) cs with
      | nil => exact absurd hs (List.splitOnP_ne_nil _ cs)
      | cons w ws => simp [List.modifyHead]

theorem strings.head_star (s : Str) :
    (s.head? = some '*') ↔ strings.HasPrefixStar s = true := by
  cases s <;> simp [strings.HasPrefixStar]

theorem parsePattern.loop_eq (vs parts : List Str) :
    parsePattern.loop vs parts = parts ++ cutAfterStar (vs.filter (fun s => s ≠ [])) := by
  induction vs generalizing parts with
  | nil => simp [parsePattern.loop, cutAfterStar]
  | cons item vs ih =>
    rw [parsePattern.loop]
    by_cases h : item = []
    · simp [h, ih]
    · by_cases hs : strings.HasPrefixStar item = true
      · have hh := (strings.head_star item).2 hs
        simp [h, hh, hs, cutAfterStar, List.takeWhile, List.dropWhile]
      · have hh : ¬ (item.head? = some '*') := fun e => hs ((strings.head_star item).1 e)
        simp only [Bool.not_eq_true] at hs
        simp [h, hh, hs, ih, cutAfterStar, List.takeWhile, List.dropWhile]

theorem parsePattern_eq_spec (p : Str) : parsePattern p = parsePatternSpec p := by
  simp [parsePattern, parsePatternSpec, parsePattern.loop_eq, strings.Split_eq_splitOn,
    cutAfterStar]

theorem cutAfterStar_ne_nil (l : List Str) (hl : ∀ s ∈ l, s ≠ []) :
    ∀ s ∈ cutAfterStar l, s ≠ [] := by
  intro s hs
  simp only [cutAfterStar, List.mem_append] at hs
  rcases hs with h | h
  · exact hl s ((List.takeWhile_sublist _).subset h)
  · exact hl s ((List.dropWhile_sublist _).subset ((List.take_sublist _ _).subset h))

theorem cutAfterStar_star_last (l pre post : List Str) (s : Str)
    (h : cutAfterStar l = pre ++ s :: post) (hs : strings.HasPrefixStar s = true) :
    post = [] := by
  induction l generalizing pre with
  | nil => simp [cutAfterStar] at h
  | cons a l ih =>
    by_cases ha : strings.HasPrefixStar a = true
    · simp [cutAfterStar, List.takeWhile, List.dropWhile, ha] at h
      cases pre with
      | nil => simp at h; exact h.2
      | cons b pre => simp at h
    · simp only [Bool.not_eq_true] at ha
      have hc : cutAfterStar (a :: l) = a :: cutAfterStar l := by
        simp [cutAfterStar, List.takeWhile, List.dropWhile, ha]
      rw [hc] at h
      cases pre with
      | nil =>
        simp at h
        rw [h.1] at ha
        rw [ha] at hs
        exact absurd hs (by simp)
      | cons b pre =>
        simp at h
        exact ih pre h.2

theorem parsePattern_ne_nil (p : Str) : ∀ s ∈ parsePattern p, s ≠ [] := by
  rw [parsePattern, parsePattern.loop_eq, List.nil_append]
  apply cutAfterStar_ne_nil
  intro s hs
  simpa using (List.mem_filter.1 hs).2

theorem parsePattern_star_last (p : Str) (pre post : List Str) (s : Str)
    (h : parsePattern p = pre ++ s :: post) (hs : strings.HasPrefixStar s = true) :
    post = [] := by
  rw [parsePattern, parsePattern.loop_eq, List.nil_append] at h
  exact cutAfterStar_star_last _ pre post s h hs

/-- C1: `parsePattern(p)` is the list obtained by splitting `p` on `/`,
dropping the empty components and cutting after the first component that
begins with `*`; so every returned segment is non-empty, a segment beginning
with `*` is the last one, and `"/a//*b/c/*d"` gives `["a", "*b"]`. -/
theorem C1_parsePattern_spec :
    (∀ p : Str, parsePattern p = parsePatternSpec p) ∧
    (∀ p : Str, ∀ s ∈ parsePattern p, s ≠ []) ∧
    (∀ (p : Str) (pre post : List Str) (s : Str),
      parsePattern p = pre ++ s :: post → strings.HasPrefixStar s = true → post = []) ∧
    parsePattern "/a//*b/c/*d".toList = ["a".toList, "*b".toList] :=
  ⟨parsePattern_eq_spec, parsePattern_ne_nil, parsePattern_star_last, by decide⟩

/-! ## Trie lemmas -/

@[simp] theorem node.pattern_mk (a b : Str) (c : List node) (d : Bool) :
    (node.mk a b c d).pattern = a := rfl

@[simp] theorem node.part_mk (a b : Str) (c : List node) (d : Bool) :
    (node.mk a b c d).part = b := rfl

@[simp] theorem node.children_mk (a b : Str) (c : List node) (d : Bool) :
    (node.mk a b c d).children = c := rfl

@[simp] theorem node.isWild_mk (a b : Str) (c : List node) (d : Bool) :
    (node.mk a b c d).isWild = d := rfl

theorem node.eta (n : node) : node.mk n.pattern n.part n.children n.isWild = n := by
  cases n; rfl

theorem node.insert_part (n : node) (P : Str) (ps : List Str) :
    (n.insert P ps).part = n.part := by
  cases ps with
  | nil => simp [node.insert]
  | cons p ps => rw [node.insert]; split <;> rfl

theorem node.insert_isWild (n : node) (P : Str) (ps : List Str) :
    (n.insert P ps).isWild = n.isWild := by
  cases ps with
  | nil => simp [node.insert]
  | cons p ps => rw [node.insert]; split <;> rfl

theorem node.insert_leaf (n : node) (P p : Str) (ps : List Str) (hc : n.children = []) :
    n.insert P (p :: ps) = node.mk n.pattern n.part [(node.fresh p).insert P ps] n.isWild := by
  rw [node.insert]
  simp [node.matchChild, hc]

theorem node.fresh_isWild (p : Str) : (node.fresh p).isWild = isCapture p := by
  cases p <;> rfl

/-- Searching the trie that holds the single route `P`: every request that
agrees with the star-free segments `ps` of `P` at the literal positions finds
the end node of `P`. -/
theorem node.search_single (P : Str) (hP : P ≠ []) :
    ∀ (ps qs : List Str) (n : node), n.children = [] →
      strings.HasPrefixStar n.part = false →
      (∀ p ∈ ps, strings.HasPrefixStar p = false) →
      List.Forall₂ (fun p q => isCapture p = true ∨ p = q) ps qs →
      ∃ e, (n.insert P ps).search qs = some e ∧ e.pattern = P := by
  intro ps
  induction ps with
  | nil =>
    intro qs n _ _ _ hf
    cases hf
    exact ⟨node.mk P n.part n.children n.isWild,
      by simp [node.insert, node.search, node.terminal, hP], rfl⟩
  | cons p ps ih =>
    intro qs n hc hn hps hf
    cases hf with
    | cons hpq hrest =>
      rename_i q qs
      rw [node.insert_leaf n P p ps hc]
      have hp : strings.HasPrefixStar p = false := hps p (List.mem_cons_self _ _)
      obtain ⟨e, he, hePat⟩ := ih qs (node.fresh p) rfl (by simpa [node.fresh] using hp)
        (fun x hx => hps x (List.mem_cons_of_mem _ hx)) hrest
      refine ⟨e, ?_, hePat⟩
      have hm : node.matchesPart q ((node.fresh p).insert P ps) = true := by
        simp only [node.matchesPart, node.insert_part, node.insert_isWild, node.fresh_isWild]
        rcases hpq with h | h
        · simp [h]
        · simp [h, node.fresh]
      simp [node.search, hn, node.matchChildern, hm, he]

/-! ## Parameter extraction -/

/-- The parameter loop on a pattern without `*` segments: it returns a map that
leaves every key that is not a `:name` of the pattern as it was, and holds for
each `:name` segment (the last one of that name) the request segment at its
position. -/
theorem router.getRoute.loop_starfree (qs : List Str) :
    ∀ (ps : List Str) (i : Nat) (params : Params),
      (∀ p ∈ ps, p ≠ [] ∧ strings.HasPrefixStar p = false) →
      i + ps.length ≤ qs.length →
      ∃ params1, router.getRoute.loop qs i ps params = some params1 ∧
        (∀ k, (∀ j : Nat, ps[j]? ≠ some (':' :: k)) → params1 k = params k) ∧
        (∀ (j : Nat) (name : Str), ps[j]? = some (':' :: name) →
          (∀ j1 : Nat, j < j1 → ps[j1]? ≠ some (':' :: name)) →
          params1 name = qs[i + j]?) := by
  intro ps
  induction ps with
  | nil =>
    intro i params _ _
    exact ⟨params, by simp [router.getRoute.loop], fun _ _ => rfl, by simp⟩
  | cons p ps ih =>
    intro i params hps hlen
    have hp := hps p (List.mem_cons_self _ _)
    have hps1 : ∀ x ∈ ps, x ≠ [] ∧ strings.HasPrefixStar x = false :=
      fun x hx => hps x (List.mem_cons_of_mem _ hx)
    simp only [List.length_cons] at hlen
    cases p with
    | nil => exact absurd rfl hp.1
    | cons c name =>
      have hstar : c ≠ '*' := by
        intro e
        have := hp.2
        simp [strings.HasPrefixStar, e] at this
      have hi : i < qs.length := by omega
      by_cases hc : c = ':'
      · subst hc
        obtain ⟨params1, h1, h2, h3⟩ :=
          ih (i + 1) (mapSet params name qs[i]) hps1 (by omega)
        refine ⟨params1, ?_, ?_, ?_⟩
        · simp [router.getRoute.loop, List.getElem?_eq_getElem hi, h1]
        · intro k hk
          rw [h2 k (fun j => by simpa using hk (j + 1))]
          have h0 : name ≠ k := by simpa using hk 0
          simp [mapSet, Ne.symm h0]
        · intro j nm hj hlast
          cases j with
          | zero =>
            simp at hj
            subst hj
            rw [h2 name (fun j => by simpa using hlast (j + 1) (by omega))]
            simp [mapSet, List.getElem?_eq_getElem hi]
          | succ j =>
            have := h3 j nm (by simpa using hj)
              (fun j1 hj1 => by simpa using hlast (j1 + 1) (by omega))
            rw [this]
            congr 1
            omega
      · obtain ⟨params1, h1, h2, h3⟩ := ih (i + 1) params hps1 (by omega)
        refine ⟨params1, ?_, ?_, ?_⟩
        · simp [router.getRoute.loop, hc, hstar, h1]
        · intro k hk
          exact h2 k (fun j => by simpa using hk (j + 1))
        · intro j nm hj hlast
          cases j with
          | zero =>
            simp at hj
            exact absurd hj.1 hc
          | succ j =>
            have := h3 j nm (by simpa using hj)
              (fun j1 hj1 => by simpa using hlast (j1 + 1) (by omega))
            rw [this]
            congr 1
            omega

/-! ## Router lemmas -/

theorem routerOf_append (ops : List Route) (op : Route) :
    routerOf (ops ++ [op]) = (routerOf ops).addRoute op.method op.pattern op.handler := by
  simp [routerOf, List.foldl_append]

theorem router.addRoute_roots_ne (r : router) (m m1 P : Str) (h : HandlerFunc)
    (hne : m1 ≠ m) : (r.addRoute m1 P h).roots m = r.roots m := by
  simp [router.addRoute, mapSet, Ne.symm hne]

theorem router.addRoute_roots_self (r : router) (m P : Str) (h : HandlerFunc) :
    (r.addRoute m P h).roots m =
      some ((match r.roots m with
        | some root => root
        | none => node.zero).insert P (parsePattern P)) := by
  simp [router.addRoute, mapSet]

theorem foldl_addRoute_roots_ne (ops : List Route) (m : Str)
    (hops : ∀ op ∈ ops, op.method ≠ m) (r : router) :
    (ops.foldl (fun r op => r.addRoute op.method op.pattern op.handler) r).roots m
      = r.roots m := by
  induction ops generalizing r with
  | nil => rfl
  | cons op ops ih =>
    rw [List.foldl_cons, ih (fun x hx => hops x (List.mem_cons_of_mem _ hx))]
    exact router.addRoute_roots_ne r m op.method op.pattern op.handler
      (hops op (List.mem_cons_self _ _))

/-- The trie of method `m` when exactly one call, `addRoute(m, P, h)`, was made
for that method. -/
theorem routerOf_single_roots (ops1 ops2 : List Route) (m P : Str) (h : HandlerFunc)
    (h1 : ∀ op ∈ ops1, op.method ≠ m) (h2 : ∀ op ∈ ops2, op.method ≠ m) :
    (routerOf (ops1 ++ Route.mk m P h :: ops2)).roots m
      = some (node.zero.insert P (parsePattern P)) := by
  unfold routerOf
  rw [List.foldl_append, List.foldl_cons, foldl_addRoute_roots_ne ops2 m h2,
    router.addRoute_roots_self]
  have := foldl_addRoute_roots_ne ops1 m h1 newRouter
  rw [this]
  rfl

theorem parsePattern_subset_Split (p : Str) : ∀ s ∈ parsePattern p, s ∈ strings.Split p '/' := by
  intro s hs
  rw [parsePattern, parsePattern.loop_eq, List.nil_append] at hs
  simp only [cutAfterStar, List.mem_append] at hs
  rcases hs with h | h
  · exact (List.mem_filter.1 ((List.takeWhile_sublist _).subset h)).1
  · exact (List.mem_filter.1
      ((List.dropWhile_sublist _).subset ((List.take_sublist _ _).subset h))).1

theorem isCapture_false_star (s : Str) (h : isCapture s = false) :
    strings.HasPrefixStar s = false := by
  cases s with
  | nil => rfl
  | cons c cs =>
    simp only [isCapture, Bool.or_eq_false_iff] at h
    simpa [strings.HasPrefixStar] using h.2

theorem isCapture_false_colon (s : Str) (h : isCapture s = false) (name : Str) :
    s ≠ ':' :: name := by
  intro e
  subst e
  simp [isCapture] at h

theorem forall₂_of_zip : ∀ (ps qs : List Str), qs.length = ps.length →
    (∀ pq ∈ List.zip ps qs, isCapture pq.1 = false → pq.1 = pq.2) →
    List.Forall₂ (fun p q => isCapture p = true ∨ p = q) ps qs := by
  intro ps
  induction ps with
  | nil =>
    intro qs hl _
    have : qs = [] := List.length_eq_zero.1 (by simpa using hl)
    subst this
    exact List.Forall₂.nil
  | cons p ps ih =>
    intro qs hl hag
    cases qs with
    | nil => simp at hl
    | cons q qs =>
      refine List.Forall₂.cons ?_ (ih qs (by simpa using hl)
        (fun pq hpq hs => hag pq (by simp [hpq]) hs))
      by_cases hp : isCapture p = true
      · exact Or.inl hp
      · exact Or.inr (hag (p, q) (by simp) (by simpa using hp))

theorem nodup_filter_index (f : Str → Bool) : ∀ (ps : List Str), (ps.filter f).Nodup →
    ∀ (j j1 : Nat) (s : Str), j < j1 → ps[j]? = some s → f s = true → ps[j1]? ≠ some s := by
  intro ps
  induction ps with
  | nil => intro _ j j1 s _ hj; simp at hj
  | cons p ps ih =>
    intro hnd j j1 s hlt hj hf
    cases j1 with
    | zero => omega
    | succ j1 =>
      cases j with
      | zero =>
        simp at hj
        subst hj
        simp only [List.filter_cons, hf, if_true, List.nodup_cons] at hnd
        intro e
        exact hnd.1 (List.mem_filter.2 ⟨List.getElem?_mem (by simpa using e), hf⟩)
      | succ j =>
        have hnd1 : (ps.filter f).Nodup := by
          by_cases hp : f p = true
          · simp only [List.filter_cons, hp, if_true, List.nodup_cons] at hnd
            exact hnd.2
          · simpa [List.filter_cons, hp] using hnd
        simpa using ih hnd1 j j1 s (by omega) (by simpa using hj) hf

/-- C2 (amended): for every method m and every non-empty pattern string P none
of whose segments begins with `:` or `*`, on a new router after
`addRoute(m, P, h)` the call `getRoute(m, P)` returns a node whose pattern is P
together with an empty parameter map. -/
theorem C2_register_then_resolve (m P : Str) (h : HandlerFunc) (hP : P ≠ [])
    (hseg : ∀ s ∈ strings.Split P '/', isCapture s = false) :
    ∃ n, (newRouter.addRoute m P h).getRoute m P = RouteResult.found n (fun _ => none) ∧
      n.pattern = P := by
  have hps : ∀ s ∈ parsePattern P, isCapture s = false :=
    fun s hs => hseg s (parsePattern_subset_Split P s hs)
  obtain ⟨e, he, hePat⟩ := node.search_single P hP (parsePattern P) (parsePattern P)
    node.zero rfl rfl (fun p hp => isCapture_false_star p (hps p hp))
    (List.forall₂_same.2 (fun _ _ => Or.inr rfl))
  obtain ⟨params1, h1, h2, _⟩ := router.getRoute.loop_starfree (parsePattern P)
    (parsePattern P) 0 (fun _ => none)
    (fun p hp => ⟨parsePattern_ne_nil P p hp, isCapture_false_star p (hps p hp)⟩)
    (by simp)
  have hempty : params1 = fun _ => none := by
    funext k
    apply h2 k
    intro j hj
    exact isCapture_false_colon _ (hps _ (List.getElem?_mem hj)) k rfl
  refine ⟨e, ?_, hePat⟩
  have hroot : (newRouter.addRoute m P h).roots m
      = some (node.zero.insert P (parsePattern P)) := by
    rw [router.addRoute_roots_self]; rfl
  simp only [router.getRoute, hroot, he, hePat, h1, hempty]

/-- C2, as stated, fails for the empty pattern: the root keeps an empty
pattern, which `search` reads as "no route here". -/
theorem C2_counterexample :
    (∀ s ∈ strings.Split [] '/', isCapture s = false) ∧
    ¬ ∃ n params, (newRouter.addRoute "GET".toList [] HandlerFunc.nil).getRoute "GET".toList []
        = RouteResult.found n params := by
  refine ⟨by decide, ?_⟩
  rintro ⟨n, params, h⟩
  have h0 : (newRouter.addRoute "GET".toList [] HandlerFunc.nil).getRoute "GET".toList []
      = RouteResult.notFound := by rfl
  rw [h0] at h
  cases h

theorem C2_register_then_resolve_witness :
    ∃ n, (newRouter.addRoute "GET".toList "/hello/world".toList HandlerFunc.nil).getRoute
        "GET".toList "/hello/world".toList = RouteResult.found n (fun _ => none) ∧
      n.pattern = "/hello/world".toList :=
  C2_register_then_resolve "GET".toList "/hello/world".toList HandlerFunc.nil (by decide)
    (by decide)

/-- C3 (amended): for a router whose only route under method m is a non-empty
pattern P with no `*` segment and with pairwise distinct `:name` segments, and
for every request path whose parsed segment list has the same length as that
of P and agrees with it at every literal position, `getRoute(m, path)` returns
the node with pattern P and a parameter map that binds each name to the
request segment at the position of its `:name` segment and has no other key. -/
theorem C3_param_route (ops1 ops2 : List Route) (m P path : Str) (h : HandlerFunc)
    (h1 : ∀ op ∈ ops1, op.method ≠ m) (h2 : ∀ op ∈ ops2, op.method ≠ m)
    (hP : P ≠ [])
    (hstar : ∀ s ∈ strings.Split P '/', strings.HasPrefixStar s = false)
    (hdistinct : ((parsePattern P).filter isColon).Nodup)
    (hlen : (parsePattern path).length = (parsePattern P).length)
    (hagree : ∀ pq ∈ List.zip (parsePattern P) (parsePattern path),
      isCapture pq.1 = false → pq.1 = pq.2) :
    ∃ n params,
      (routerOf (ops1 ++ Route.mk m P h :: ops2)).getRoute m path = RouteResult.found n params ∧
      n.pattern = P ∧
      (∀ (j : Nat) (name : Str), (parsePattern P)[j]? = some (':' :: name) →
        params name = (parsePattern path)[j]?) ∧
      (∀ k : Str, (∀ j : Nat, (parsePattern P)[j]? ≠ some (':' :: k)) → params k = none) := by
  have hps : ∀ s ∈ parsePattern P, strings.HasPrefixStar s = false :=
    fun s hs => hstar s (parsePattern_subset_Split P s hs)
  obtain ⟨e, he, hePat⟩ := node.search_single P hP (parsePattern P) (parsePattern path)
    node.zero rfl rfl hps (forall₂_of_zip _ _ hlen hagree)
  obtain ⟨params1, p1, p2, p3⟩ := router.getRoute.loop_starfree (parsePattern path)
    (parsePattern P) 0 (fun _ => none)
    (fun p hp => ⟨parsePattern_ne_nil P p hp, hps p hp⟩) (by omega)
  refine ⟨e, params1, ?_, hePat, ?_, ?_⟩
  · simp only [router.getRoute, routerOf_single_roots ops1 ops2 m P h h1 h2, he, hePat, p1]
  · intro j name hj
    have := p3 j name hj (fun j1 hlt =>
      nodup_filter_index isColon (parsePattern P) hdistinct j j1 _ hlt hj (by simp [isColon]))
    simpa using this
  · intro k hk
    exact p2 k hk

/-- C3, as stated, fails for the empty pattern P: the request `/` has the same
(empty) segment list, and `getRoute` returns `(nil, nil)`. -/
theorem C3_counterexample :
    (∀ s ∈ strings.Split [] '/', strings.HasPrefixStar s = false) ∧
    ((parsePattern []).filter isColon).Nodup ∧
    (parsePattern "/".toList).length = (parsePattern []).length ∧
    (∀ pq ∈ List.zip (parsePattern []) (parsePattern "/".toList),
      isCapture pq.1 = false → pq.1 = pq.2) ∧
    ¬ ∃ n params, (routerOf [Route.mk "GET".toList [] HandlerFunc.nil]).getRoute
        "GET".toList "/".toList = RouteResult.found n params := by
  refine ⟨by decide, by decide, by decide, by decide, ?_⟩
  rintro ⟨n, params, h⟩
  have h0 : (routerOf [Route.mk "GET".toList [] HandlerFunc.nil]).getRoute
      "GET".toList "/".toList = RouteResult.notFound := by rfl
  rw [h0] at h
  cases h

theorem C3_param_route_witness :
    ∃ n params,
      (routerOf ([Route.mk "POST".toList "/p".toList HandlerFunc.nil] ++
        Route.mk "GET".toList "/p/:lang/doc".toList HandlerFunc.nil :: [])).getRoute
          "GET".toList "/p/go/doc".toList = RouteResult.found n params ∧
      n.pattern = "/p/:lang/doc".toList ∧
      params "lang".toList = some "go".toList ∧
      (∀ k : Str, k ≠ "lang".toList → params k = none) := by
  obtain ⟨n, params, hr, hn, hb, hk⟩ :=
    C3_param_route [Route.mk "POST".toList "/p".toList HandlerFunc.nil] [] "GET".toList
      "/p/:lang/doc".toList "/p/go/doc".toList HandlerFunc.nil (by decide) (by decide)
      (by decide) (by decide) (by decide) (by decide) (by decide)
  have hps : parsePattern "/p/:lang/doc".toList = ["p".toList, ":lang".toList, "doc".toList] := by
    decide
  have hqs : parsePattern "/p/go/doc".toList = ["p".toList, "go".toList, "doc".toList] := by
    decide
  refine ⟨n, params, hr, hn, ?_, ?_⟩
  · have := hb 1 "lang".toList (by rw [hps]; rfl)
    rw [this, hqs]; rfl
  · intro k hne
    apply hk
    intro j
    rw [hps]
    match j with
    | 0 => simp
    | 1 =>
      intro e
      apply hne
      simp at e
      simp [e]
    | 2 => simp
    | j + 3 => simp

/-- C4 (the code at the failing input): with the single route
`GET /static/*filepath`, the request `/static/*a/b` has the components
`static`, `*a`, `b`, but `getRoute` binds `filepath` to `*a` and not to `*a/b`:
`parsePattern`, applied to the request path, stops after the component `*a`. -/
theorem C4_wildcard_request_truncated :
    strings.Split "/static/*a/b".toList '/' = [[], "static".toList, "*a".toList, "b".toList] ∧
    parsePattern "/static/*a/b".toList = ["static".toList, "*a".toList] ∧
    ∃ n params,
      (routerOf [Route.mk "GET".toList "/static/*filepath".toList HandlerFunc.nil]).getRoute
        "GET".toList "/static/*a/b".toList = RouteResult.found n params ∧
      n.pattern = "/static/*filepath".toList ∧
      params "filepath".toList = some "*a".toList ∧
      params "filepath".toList ≠ some "*a/b".toList :=
  ⟨by decide, by decide, _, _, rfl, by decide, by decide, by decide⟩

/-! ## The chain driver: unfolding lemmas -/

namespace Context

theorem Next_zero (c : Context) : Next 0 c = Outcome.timeout := by
  rw [Next]

theorem Next_succ (fuel : Nat) (c : Context) :
    Next (fuel + 1) c = loop fuel c.handlers.length { c with index := c.index + 1 } := by
  rw [Next]

theorem loop_zero (s : Nat) (c : Context) : loop 0 s c = Outcome.timeout := by
  rw [loop]

theorem loop_exit (fuel s : Nat) (c : Context) (h : ¬ c.index < s) :
    loop (fuel + 1) s c = Outcome.ok c := by
  rw [loop]; simp [h]

theorem loop_negative (fuel s : Nat) (c : Context) (h : c.index < 0) :
    loop (fuel + 1) s c = Outcome.panic c := by
  rw [loop]
  have : c.index < s := by omega
  simp [h, this]

theorem loop_range (fuel s : Nat) (c : Context) (h : c.index < s) (h0 : 0 ≤ c.index)
    (hr : c.handlers[c.index.toNat]? = none) :
    loop (fuel + 1) s c = Outcome.panic c := by
  rw [loop]
  simp [h, not_lt.2 h0, hr]

theorem loop_nil (fuel s : Nat) (c : Context) (h : c.index < s) (h0 : 0 ≤ c.index)
    (hr : c.handlers[c.index.toNat]? = some HandlerFunc.nil) :
    loop (fuel + 1) s c = Outcome.panic c := by
  rw [loop]
  simp [h, not_lt.2 h0, hr]

theorem loop_fn (fuel s : Nat) (c : Context) (body : List Stmt) (h : c.index < s)
    (h0 : 0 ≤ c.index) (hr : c.handlers[c.index.toNat]? = some (HandlerFunc.fn body)) :
    loop (fuel + 1) s c =
      match call fuel body { c with calls := c.calls ++ [c.index.toNat] } with
      | Outcome.ok c1 => loop fuel s { c1 with index := c1.index + 1 }
      | o => o := by
  rw [loop]
  simp [h, not_lt.2 h0, hr]

theorem call_zero (body : List Stmt) (c : Context) : call 0 body c = Outcome.timeout := by
  rw [call]

theorem call_nil (fuel : Nat) (c : Context) : call (fuel + 1) [] c = Outcome.ok c := by
  rw [call]

theorem call_mark (fuel : Nat) (e : Nat) (rest : List Stmt) (c : Context) :
    call (fuel + 1) (Stmt.mark e :: rest) c =
      call fuel rest { c with out := c.out ++ [Event.mark e] } := by
  rw [call]

theorem call_Next (fuel : Nat) (rest : List Stmt) (c : Context) :
    call (fuel + 1) (Stmt.Next :: rest) c =
      match Next fuel c with
      | Outcome.ok c1 => call fuel rest c1
      | o => o := by
  rw [call]

theorem Fail_bad (c : Context) (code : Int) (err : Str) (h : c.badCode code = true) :
    c.Fail code err = Outcome.panic (c.failedAt code) := by
  simp only [badCode, Bool.and_eq_true, Bool.not_eq_true', Bool.or_eq_true,
    decide_eq_true_eq] at h
  simp [Fail, JSON, Status, WriteHeader, failedAt, h.1, h.2]

theorem Fail_good (c : Context) (code : Int) (err : Str) (h : c.badCode code = false) :
    c.Fail code err = Outcome.ok (c.failed code err) := by
  cases hw : c.wroteHeader with
  | true => simp [Fail, JSON, Status, WriteHeader, Write, failed, hw]
  | false =>
    have h2 : ¬ (code < 100 ∨ 999 < code) := by
      intro h3
      simp [badCode, hw] at h
      omega
    simp [Fail, JSON, Status, WriteHeader, Write, failed, hw, h2]

theorem String_bad (c : Context) (code : Int) (text : Str) (h : c.badCode code = true) :
    c.String code text = Outcome.panic (c.writtenAt code) := by
  simp only [badCode, Bool.and_eq_true, Bool.not_eq_true', Bool.or_eq_true,
    decide_eq_true_eq] at h
  simp [String, Status, WriteHeader, writtenAt, h.1, h.2]

theorem String_good (c : Context) (code : Int) (text : Str) (h : c.badCode code = false) :
    c.String code text = Outcome.ok (c.written code text) := by
  cases hw : c.wroteHeader with
  | true => simp [String, Status, WriteHeader, Write, written, hw]
  | false =>
    have h2 : ¬ (code < 100 ∨ 999 < code) := by
      intro h3
      simp [badCode, hw] at h
      omega
    simp [String, Status, WriteHeader, Write, written, hw, h2]

theorem call_Fail (fuel : Nat) (code : Int) (err : Str) (rest : List Stmt) (c : Context)
    (h : c.badCode code = false) :
    call (fuel + 1) (Stmt.Fail code err :: rest) c = call fuel rest (c.failed code err) := by
  rw [call, Fail_good c code err h]

theorem call_Fail_bad (fuel : Nat) (code : Int) (err : Str) (rest : List Stmt) (c : Context)
    (h : c.badCode code = true) :
    call (fuel + 1) (Stmt.Fail code err :: rest) c = Outcome.panic (c.failedAt code) := by
  rw [call, Fail_bad c code err h]

theorem call_String (fuel : Nat) (code : Int) (text : Str) (rest : List Stmt) (c : Context)
    (h : c.badCode code = false) :
    call (fuel + 1) (Stmt.String code text :: rest) c = call fuel rest (c.written code text) := by
  rw [call, String_good c code text h]

theorem call_String_bad (fuel : Nat) (code : Int) (text : Str) (rest : List Stmt) (c : Context)
    (h : c.badCode code = true) :
    call (fuel + 1) (Stmt.String code text :: rest) c = Outcome.panic (c.writtenAt code) := by
  rw [call, String_bad c code text h]

end Context

/-! ## More fuel never changes a result -/

theorem Context.fuel_succ : ∀ fuel : Nat,
    (∀ c, Context.Next fuel c ≠ Outcome.timeout →
      Context.Next (fuel + 1) c = Context.Next fuel c) ∧
    (∀ s c, Context.loop fuel s c ≠ Outcome.timeout →
      Context.loop (fuel + 1) s c = Context.loop fuel s c) ∧
    (∀ body c, Context.call fuel body c ≠ Outcome.timeout →
      Context.call (fuel + 1) body c = Context.call fuel body c) := by
  intro fuel
  induction fuel with
  | zero =>
    refine ⟨fun c h => ?_, fun s c h => ?_, fun body c h => ?_⟩
    · exact absurd (Context.Next_zero c) h
    · exact absurd (Context.loop_zero s c) h
    · exact absurd (Context.call_zero body c) h
  | succ f ih =>
    obtain ⟨ihN, ihL, ihC⟩ := ih
    refine ⟨fun c h => ?_, fun s c h => ?_, fun body c h => ?_⟩
    · rw [Context.Next_succ] at h ⊢
      rw [Context.Next_succ]
      exact ihL _ _ h
    · by_cases hlt : c.index < s
      · by_cases hneg : c.index < 0
        · rw [Context.loop_negative _ _ _ hneg, Context.loop_negative _ _ _ hneg]
        · have h0 : 0 ≤ c.index := not_lt.1 hneg
          cases hr : c.handlers[c.index.toNat]? with
          | none => rw [Context.loop_range _ _ _ hlt h0 hr, Context.loop_range _ _ _ hlt h0 hr]
          | some hf =>
            cases hf with
            | nil => rw [Context.loop_nil _ _ _ hlt h0 hr, Context.loop_nil _ _ _ hlt h0 hr]
            | fn body =>
              rw [Context.loop_fn _ _ _ body hlt h0 hr] at h ⊢
              rw [Context.loop_fn _ _ _ body hlt h0 hr]
              cases hc : Context.call f body
                  { c with calls := c.calls ++ [c.index.toNat] } with
              | timeout => rw [hc] at h; exact absurd rfl h
              | panic c1 =>
                rw [ihC _ _ (by rw [hc]; simp), hc]
              | ok c1 =>
                rw [hc] at h
                rw [ihC _ _ (by rw [hc]; simp), hc]
                exact ihL _ _ h
      · rw [Context.loop_exit _ _ _ hlt, Context.loop_exit _ _ _ hlt]
    · cases body with
      | nil => rw [Context.call_nil, Context.call_nil]
      | cons st rest =>
        cases st with
        | mark e =>
          rw [Context.call_mark] at h ⊢
          rw [Context.call_mark]
          exact ihC _ _ h
        | Next =>
          rw [Context.call_Next] at h ⊢
          rw [Context.call_Next]
          cases hn : Context.Next f c with
          | timeout => rw [hn] at h; exact absurd rfl h
          | panic c1 => rw [ihN _ (by rw [hn]; simp), hn]
          | ok c1 =>
            rw [hn] at h
            rw [ihN _ (by rw [hn]; simp), hn]
            exact ihC _ _ h
        | Fail code err =>
          cases hb : c.badCode code with
          | true =>
            rw [Context.call_Fail_bad _ _ _ _ _ hb, Context.call_Fail_bad _ _ _ _ _ hb]
          | false =>
            rw [Context.call_Fail _ _ _ _ _ hb] at h ⊢
            rw [Context.call_Fail _ _ _ _ _ hb]
            exact ihC _ _ h
        | String code text =>
          cases hb : c.badCode code with
          | true =>
            rw [Context.call_String_bad _ _ _ _ _ hb, Context.call_String_bad _ _ _ _ _ hb]
          | false =>
            rw [Context.call_String _ _ _ _ _ hb] at h ⊢
            rw [Context.call_String _ _ _ _ _ hb]
            exact ihC _ _ h

theorem Context.call_mono (f g : Nat) (body : List Stmt) (c : Context) (hfg : f ≤ g)
    (h : Context.call f body c ≠ Outcome.timeout) :
    Context.call g body c = Context.call f body c := by
  induction g with
  | zero =>
    have : f = 0 := by omega
    rw [this]
  | succ g ih =>
    by_cases hfg1 : f ≤ g
    · have e := ih hfg1
      rw [(Context.fuel_succ g).2.2 body c (by rw [e]; exact h), e]
    · have : f = g + 1 := by omega
      rw [this]

/-! ## A frame rule for the chain driver -/

/-- The three ways one round of the loop can go. -/
theorem Context.loop_cases (fuel s : Nat) (c : Context) :
    (¬ c.index < s ∧ Context.loop (fuel + 1) s c = Outcome.ok c) ∨
    (c.index < s ∧ Context.loop (fuel + 1) s c = Outcome.panic c ∧
      ∀ body, c.handlers[c.index.toNat]? = some (HandlerFunc.fn body) → c.index < 0) ∨
    (∃ body, c.index < s ∧ 0 ≤ c.index ∧
      c.handlers[c.index.toNat]? = some (HandlerFunc.fn body) ∧
      Context.loop (fuel + 1) s c =
        match Context.call fuel body { c with calls := c.calls ++ [c.index.toNat] } with
        | Outcome.ok c1 => Context.loop fuel s { c1 with index := c1.index + 1 }
        | o => o) := by
  by_cases hlt : c.index < s
  · by_cases hneg : c.index < 0
    · exact Or.inr (Or.inl ⟨hlt, Context.loop_negative _ _ _ hneg, fun _ _ => hneg⟩)
    · have h0 : 0 ≤ c.index := not_lt.1 hneg
      cases hr : c.handlers[c.index.toNat]? with
      | none =>
        exact Or.inr (Or.inl ⟨hlt, Context.loop_range _ _ _ hlt h0 hr, fun _ h => by cases h⟩)
      | some hf =>
        cases hf with
        | nil =>
          exact Or.inr (Or.inl ⟨hlt, Context.loop_nil _ _ _ hlt h0 hr, fun _ h => by cases h⟩)
        | fn body =>
          exact Or.inr (Or.inr ⟨body, hlt, h0, rfl, Context.loop_fn _ _ _ body hlt h0 hr⟩)
  · exact Or.inl ⟨hlt, Context.loop_exit _ _ _ hlt⟩

/-- Every reflexive and transitive relation that holds across each elementary
state change holds between a context and every context a run from it ends in. -/
theorem Context.run_rel (R : Context → Context → Prop) (hrefl : ∀ c, R c c)
    (htrans : ∀ a b c, R a b → R b c → R a c)
    (hidx : ∀ c : Context, R c { c with index := c.index + 1 })
    (hcall : ∀ c : Context, R c { c with calls := c.calls ++ [c.index.toNat] })
    (hmark : ∀ (c : Context) (e : Nat), R c { c with out := c.out ++ [Event.mark e] })
    (hfail : ∀ (c : Context) (code : Int) (err : Str), R c (c.failed code err))
    (hfailAt : ∀ (c : Context) (code : Int), R c (c.failedAt code))
    (hstr : ∀ (c : Context) (code : Int) (text : Str), R c (c.written code text))
    (hstrAt : ∀ (c : Context) (code : Int), R c (c.writtenAt code)) :
    ∀ fuel : Nat,
      (∀ c c1, (Context.Next fuel c).ctx = some c1 → R c c1) ∧
      (∀ s c c1, (Context.loop fuel s c).ctx = some c1 → R c c1) ∧
      (∀ body c c1, (Context.call fuel body c).ctx = some c1 → R c c1) := by
  intro fuel
  induction fuel with
  | zero =>
    refine ⟨fun c c1 h => ?_, fun s c c1 h => ?_, fun body c c1 h => ?_⟩
    · rw [Context.Next_zero] at h; cases h
    · rw [Context.loop_zero] at h; cases h
    · rw [Context.call_zero] at h; cases h
  | succ f ih =>
    obtain ⟨ihN, ihL, ihC⟩ := ih
    refine ⟨fun c c1 h => ?_, fun s c c1 h => ?_, fun body c c1 h => ?_⟩
    · rw [Context.Next_succ] at h
      exact htrans _ _ _ (hidx c) (ihL _ _ _ h)
    · rcases Context.loop_cases f s c with ⟨_, e⟩ | ⟨_, e, _⟩ | ⟨body, _, _, _, e⟩
      · rw [e] at h; cases h; exact hrefl _
      · rw [e] at h; cases h; exact hrefl _
      · rw [e] at h
        cases hc : Context.call f body { c with calls := c.calls ++ [c.index.toNat] } with
        | timeout => rw [hc] at h; cases h
        | panic c2 =>
          rw [hc] at h
          cases h
          exact htrans _ _ _ (hcall c) (ihC _ _ _ (by rw [hc]; rfl))
        | ok c2 =>
          rw [hc] at h
          have r1 := htrans _ _ _ (hcall c) (ihC _ _ c2 (by rw [hc]; rfl))
          exact htrans _ _ _ r1 (htrans _ _ _ (hidx c2) (ihL _ _ _ h))
    · cases body with
      | nil => rw [Context.call_nil] at h; cases h; exact hrefl _
      | cons st rest =>
        cases st with
        | mark e =>
          rw [Context.call_mark] at h
          exact htrans _ _ _ (hmark c e) (ihC _ _ _ h)
        | Next =>
          rw [Context.call_Next] at h
          cases hn : Context.Next f c with
          | timeout => rw [hn] at h; cases h
          | panic c2 =>
            rw [hn] at h
            cases h
            exact ihN _ _ (by rw [hn]; rfl)
          | ok c2 =>
            rw [hn] at h
            exact htrans _ _ _ (ihN _ c2 (by rw [hn]; rfl)) (ihC _ _ _ h)
        | Fail code err =>
          cases hb : c.badCode code with
          | true =>
            rw [Context.call_Fail_bad _ _ _ _ _ hb] at h
            cases h
            exact hfailAt c code
          | false =>
            rw [Context.call_Fail _ _ _ _ _ hb] at h
            exact htrans _ _ _ (hfail c code err) (ihC _ _ _ h)
        | String code text =>
          cases hb : c.badCode code with
          | true =>
            rw [Context.call_String_bad _ _ _ _ _ hb] at h
            cases h
            exact hstrAt c code
          | false =>
            rw [Context.call_String _ _ _ _ _ hb] at h
            exact htrans _ _ _ (hstr c code text) (ihC _ _ _ h)

theorem Context.Ext.refl (c : Context) : Context.Ext c c :=
  ⟨rfl, rfl, rfl, rfl, ⟨[], by simp⟩, ⟨[], by simp⟩, fun _ _ h => h⟩

theorem Context.Ext.trans (a b c : Context) (h1 : Context.Ext a b) (h2 : Context.Ext b c) :
    Context.Ext a c := by
  obtain ⟨a1, a2, a3, a4, ⟨t1, a5⟩, ⟨u1, a6⟩, a7⟩ := h1
  obtain ⟨b1, b2, b3, b4, ⟨t2, b5⟩, ⟨u2, b6⟩, b7⟩ := h2
  refine ⟨b1.trans a1, b2.trans a2, b3.trans a3, b4.trans a4, ⟨t1 ++ t2, ?_⟩, ⟨u1 ++ u2, ?_⟩, ?_⟩
  · rw [b5, a5, List.append_assoc]
  · rw [b6, a6, List.append_assoc]
  · intro k hk hka
    exact b7 k (by rw [a1]; exact hk) (a7 k hk hka)

theorem Context.run_ext (fuel : Nat) :
    (∀ c c1, (Context.Next fuel c).ctx = some c1 → Context.Ext c c1) ∧
    (∀ s c c1, (Context.loop fuel s c).ctx = some c1 → Context.Ext c c1) ∧
    (∀ body c c1, (Context.call fuel body c).ctx = some c1 → Context.Ext c c1) := by
  apply Context.run_rel Context.Ext Context.Ext.refl Context.Ext.trans
  · intro c
    exact ⟨rfl, rfl, rfl, rfl, ⟨[], by simp⟩, ⟨[], by simp⟩, fun k _ h => by
      show k ≤ c.index + 1
      omega⟩
  · intro c
    exact ⟨rfl, rfl, rfl, rfl, ⟨[c.index.toNat], rfl⟩, ⟨[], by simp⟩, fun _ _ h => h⟩
  · intro c e
    exact ⟨rfl, rfl, rfl, rfl, ⟨[], by simp⟩, ⟨[Event.mark e], rfl⟩, fun _ _ h => h⟩
  · intro c code err
    exact ⟨rfl, rfl, rfl, rfl, ⟨[], by simp [Context.failed]⟩, ⟨[Event.json code err], rfl⟩,
      fun k hk _ => hk⟩
  · intro c code
    exact ⟨rfl, rfl, rfl, rfl, ⟨[], by simp [Context.failedAt]⟩,
      ⟨[], by simp [Context.failedAt]⟩, fun k hk _ => hk⟩
  · intro c code text
    exact ⟨rfl, rfl, rfl, rfl, ⟨[], by simp [Context.written]⟩, ⟨[Event.text code text], rfl⟩,
      fun _ _ h => h⟩
  · intro c code
    exact ⟨rfl, rfl, rfl, rfl, ⟨[], by simp [Context.writtenAt]⟩,
      ⟨[], by simp [Context.writtenAt]⟩, fun _ _ h => h⟩

/-! ## Every run of the chain ends -/

theorem Context.call_total (hs : List HandlerFunc) (k : Int) (hk : k + 1 ≤ hs.length)
    (g : Nat)
    (H : ∀ c : Context, c.handlers = hs → k + 1 ≤ c.index → ∀ f, g ≤ f →
      Context.loop f hs.length c ≠ Outcome.timeout) :
    ∀ (body : List Stmt) (c : Context) (f : Nat), c.handlers = hs → k ≤ c.index →
      body.length + 1 + g ≤ f → Context.call f body c ≠ Outcome.timeout := by
  intro body
  induction body with
  | nil =>
    intro c f _ _ hf
    obtain ⟨f1, rfl⟩ : ∃ f1, f = f1 + 1 := ⟨f - 1, by simp at hf; omega⟩
    rw [Context.call_nil]
    simp
  | cons st rest ih =>
    intro c f hh hidx hf
    simp only [List.length_cons] at hf
    obtain ⟨f1, rfl⟩ : ∃ f1, f = f1 + 1 := ⟨f - 1, by omega⟩
    cases st with
    | mark e =>
      rw [Context.call_mark]
      exact ih _ _ hh hidx (by omega)
    | Next =>
      rw [Context.call_Next]
      obtain ⟨f2, rfl⟩ : ∃ f2, f1 = f2 + 1 := ⟨f1 - 1, by omega⟩
      have hN : Context.Next (f2 + 1) c ≠ Outcome.timeout := by
        have hl : c.handlers.length = hs.length := by rw [hh]
        rw [Context.Next_succ, hl]
        exact H { c with index := c.index + 1 } hh (by show k + 1 ≤ c.index + 1; omega) f2
          (by omega)
      cases hn : Context.Next (f2 + 1) c with
      | timeout => exact absurd hn hN
      | panic c1 => simp
      | ok c1 =>
        obtain ⟨e1, _, _, _, _, _, e7⟩ := (Context.run_ext (f2 + 1)).1 c c1 (by rw [hn]; rfl)
        exact ih c1 _ (e1.trans hh) (e7 k (by rw [hh]; omega) hidx) (by omega)
    | Fail code err =>
      cases hb : c.badCode code with
      | true =>
        rw [Context.call_Fail_bad _ _ _ _ _ hb]
        simp
      | false =>
        rw [Context.call_Fail _ _ _ _ _ hb]
        exact ih _ _ hh (by show k ≤ ((c.handlers.length : Nat) : Int); rw [hh]; omega)
          (by omega)
    | String code text =>
      cases hb : c.badCode code with
      | true =>
        rw [Context.call_String_bad _ _ _ _ _ hb]
        simp
      | false =>
        rw [Context.call_String _ _ _ _ _ hb]
        exact ih _ _ hh hidx (by omega)

theorem Context.loop_total : ∀ (suf pre : List HandlerFunc) (c : Context),
    c.handlers = pre ++ suf → (pre.length : Int) ≤ c.index →
    ∀ f, 1 + chainCost suf ≤ f →
      Context.loop f (pre ++ suf).length c ≠ Outcome.timeout := by
  intro suf
  induction suf with
  | nil =>
    intro pre c _ hidx f hf
    obtain ⟨f1, rfl⟩ : ∃ f1, f = f1 + 1 := ⟨f - 1, by omega⟩
    rw [Context.loop_exit _ _ _ (by simp; omega)]
    simp
  | cons h suf ih =>
    intro pre c hh hidx f hf
    obtain ⟨f1, rfl⟩ : ∃ f1, f = f1 + 1 := ⟨f - 1, by omega⟩
    have hsplit : pre ++ h :: suf = (pre ++ [h]) ++ suf := by simp
    have hcost : chainCost suf + 2 ≤ chainCost (h :: suf) := by
      cases h <;> simp [chainCost] <;> omega
    have H : ∀ c : Context, c.handlers = pre ++ h :: suf → (pre.length : Int) + 1 ≤ c.index →
        ∀ f, 1 + chainCost suf ≤ f →
          Context.loop f (pre ++ h :: suf).length c ≠ Outcome.timeout := by
      intro c1 hh1 hidx1 f2 hf2
      rw [hsplit]
      exact ih (pre ++ [h]) c1 (by rw [hh1, hsplit]) (by simp; omega) f2 hf2
    by_cases hi : (pre.length : Int) + 1 ≤ c.index
    · exact H c hh hi _ (by omega)
    · have hieq : c.index = pre.length := by omega
      rcases Context.loop_cases f1 (pre ++ h :: suf).length c with
        ⟨_, e⟩ | ⟨_, e, _⟩ | ⟨body, _, _, hb, e⟩
      · rw [e]; simp
      · rw [e]; simp
      · rw [e]
        have hbody : h = HandlerFunc.fn body := by
          have hget : (pre ++ h :: suf)[pre.length]? = some h := by
            rw [List.getElem?_append_right (Nat.le_refl _)]
            simp
          rw [hh, hieq, Int.toNat_ofNat, hget] at hb
          exact Option.some.inj hb
        have hcost2 : chainCost (h :: suf) = body.length + 2 + chainCost suf := by
          rw [hbody]; rfl
        have hC := Context.call_total (pre ++ h :: suf) pre.length (by simp)
          (1 + chainCost suf) (fun c1 hh1 hidx1 f2 hf2 => H c1 hh1 hidx1 f2 hf2) body
          { c with calls := c.calls ++ [c.index.toNat] } f1 hh hidx (by omega)
        cases hc : Context.call f1 body { c with calls := c.calls ++ [c.index.toNat] } with
        | timeout => exact absurd hc hC
        | panic c1 => simp
        | ok c1 =>
          obtain ⟨e1, _, _, _, _, _, e7⟩ := (Context.run_ext f1).2.2 body _ c1 (by rw [hc]; rfl)
          have e1' : c1.handlers = pre ++ h :: suf := e1.trans hh
          have hlen : c.handlers.length = pre.length + (suf.length + 1) := by
            rw [hh]; simp
          have hk := e7 pre.length
            (by show (pre.length : Int) ≤ ((c.handlers.length : Nat) : Int); omega) hidx
          exact H { c1 with index := c1.index + 1 } e1'
            (by show (pre.length : Int) + 1 ≤ c1.index + 1; omega) f1 (by omega)

/-- Every run of `Next` ends: with fuel beyond `chainCost` it returns or panics. -/
theorem Context.Next_total (c : Context) (hidx : -1 ≤ c.index) (f : Nat)
    (hf : 2 + chainCost c.handlers ≤ f) : Context.Next f c ≠ Outcome.timeout := by
  obtain ⟨f1, rfl⟩ : ∃ f1, f = f1 + 1 := ⟨f - 1, by omega⟩
  rw [Context.Next_succ]
  have := Context.loop_total c.handlers [] { c with index := c.index + 1 } rfl
    (by show ((0 : Nat) : Int) ≤ c.index + 1; omega) f1 (by omega)
  simpa using this

/-! ## Big-step rules (with enough fuel) -/

theorem Context.CallTo.nil (c : Context) : Context.CallTo [] c c :=
  ⟨1, Context.call_nil 0 c⟩

theorem Context.CallTo.mark {e : Nat} {rest : List Stmt} {c c1 : Context}
    (h : Context.CallTo rest { c with out := c.out ++ [Event.mark e] } c1) :
    Context.CallTo (Stmt.mark e :: rest) c c1 := by
  obtain ⟨f, hf⟩ := h
  exact ⟨f + 1, by rw [Context.call_mark, hf]⟩

theorem Context.NextTo.intro {c c1 : Context}
    (h : Context.LoopTo c.handlers.length { c with index := c.index + 1 } c1) :
    Context.NextTo c c1 := by
  obtain ⟨f, hf⟩ := h
  exact ⟨f + 1, by rw [Context.Next_succ, hf]⟩

/-! ## Bodies that never call Next -/

theorem Context.badCode_of_range (c : Context) (code : Int) (h1 : 100 ≤ code)
    (h2 : code ≤ 999) : c.badCode code = false := by
  have a : ¬ code < 100 := by omega
  have b : ¬ 999 < code := by omega
  simp [Context.badCode, a, b]

theorem codesOk_Fail (code : Int) (err : Str) (rest : List Stmt)
    (h : codesOk (Stmt.Fail code err :: rest) = true) :
    (∀ c : Context, c.badCode code = false) ∧ codesOk rest = true := by
  simp only [codesOk, Bool.and_eq_true, decide_eq_true_eq] at h
  exact ⟨fun c => Context.badCode_of_range c code h.1.1 h.1.2, h.2⟩

theorem codesOk_String (code : Int) (text : Str) (rest : List Stmt)
    (h : codesOk (Stmt.String code text :: rest) = true) :
    (∀ c : Context, c.badCode code = false) ∧ codesOk rest = true := by
  simp only [codesOk, Bool.and_eq_true, decide_eq_true_eq] at h
  exact ⟨fun c => Context.badCode_of_range c code h.1.1 h.1.2, h.2⟩

theorem Context.call_straight : ∀ (body : List Stmt) (c : Context), Stmt.Next ∉ body →
    codesOk body = true →
    ∀ f, body.length + 1 ≤ f → Context.call f body c = Outcome.ok (straight body c) := by
  intro body
  induction body with
  | nil =>
    intro c _ _ f hf
    obtain ⟨f1, rfl⟩ : ∃ f1, f = f1 + 1 := ⟨f - 1, by simp at hf; omega⟩
    rw [Context.call_nil]; rfl
  | cons st rest ih =>
    intro c hn hok f hf
    simp only [List.length_cons] at hf
    obtain ⟨f1, rfl⟩ : ∃ f1, f = f1 + 1 := ⟨f - 1, by omega⟩
    have hrest : Stmt.Next ∉ rest := fun h => hn (List.mem_cons_of_mem _ h)
    cases st with
    | mark e => rw [Context.call_mark, straight]; exact ih _ hrest hok _ (by omega)
    | Next => exact absurd (List.mem_cons_self _ _) hn
    | Fail code err =>
      obtain ⟨hb, hok1⟩ := codesOk_Fail code err rest hok
      rw [Context.call_Fail _ _ _ _ _ (hb c), straight]
      exact ih _ hrest hok1 _ (by omega)
    | String code text =>
      obtain ⟨hb, hok1⟩ := codesOk_String code text rest hok
      rw [Context.call_String _ _ _ _ _ (hb c), straight]
      exact ih _ hrest hok1 _ (by omega)

/-- A body that never calls `Next` runs out of fuel, returns the context
`straight` computes, or panics in a write with the invocations unchanged. -/
theorem Context.call_straight_cases : ∀ (body : List Stmt) (c : Context), Stmt.Next ∉ body →
    ∀ f : Nat, Context.call f body c = Outcome.timeout ∨
      Context.call f body c = Outcome.ok (straight body c) ∨
      ∃ c2, Context.call f body c = Outcome.panic c2 ∧ c2.calls = c.calls := by
  intro body
  induction body with
  | nil =>
    intro c _ f
    cases f with
    | zero => exact Or.inl (Context.call_zero _ _)
    | succ f => exact Or.inr (Or.inl (by rw [Context.call_nil]; rfl))
  | cons st rest ih =>
    intro c hn f
    have hrest : Stmt.Next ∉ rest := fun h => hn (List.mem_cons_of_mem _ h)
    cases f with
    | zero => exact Or.inl (Context.call_zero _ _)
    | succ f =>
      cases st with
      | mark e => rw [Context.call_mark, straight]; exact ih _ hrest f
      | Next => exact absurd (List.mem_cons_self _ _) hn
      | Fail code err =>
        cases hb : c.badCode code with
        | true =>
          rw [Context.call_Fail_bad _ _ _ _ _ hb]
          exact Or.inr (Or.inr ⟨_, rfl, rfl⟩)
        | false =>
          rw [Context.call_Fail _ _ _ _ _ hb, straight]
          exact ih _ hrest f
      | String code text =>
        cases hb : c.badCode code with
        | true =>
          rw [Context.call_String_bad _ _ _ _ _ hb]
          exact Or.inr (Or.inr ⟨_, rfl, rfl⟩)
        | false =>
          rw [Context.call_String _ _ _ _ _ hb, straight]
          exact ih _ hrest f

/-- A body that never calls `Next` and passes only status codes in 100..999
runs out of fuel or returns the context `straight` computes. -/
theorem Context.call_straight_ok (body : List Stmt) (c : Context) (hn : Stmt.Next ∉ body)
    (hok : codesOk body = true) (f : Nat) :
    Context.call f body c = Outcome.timeout ∨
      Context.call f body c = Outcome.ok (straight body c) := by
  by_cases h : Context.call f body c = Outcome.timeout
  · exact Or.inl h
  · right
    rw [← Context.call_mono f (max f (body.length + 1)) body c (le_max_left _ _) h]
    exact Context.call_straight body c hn hok _ (le_max_right _ _)

theorem straight_spec : ∀ (body : List Stmt) (c : Context),
    (straight body c).handlers = c.handlers ∧ (straight body c).calls = c.calls ∧
    (straight body c).out = c.out ++ eventsOf body ∧
    (straight body c).index = if callsFail body then (c.handlers.length : Int) else c.index := by
  intro body
  induction body with
  | nil => intro c; simp [straight, eventsOf, callsFail]
  | cons st rest ih =>
    intro c
    cases st with
    | mark e =>
      obtain ⟨a, b, d, e1⟩ := ih { c with out := c.out ++ [Event.mark e] }
      exact ⟨a, b, by rw [straight, d]; simp [eventsOf], by rw [straight, e1]; simp [callsFail]⟩
    | Next =>
      obtain ⟨a, b, d, e1⟩ := ih c
      exact ⟨a, b, by rw [straight, d]; simp [eventsOf], by rw [straight, e1]; simp [callsFail]⟩
    | Fail code err =>
      obtain ⟨a, b, d, e1⟩ := ih (c.failed code err)
      refine ⟨a, b, by rw [straight, d]; simp [eventsOf, Context.failed], ?_⟩
      rw [straight, e1]
      simp [callsFail, Context.failed]
    | String code text =>
      obtain ⟨a, b, d, e1⟩ := ih (c.written code text)
      exact ⟨a, b, by rw [straight, d]; simp [eventsOf, Context.written],
        by rw [straight, e1]; simp [callsFail, Context.written]⟩

/-! ## Onion order -/

theorem Context.CallTo.straight (b : List Stmt) (c : Context) (hn : Stmt.Next ∉ b)
    (hok : codesOk b = true) : Context.CallTo b c (straight b c) :=
  ⟨b.length + 1, Context.call_straight b c hn hok _ (Nat.le_refl _)⟩

/-- When the handler at position `i` calls `Fail` and never `Next`: from a
cursor that is at most `i` or past the chain, no position beyond `i` is ever
invoked, and a run that returns leaves the cursor past the chain (`Next`, the
loop) or as constrained as it was (a body). -/
theorem Context.abort_calls (hs : List HandlerFunc) (i : Nat) (body : List Stmt)
    (hi : hs[i]? = some (HandlerFunc.fn body)) (hfail : callsFail body = true)
    (hnext : Stmt.Next ∉ body) : ∀ f : Nat,
    (∀ c : Context, c.handlers = hs → (∀ j ∈ c.calls, j ≤ i) →
      (c.index + 1 ≤ i ∨ (hs.length : Int) ≤ c.index + 1) →
      (Context.Next f c).sat (fun c1 => ∀ j ∈ c1.calls, j ≤ i)
        (fun c1 => (∀ j ∈ c1.calls, j ≤ i) ∧ (hs.length : Int) ≤ c1.index)) ∧
    (∀ c : Context, c.handlers = hs → (∀ j ∈ c.calls, j ≤ i) →
      (c.index ≤ i ∨ (hs.length : Int) ≤ c.index) →
      (Context.loop f hs.length c).sat (fun c1 => ∀ j ∈ c1.calls, j ≤ i)
        (fun c1 => (∀ j ∈ c1.calls, j ≤ i) ∧ (hs.length : Int) ≤ c1.index)) ∧
    (∀ (b : List Stmt) (c : Context), c.handlers = hs → (∀ j ∈ c.calls, j ≤ i) →
      (c.index < i ∨ (hs.length : Int) ≤ c.index) →
      (Context.call f b c).sat (fun c1 => ∀ j ∈ c1.calls, j ≤ i)
        (fun c1 => (∀ j ∈ c1.calls, j ≤ i) ∧
          (c1.index < i ∨ (hs.length : Int) ≤ c1.index))) := by
  intro f
  induction f with
  | zero =>
    refine ⟨fun c _ _ _ => ?_, fun c _ _ _ => ?_, fun b c _ _ _ => ?_⟩
    · rw [Context.Next_zero]; trivial
    · rw [Context.loop_zero]; trivial
    · rw [Context.call_zero]; trivial
  | succ f ih =>
    obtain ⟨ihN, ihL, ihC⟩ := ih
    refine ⟨fun c hh hcalls hidx => ?_, fun c hh hcalls hidx => ?_,
      fun b c hh hcalls hidx => ?_⟩
    · have hl : c.handlers.length = hs.length := by rw [hh]
      rw [Context.Next_succ, hl]
      exact ihL { c with index := c.index + 1 } hh hcalls hidx
    · rcases Context.loop_cases f hs.length c with ⟨hge, e⟩ | ⟨_, e, _⟩ | ⟨b, hlt, h0, hb, e⟩
      · rw [e]
        exact ⟨hcalls, by omega⟩
      · rw [e]
        exact hcalls
      · rw [e]
        have hle : c.index ≤ i := by omega
        have hcalls1 : ∀ j ∈ c.calls ++ [c.index.toNat], j ≤ i := by
          intro j hj
          rcases List.mem_append.1 hj with h | h
          · exact hcalls j h
          · have : j = c.index.toNat := by simpa using h
            omega
        by_cases hieq : c.index = i
        · have hbody : b = body := by
            rw [hh, hieq, Int.toNat_ofNat, hi] at hb
            exact (HandlerFunc.fn.inj (Option.some.inj hb)).symm
          subst hbody
          rcases Context.call_straight_cases b
            { c with calls := c.calls ++ [c.index.toNat] } hnext f with hc | hc | ⟨c2, hc, hc2⟩
          · rw [hc]; trivial
          · rw [hc]
            obtain ⟨s1, s2, _, s4⟩ := straight_spec b
              { c with calls := c.calls ++ [c.index.toNat] }
            rw [hfail] at s4
            simp only [if_true] at s4
            refine ihL { straight b { c with calls := c.calls ++ [c.index.toNat] } with
              index := (straight b { c with calls := c.calls ++ [c.index.toNat] }).index + 1 }
              (s1.trans hh) (by rw [s2]; exact hcalls1) (Or.inr ?_)
            show (hs.length : Int) ≤ (straight b _).index + 1
            rw [s4]
            show (hs.length : Int) ≤ ((c.handlers.length : Nat) : Int) + 1
            rw [hh]
            omega
          · rw [hc]
            show ∀ j ∈ c2.calls, j ≤ i
            rw [hc2]
            exact hcalls1
        · have hC := ihC b { c with calls := c.calls ++ [c.index.toNat] } hh hcalls1
            (Or.inl (by show c.index < i; omega))
          cases hc : Context.call f b { c with calls := c.calls ++ [c.index.toNat] } with
          | timeout => trivial
          | panic c2 =>
            rw [hc] at hC
            exact hC
          | ok c2 =>
            rw [hc] at hC
            have e1 := ((Context.run_ext f).2.2 b _ c2 (by rw [hc]; rfl)).1
            refine ihL { c2 with index := c2.index + 1 } (e1.trans hh) hC.1 ?_
            show c2.index + 1 ≤ i ∨ (hs.length : Int) ≤ c2.index + 1
            rcases hC.2 with h | h
            · left; omega
            · right; omega
    · cases b with
      | nil =>
        rw [Context.call_nil]
        exact ⟨hcalls, hidx⟩
      | cons st rest =>
        cases st with
        | mark e =>
          rw [Context.call_mark]
          exact ihC rest _ hh hcalls hidx
        | Next =>
          rw [Context.call_Next]
          have hN := ihN c hh hcalls (by omega)
          cases hn : Context.Next f c with
          | timeout => trivial
          | panic c2 =>
            rw [hn] at hN
            exact hN
          | ok c2 =>
            rw [hn] at hN
            have e1 := ((Context.run_ext f).1 c c2 (by rw [hn]; rfl)).1
            exact ihC rest c2 (e1.trans hh) hN.1 (Or.inr hN.2)
        | Fail code err =>
          cases hb : c.badCode code with
          | true =>
            rw [Context.call_Fail_bad _ _ _ _ _ hb]
            exact hcalls
          | false =>
            rw [Context.call_Fail _ _ _ _ _ hb]
            refine ihC rest (c.failed code err) hh hcalls (Or.inr ?_)
            show (hs.length : Int) ≤ ((c.handlers.length : Nat) : Int)
            rw [hh]
        | String code text =>
          cases hb : c.badCode code with
          | true =>
            rw [Context.call_String_bad _ _ _ _ _ hb]
            exact hcalls
          | false =>
            rw [Context.call_String _ _ _ _ _ hb]
            exact ihC rest (c.written code text) hh hcalls hidx

theorem bodyRan_out (i : Nat) (body : List Stmt) (c c1 : Context) (t : List Event)
    (hcalls : c1.calls = c.calls) (hout : c1.out = c.out ++ t) (h : bodyRan i body c) :
    bodyRan i body c1 := by
  intro hi
  rw [hcalls] at hi
  obtain ⟨pre, post, e⟩ := h hi
  exact ⟨pre, post ++ t, by rw [hout, e]; simp⟩

/-- A handler that never calls `Next` and passes only status codes in 100..999
runs its whole body once it is invoked, whatever the other handlers of the
chain do. -/
theorem Context.body_runs (hs : List HandlerFunc) (i : Nat) (body : List Stmt)
    (hi : hs[i]? = some (HandlerFunc.fn body)) (hnext : Stmt.Next ∉ body)
    (hok : codesOk body = true) : ∀ f : Nat,
    (∀ c : Context, c.handlers = hs → bodyRan i body c →
      (Context.Next f c).sat (bodyRan i body) (bodyRan i body)) ∧
    (∀ c : Context, c.handlers = hs → bodyRan i body c →
      (Context.loop f hs.length c).sat (bodyRan i body) (bodyRan i body)) ∧
    (∀ (b : List Stmt) (c : Context), c.handlers = hs → bodyRan i body c →
      (Context.call f b c).sat (bodyRan i body) (bodyRan i body)) := by
  intro f
  induction f with
  | zero =>
    refine ⟨fun c _ _ => ?_, fun c _ _ => ?_, fun b c _ _ => ?_⟩
    · rw [Context.Next_zero]; trivial
    · rw [Context.loop_zero]; trivial
    · rw [Context.call_zero]; trivial
  | succ f ih =>
    obtain ⟨ihN, ihL, ihC⟩ := ih
    refine ⟨fun c hh hJ => ?_, fun c hh hJ => ?_, fun b c hh hJ => ?_⟩
    · have hl : c.handlers.length = hs.length := by rw [hh]
      rw [Context.Next_succ, hl]
      exact ihL { c with index := c.index + 1 } hh
        (bodyRan_out i body c _ [] rfl (by simp) hJ)
    · rcases Context.loop_cases f hs.length c with ⟨_, e⟩ | ⟨_, e, _⟩ | ⟨b, hlt, h0, hb, e⟩
      · rw [e]; exact hJ
      · rw [e]; exact hJ
      · rw [e]
        by_cases hieq : c.index.toNat = i
        · have hbody : b = body := by
            rw [hh, hieq, hi] at hb
            exact (HandlerFunc.fn.inj (Option.some.inj hb)).symm
          subst hbody
          rcases Context.call_straight_ok b
            { c with calls := c.calls ++ [c.index.toNat] } hnext hok f with hc | hc
          · rw [hc]; trivial
          · rw [hc]
            obtain ⟨s1, _, s3, _⟩ := straight_spec b
              { c with calls := c.calls ++ [c.index.toNat] }
            refine ihL { straight b { c with calls := c.calls ++ [c.index.toNat] } with
              index := (straight b { c with calls := c.calls ++ [c.index.toNat] }).index + 1 }
              (s1.trans hh) ?_
            intro _
            exact ⟨c.out, [], by show (straight b _).out = _; rw [s3]; simp⟩
        · have hJ1 : bodyRan i body { c with calls := c.calls ++ [c.index.toNat] } := by
            intro hmem
            have hmem1 : i ∈ c.calls := by
              rcases List.mem_append.1 hmem with h | h
              · exact h
              · exact absurd (by simpa using h : i = c.index.toNat).symm hieq
            exact hJ hmem1
          have hC := ihC b { c with calls := c.calls ++ [c.index.toNat] } hh hJ1
          cases hc : Context.call f b { c with calls := c.calls ++ [c.index.toNat] } with
          | timeout => trivial
          | panic c2 =>
            rw [hc] at hC
            exact hC
          | ok c2 =>
            rw [hc] at hC
            have e1 := ((Context.run_ext f).2.2 b _ c2 (by rw [hc]; rfl)).1
            exact ihL { c2 with index := c2.index + 1 } (e1.trans hh)
              (bodyRan_out i body c2 _ [] rfl (by simp) hC)
    · cases b with
      | nil =>
        rw [Context.call_nil]
        exact hJ
      | cons st rest =>
        cases st with
        | mark e =>
          rw [Context.call_mark]
          exact ihC rest _ hh (bodyRan_out i body c _ [Event.mark e] rfl rfl hJ)
        | Next =>
          rw [Context.call_Next]
          have hN := ihN c hh hJ
          cases hn : Context.Next f c with
          | timeout => trivial
          | panic c2 =>
            rw [hn] at hN
            exact hN
          | ok c2 =>
            rw [hn] at hN
            have e1 := ((Context.run_ext f).1 c c2 (by rw [hn]; rfl)).1
            exact ihC rest c2 (e1.trans hh) hN
        | Fail code err =>
          cases hb : c.badCode code with
          | true =>
            rw [Context.call_Fail_bad _ _ _ _ _ hb]
            exact bodyRan_out i body c _ [] rfl (by simp [Context.failedAt]) hJ
          | false =>
            rw [Context.call_Fail _ _ _ _ _ hb]
            exact ihC rest (c.failed code err) hh
              (bodyRan_out i body c _ [Event.json code err] rfl rfl hJ)
        | String code text =>
          cases hb : c.badCode code with
          | true =>
            rw [Context.call_String_bad _ _ _ _ _ hb]
            exact bodyRan_out i body c _ [] rfl (by simp [Context.writtenAt]) hJ
          | false =>
            rw [Context.call_String _ _ _ _ _ hb]
            exact ihC rest (c.written code text) hh
              (bodyRan_out i body c _ [Event.text code text] rfl rfl hJ)

/-- C6, as stated, fails: in the chain `[A, B]` where A runs `mark 1`, calls
`Fail` with the status code 99 and then runs `mark 2`, the write of `Fail`
panics in `WriteHeader`, so the code of A after its `Fail` call never runs. -/
theorem C6_counterexample :
    (callsFail [Stmt.mark 1, Stmt.Fail 99 "stop".toList, Stmt.mark 2] = true ∧
      Stmt.Next ∉ [Stmt.mark 1, Stmt.Fail 99 "stop".toList, Stmt.mark 2]) ∧
    ((newContext "/".toList "GET".toList
        [HandlerFunc.fn [Stmt.mark 1, Stmt.Fail 99 "stop".toList, Stmt.mark 2],
         HandlerFunc.fn [Stmt.mark 3]]).Next 9).isOk = false ∧
    ((newContext "/".toList "GET".toList
        [HandlerFunc.fn [Stmt.mark 1, Stmt.Fail 99 "stop".toList, Stmt.mark 2],
         HandlerFunc.fn [Stmt.mark 3]]).Next 9).ctx.map
      (fun c1 => (c1.calls, c1.out)) = some ([0], [Event.mark 1]) ∧
    ¬ ∀ f c1,
      ((newContext "/".toList "GET".toList
        [HandlerFunc.fn [Stmt.mark 1, Stmt.Fail 99 "stop".toList, Stmt.mark 2],
         HandlerFunc.fn [Stmt.mark 3]]).Next f).ctx = some c1 →
      0 ∈ c1.calls → ∃ pre post, c1.out = pre ++
        eventsOf [Stmt.mark 1, Stmt.Fail 99 "stop".toList, Stmt.mark 2] ++ post := by
  refine ⟨by decide, by decide, by decide, ?_⟩
  intro h
  have hrun : ∃ c1, ((newContext "/".toList "GET".toList
      [HandlerFunc.fn [Stmt.mark 1, Stmt.Fail 99 "stop".toList, Stmt.mark 2],
       HandlerFunc.fn [Stmt.mark 3]]).Next 9).ctx = some c1 ∧ c1.calls = [0] ∧
      c1.out = [Event.mark 1] := ⟨_, rfl, rfl, rfl⟩
  obtain ⟨c1, h1, h2, h3⟩ := hrun
  obtain ⟨pre, post, e⟩ := h 9 c1 h1 (by rw [h2]; simp)
  rw [h3] at e
  have hl := congrArg List.length e
  simp [eventsOf] at hl
  omega

/-- C6 (amended): for every chain whose handler at position i calls `Fail` and
never calls `Next`, a call of `Next` on a context with index -1 ends and no
handler at a position greater than i is ever executed; when every status code
handler i passes to `Fail` or `String` lies in 100..999, then once handler i is
executed its whole body takes effect, the part after its `Fail` call
included. -/
theorem C6_abort (hs : List HandlerFunc) (i : Nat) (body : List Stmt) (c : Context)
    (hh : c.handlers = hs) (hidx : c.index = -1) (hcalls : c.calls = [])
    (hi : hs[i]? = some (HandlerFunc.fn body)) (hfail : callsFail body = true)
    (hnext : Stmt.Next ∉ body) :
    (∃ f0, ∀ f, f0 ≤ f → c.Next f ≠ Outcome.timeout) ∧
    ∀ f c1, (c.Next f).ctx = some c1 →
      (∀ j ∈ c1.calls, j ≤ i) ∧
      (codesOk body = true → i ∈ c1.calls →
        ∃ pre post, c1.out = pre ++ eventsOf body ++ post) := by
  refine ⟨⟨2 + chainCost c.handlers, fun f hf => Context.Next_total c (by omega) f hf⟩, ?_⟩
  intro f c1 h1
  have hA := (Context.abort_calls hs i body hi hfail hnext f).1 c hh
    (by rw [hcalls]; simp) (Or.inl (by omega))
  have hB := fun hok : codesOk body = true =>
    (Context.body_runs hs i body hi hnext hok f).1 c hh
      (by intro hmem; rw [hcalls] at hmem; cases hmem)
  cases hn : c.Next f with
  | timeout => rw [hn] at h1; cases h1
  | panic c2 =>
    rw [hn] at h1 hA hB
    cases h1
    exact ⟨hA, hB⟩
  | ok c2 =>
    rw [hn] at h1 hA hB
    cases h1
    exact ⟨hA.1, hB⟩

theorem C6_abort_witness :
    ((newContext "/".toList "GET".toList
        [HandlerFunc.fn [Stmt.mark 1, Stmt.Fail 500 "stop".toList, Stmt.mark 2],
         HandlerFunc.fn [Stmt.mark 3], HandlerFunc.fn [Stmt.mark 4]]).Next 9).ctx.map
      (fun c1 => (c1.calls, c1.out))
      = some ([0], [Event.mark 1, Event.json 500 "stop".toList, Event.mark 2]) ∧
    codesOk [Stmt.mark 1, Stmt.Fail 500 "stop".toList, Stmt.mark 2] = true ∧
    ((∃ f0, ∀ f, f0 ≤ f →
        (newContext "/".toList "GET".toList
          [HandlerFunc.fn [Stmt.mark 1, Stmt.Fail 500 "stop".toList, Stmt.mark 2],
           HandlerFunc.fn [Stmt.mark 3], HandlerFunc.fn [Stmt.mark 4]]).Next f
          ≠ Outcome.timeout) ∧
      ∀ f c1,
        ((newContext "/".toList "GET".toList
          [HandlerFunc.fn [Stmt.mark 1, Stmt.Fail 500 "stop".toList, Stmt.mark 2],
           HandlerFunc.fn [Stmt.mark 3], HandlerFunc.fn [Stmt.mark 4]]).Next f).ctx = some c1 →
        (∀ j ∈ c1.calls, j ≤ 0) ∧
        (codesOk [Stmt.mark 1, Stmt.Fail 500 "stop".toList, Stmt.mark 2] = true →
          0 ∈ c1.calls → ∃ pre post, c1.out = pre ++
            eventsOf [Stmt.mark 1, Stmt.Fail 500 "stop".toList, Stmt.mark 2] ++ post)) :=
  ⟨by decide, by decide,
   C6_abort _ 0 [Stmt.mark 1, Stmt.Fail 500 "stop".toList, Stmt.mark 2]
    (newContext "/".toList "GET".toList
      [HandlerFunc.fn [Stmt.mark 1, Stmt.Fail 500 "stop".toList, Stmt.mark 2],
       HandlerFunc.fn [Stmt.mark 3], HandlerFunc.fn [Stmt.mark 4]])
    rfl rfl rfl rfl (by decide) (by decide)⟩

/-! ## A handler that calls neither Next nor Fail -/

theorem nextRan_log (i j : Nat) (c : Context) (hj : j ≠ i) (h : nextRan i c) :
    nextRan i { c with calls := c.calls ++ [j] } := by
  intro hmem
  have hmem1 : i ∈ c.calls := by
    rcases List.mem_append.1 hmem with h1 | h1
    · exact h1
    · exact absurd (by simpa using h1 : i = j).symm hj
  obtain ⟨pre, post, e⟩ := h hmem1
  exact ⟨pre, post ++ [j], by show c.calls ++ [j] = _; rw [e]; simp⟩

/-- When the handler at position `i` calls neither `Next` nor `Fail` and is not
the last one, every run that returns has invoked position `i + 1` directly
after position `i`. -/
theorem Context.next_runs (hs : List HandlerFunc) (i : Nat) (body : List Stmt)
    (hi : hs[i]? = some (HandlerFunc.fn body)) (hnofail : callsFail body = false)
    (hnext : Stmt.Next ∉ body) (hlast : i + 1 < hs.length) : ∀ f : Nat,
    (∀ c : Context, c.handlers = hs → nextRan i c →
      (Context.Next f c).sat (fun _ => True) (nextRan i)) ∧
    (∀ c : Context, c.handlers = hs → nextRan i c ∨ pendingNext i c →
      (Context.loop f hs.length c).sat (fun _ => True) (nextRan i)) ∧
    (∀ (b : List Stmt) (c : Context), c.handlers = hs → nextRan i c →
      (Context.call f b c).sat (fun _ => True) (nextRan i)) := by
  intro f
  induction f with
  | zero =>
    refine ⟨fun c _ _ => ?_, fun c _ _ => ?_, fun b c _ _ => ?_⟩
    · rw [Context.Next_zero]; trivial
    · rw [Context.loop_zero]; trivial
    · rw [Context.call_zero]; trivial
  | succ f ih =>
    obtain ⟨ihN, ihL, ihC⟩ := ih
    refine ⟨fun c hh hJ => ?_, fun c hh hJ => ?_, fun b c hh hJ => ?_⟩
    · have hl : c.handlers.length = hs.length := by rw [hh]
      rw [Context.Next_succ, hl]
      exact ihL { c with index := c.index + 1 } hh (Or.inl hJ)
    · rcases Context.loop_cases f hs.length c with ⟨hge, e⟩ | ⟨_, e, _⟩ | ⟨b, hlt, h0, hb, e⟩
      · rw [e]
        rcases hJ with hJ | ⟨_, hp⟩
        · exact hJ
        · exact absurd (by rw [hp]; omega : c.index < hs.length) hge
      · rw [e]; trivial
      · rw [e]
        -- the state in which handler `c.index` starts satisfies `nextRan`
        by_cases hieq : c.index.toNat = i
        · have hbody : b = body := by
            rw [hh, hieq, hi] at hb
            exact (HandlerFunc.fn.inj (Option.some.inj hb)).symm
          subst hbody
          rcases Context.call_straight_cases b
            { c with calls := c.calls ++ [c.index.toNat] } hnext f with hc | hc | ⟨c2, hc, _⟩
          · rw [hc]; trivial
          · rw [hc]
            obtain ⟨s1, s2, _, s4⟩ := straight_spec b
              { c with calls := c.calls ++ [c.index.toNat] }
            rw [hnofail] at s4
            simp only [Bool.false_eq_true, if_false] at s4
            refine ihL { straight b { c with calls := c.calls ++ [c.index.toNat] } with
              index := (straight b { c with calls := c.calls ++ [c.index.toNat] }).index + 1 }
              (s1.trans hh) (Or.inr ⟨⟨c.calls, ?_⟩, ?_⟩)
            · show (straight b _).calls = _
              rw [s2, hieq]
            · show (straight b _).index + 1 = _
              rw [s4]
              show c.index + 1 = _
              omega
          · rw [hc]; trivial
        · have hJ1 : nextRan i { c with calls := c.calls ++ [c.index.toNat] } := by
            rcases hJ with hJ | ⟨⟨pre, hp1⟩, hp2⟩
            · exact nextRan_log i _ c hieq hJ
            · intro _
              refine ⟨pre, [], ?_⟩
              show c.calls ++ [c.index.toNat] = _
              rw [hp1, hp2]
              have : ((i : Int) + 1).toNat = i + 1 := by omega
              rw [this]
              simp
          have hC := ihC b { c with calls := c.calls ++ [c.index.toNat] } hh hJ1
          cases hc : Context.call f b { c with calls := c.calls ++ [c.index.toNat] } with
          | timeout => trivial
          | panic c2 => trivial
          | ok c2 =>
            rw [hc] at hC
            have e1 := ((Context.run_ext f).2.2 b _ c2 (by rw [hc]; rfl)).1
            exact ihL { c2 with index := c2.index + 1 } (e1.trans hh) (Or.inl hC)
    · cases b with
      | nil =>
        rw [Context.call_nil]
        exact hJ
      | cons st rest =>
        cases st with
        | mark e =>
          rw [Context.call_mark]
          exact ihC rest _ hh hJ
        | Next =>
          rw [Context.call_Next]
          have hN := ihN c hh hJ
          cases hn : Context.Next f c with
          | timeout => trivial
          | panic c2 => trivial
          | ok c2 =>
            rw [hn] at hN
            have e1 := ((Context.run_ext f).1 c c2 (by rw [hn]; rfl)).1
            exact ihC rest c2 (e1.trans hh) hN
        | Fail code err =>
          cases hb : c.badCode code with
          | true =>
            rw [Context.call_Fail_bad _ _ _ _ _ hb]
            trivial
          | false =>
            rw [Context.call_Fail _ _ _ _ _ hb]
            exact ihC rest (c.failed code err) hh hJ
        | String code text =>
          cases hb : c.badCode code with
          | true =>
            rw [Context.call_String_bad _ _ _ _ _ hb]
            trivial
          | false =>
            rw [Context.call_String _ _ _ _ _ hb]
            exact ihC rest (c.written code text) hh hJ

/-- C7 (amended): a handler that returns without calling `Next` and without
calling `Fail` does not stop the chain.  For every chain and every position i
that holds such a handler and is not the last, a call of `Next` on a context
with index -1 ends, and when it returns with handler i executed, the handler at
position i + 1 was executed directly after it. -/
theorem C7_no_short_circuit (hs : List HandlerFunc) (i : Nat) (body : List Stmt)
    (c : Context) (hh : c.handlers = hs) (hidx : c.index = -1) (hcalls : c.calls = [])
    (hi : hs[i]? = some (HandlerFunc.fn body)) (hnofail : callsFail body = false)
    (hnext : Stmt.Next ∉ body) (hlast : i + 1 < hs.length) :
    (∃ f0, ∀ f, f0 ≤ f → c.Next f ≠ Outcome.timeout) ∧
    ∀ f c1, c.Next f = Outcome.ok c1 → i ∈ c1.calls →
      ∃ pre post, c1.calls = pre ++ [i, i + 1] ++ post := by
  refine ⟨⟨2 + chainCost c.handlers, fun f hf => Context.Next_total c (by omega) f hf⟩, ?_⟩
  intro f c1 h1
  have hA := (Context.next_runs hs i body hi hnofail hnext hlast f).1 c hh
    (by intro hmem; rw [hcalls] at hmem; cases hmem)
  rw [h1] at hA
  exact hA

/-- C7, as stated, fails: in the chain `[A, B]` where A calls neither `Next`
nor `Fail`, the loop of `Next` goes on to B after A returns. -/
theorem C7_counterexample :
    Stmt.Next ∉ [Stmt.mark 1] ∧ callsFail [Stmt.mark 1] = false ∧
    ((newContext "/".toList "GET".toList
        [HandlerFunc.fn [Stmt.mark 1], HandlerFunc.fn [Stmt.mark 2]]).Next 5).ctx.map
      (fun c1 => (c1.calls, c1.out)) = some ([0, 1], [Event.mark 1, Event.mark 2]) ∧
    ¬ ∀ f c1,
      ((newContext "/".toList "GET".toList
        [HandlerFunc.fn [Stmt.mark 1], HandlerFunc.fn [Stmt.mark 2]]).Next f).ctx = some c1 →
      ∀ j ∈ c1.calls, j ≤ 0 := by
  refine ⟨by decide, by decide, by decide, ?_⟩
  intro h
  have h1 := h 5 _ rfl 1 (by decide)
  omega

theorem C7_no_short_circuit_witness :
    (∃ f0, ∀ f, f0 ≤ f →
      (newContext "/".toList "GET".toList
        [HandlerFunc.fn [Stmt.mark 1], HandlerFunc.fn [Stmt.mark 2]]).Next f
        ≠ Outcome.timeout) ∧
    ∀ f c1,
      (newContext "/".toList "GET".toList
        [HandlerFunc.fn [Stmt.mark 1], HandlerFunc.fn [Stmt.mark 2]]).Next f = Outcome.ok c1 →
      0 ∈ c1.calls → ∃ pre post, c1.calls = pre ++ [0, 0 + 1] ++ post :=
  C7_no_short_circuit _ 0 [Stmt.mark 1]
    (newContext "/".toList "GET".toList
      [HandlerFunc.fn [Stmt.mark 1], HandlerFunc.fn [Stmt.mark 2]])
    rfl rfl rfl rfl (by decide) (by decide) (by decide)

/-! ## Re-registration -/

theorem node.modifyFirst_none (p : node → Bool) (f : node → node) (l : List node)
    (h : l.find? p = none) : node.modifyFirst p f l = l := by
  induction l with
  | nil => rfl
  | cons c cs ih =>
    by_cases hc : p c = true
    · simp [List.find?, hc] at h
    · have h1 : cs.find? p = none := by simpa [List.find?, hc] using h
      simp [node.modifyFirst, hc, ih h1]

theorem node.modifyFirst_append_new (p : node → Bool) (f : node → node) (l : List node)
    (x : node) (h : l.find? p = none) (hx : p x = true) :
    node.modifyFirst p f (l ++ [x]) = l ++ [f x] := by
  induction l with
  | nil => simp [node.modifyFirst, hx]
  | cons c cs ih =>
    by_cases hc : p c = true
    · simp [List.find?, hc] at h
    · have h1 : cs.find? p = none := by simpa [List.find?, hc] using h
      simp [node.modifyFirst, hc, ih h1]

theorem node.modifyFirst_twice (p : node → Bool) (f : node → node) (l : List node)
    (hp : ∀ x, p (f x) = p x) (hf : ∀ x, f (f x) = f x) :
    node.modifyFirst p f (node.modifyFirst p f l) = node.modifyFirst p f l := by
  induction l with
  | nil => rfl
  | cons c cs ih =>
    by_cases hc : p c = true
    · simp [node.modifyFirst, hc, hp, hf]
    · simp [node.modifyFirst, hc, ih]

theorem node.find?_modifyFirst (p : node → Bool) (f : node → node) (l : List node)
    (hp : ∀ x, p (f x) = p x) :
    (node.modifyFirst p f l).find? p = (l.find? p).map f := by
  induction l with
  | nil => rfl
  | cons c cs ih =>
    by_cases hc : p c = true
    · simp [node.modifyFirst, hc, hp, List.find?]
    · simp [node.modifyFirst, hc, ih, List.find?]

theorem node.matchesPart_insert (p P : Str) (ps : List Str) (x : node) :
    node.matchesPart p (x.insert P ps) = node.matchesPart p x := by
  simp [node.matchesPart, node.insert_part, node.insert_isWild]

/-- Inserting the same pattern a second time changes nothing. -/
theorem node.insert_idem (P : Str) : ∀ (ps : List Str) (n : node),
    (n.insert P ps).insert P ps = n.insert P ps := by
  intro ps
  induction ps with
  | nil => intro n; simp [node.insert]
  | cons p ps ih =>
    intro n
    cases hm : n.matchChild p with
    | none =>
      have hfind : n.children.find? (node.matchesPart p) = none := hm
      have hnew : node.matchesPart p ((node.fresh p).insert P ps) = true := by
        rw [node.matchesPart_insert]
        simp [node.matchesPart, node.fresh]
      have e1 : n.insert P (p :: ps) =
          node.mk n.pattern n.part (n.children ++ [(node.fresh p).insert P ps]) n.isWild := by
        rw [node.insert, hm]
      have hm2 : (node.mk n.pattern n.part (n.children ++ [(node.fresh p).insert P ps])
          n.isWild).matchChild p = some ((node.fresh p).insert P ps) := by
        simp [node.matchChild, List.find?_append, hfind, List.find?, hnew]
      rw [e1, node.insert, hm2]
      simp only [node.pattern_mk, node.part_mk, node.children_mk, node.isWild_mk]
      rw [node.modifyFirst_append_new _ _ _ _ hfind hnew, ih]
    | some ch =>
      have hfind : n.children.find? (node.matchesPart p) = some ch := hm
      have e1 : n.insert P (p :: ps) =
          node.mk n.pattern n.part
            (node.modifyFirst (node.matchesPart p) (fun child => child.insert P ps) n.children)
            n.isWild := by
        rw [node.insert, hm]
      have hm2 : (node.mk n.pattern n.part
          (node.modifyFirst (node.matchesPart p) (fun child => child.insert P ps) n.children)
          n.isWild).matchChild p = some (ch.insert P ps) := by
        simp only [node.matchChild, node.children_mk]
        rw [node.find?_modifyFirst _ _ _ (fun x => node.matchesPart_insert p P ps x), hfind]
        rfl
      rw [e1, node.insert, hm2]
      simp only [node.pattern_mk, node.part_mk, node.children_mk, node.isWild_mk]
      rw [node.modifyFirst_twice _ _ _ (fun x => node.matchesPart_insert p P ps x)
        (fun x => ih x)]

/-- C8: calling `addRoute(m, P, h2)` directly after `addRoute(m, P, h1)` leaves
every trie exactly as it was after the first call, so `getRoutes` returns the
same list (of the same length) for every method; it sets the handler stored
under `m + "-" + P` to h2 and leaves every other handler entry unchanged. -/
theorem C8_reregister (r : router) (m P : Str) (h1 h2 : HandlerFunc) :
    ((r.addRoute m P h1).addRoute m P h2).roots = (r.addRoute m P h1).roots ∧
    (∀ m1, ((r.addRoute m P h1).addRoute m P h2).getRoutes m1
      = (r.addRoute m P h1).getRoutes m1) ∧
    (∀ m1, (((r.addRoute m P h1).addRoute m P h2).getRoutes m1).map List.length
      = ((r.addRoute m P h1).getRoutes m1).map List.length) ∧
    ((r.addRoute m P h1).addRoute m P h2).handlers (router.key m P) = some h2 ∧
    (∀ k, k ≠ router.key m P →
      ((r.addRoute m P h1).addRoute m P h2).handlers k = (r.addRoute m P h1).handlers k) := by
  have hroots : ((r.addRoute m P h1).addRoute m P h2).roots = (r.addRoute m P h1).roots := by
    funext x
    by_cases hx : x = m
    · subst hx
      rw [router.addRoute_roots_self, router.addRoute_roots_self]
      simp only [node.insert_idem]
    · rw [router.addRoute_roots_ne _ _ _ _ _ (Ne.symm hx)]
  refine ⟨hroots, ?_, ?_, ?_, ?_⟩
  · intro m1
    simp only [router.getRoutes, hroots]
  · intro m1
    simp only [router.getRoutes, hroots]
  · simp [router.addRoute, mapSet]
  · intro k hk
    simp [router.addRoute, mapSet, hk]

/-! ## Dispatch -/

theorem routerOf_handlers (ops : List Route) (k : Str) :
    (routerOf ops).handlers k = lastRegistered ops k := by
  induction ops using List.reverseRecOn with
  | nil => rfl
  | append_singleton ops op ih =>
    rw [routerOf_append]
    simp only [router.addRoute, mapSet, lastRegistered, List.reverse_append,
      List.reverse_singleton, List.singleton_append, List.find?]
    by_cases hk : k = router.key op.method op.pattern
    · simp [hk]
    · have hk1 : ¬ router.key op.method op.pattern = k := fun e => hk e.symm
      simp only [hk, if_false, decide_eq_true_eq, hk1]
      rw [ih]
      simp [lastRegistered, hk1]

theorem node.search_reaches : ∀ (qs : List Str) (n e : node), n.search qs = some e →
    node.Reaches n e ∧ e.pattern ≠ [] := by
  intro qs
  induction qs with
  | nil =>
    intro n e h
    simp only [node.search, node.terminal] at h
    split at h
    · cases h
    · cases h
      exact ⟨node.Reaches.self _, by assumption⟩
  | cons q qs ih =>
    intro n e h
    rw [node.search] at h
    split at h
    · simp only [node.terminal] at h
      split at h
      · cases h
      · cases h
        exact ⟨node.Reaches.self _, by assumption⟩
    · obtain ⟨ch, hch, hs⟩ := List.exists_of_findSome?_eq_some h
      obtain ⟨r1, r2⟩ := ih ch e hs
      exact ⟨node.Reaches.child n ch e (List.mem_filter.1 hch).1 r1, r2⟩

theorem node.mem_modifyFirst (p : node → Bool) (f : node → node) (l : List node) (c : node)
    (h : c ∈ node.modifyFirst p f l) : c ∈ l ∨ ∃ c0 ∈ l, c = f c0 := by
  induction l with
  | nil => simp [node.modifyFirst] at h
  | cons x xs ih =>
    by_cases hx : p x = true
    · simp only [node.modifyFirst, hx, if_true, List.mem_cons] at h
      rcases h with h | h
      · exact Or.inr ⟨x, List.mem_cons_self _ _, h⟩
      · exact Or.inl (List.mem_cons_of_mem _ h)
    · have h3 : c ∈ x :: node.modifyFirst p f xs := by
        simpa [node.modifyFirst, hx] using h
      rcases List.mem_cons.1 h3 with h4 | h4
      · exact Or.inl (by rw [h4]; exact List.mem_cons_self _ _)
      · rcases ih h4 with h1 | ⟨c0, h1, h2⟩
        · exact Or.inl (List.mem_cons_of_mem _ h1)
        · exact Or.inr ⟨c0, List.mem_cons_of_mem _ h1, h2⟩

/-- A node of the trie after `insert` with a non-empty pattern carries the
inserted pattern or the pattern of a node that was there before. -/
theorem node.insert_reaches (P : Str) : ∀ (ps : List Str) (n e : node),
    node.Reaches (n.insert P ps) e → e.pattern ≠ [] →
    e.pattern = P ∨ ∃ e1, node.Reaches n e1 ∧ e1.pattern = e.pattern := by
  intro ps
  induction ps with
  | nil =>
    intro n e hr _
    simp only [node.insert] at hr
    cases hr with
    | self => exact Or.inl rfl
    | child _ c _ hc hcd => exact Or.inr ⟨e, node.Reaches.child n c e hc hcd, rfl⟩
  | cons p ps ih =>
    intro n e hr hne
    rw [node.insert] at hr
    split at hr
    · cases hr with
      | self => exact Or.inr ⟨n, node.Reaches.self n, rfl⟩
      | child _ c _ hc hcd =>
        simp only [node.children_mk, List.mem_append, List.mem_singleton] at hc
        rcases hc with hc | hc
        · exact Or.inr ⟨e, node.Reaches.child n c e hc hcd, rfl⟩
        · subst hc
          rcases ih _ e hcd hne with h | ⟨e1, h1, h2⟩
          · exact Or.inl h
          · exfalso
            cases h1 with
            | self => exact hne (by rw [← h2]; rfl)
            | child _ c1 _ hc1 _ => simp [node.fresh] at hc1
    · cases hr with
      | self => exact Or.inr ⟨n, node.Reaches.self n, rfl⟩
      | child _ c _ hc hcd =>
        simp only [node.children_mk] at hc
        rcases node.mem_modifyFirst _ _ _ _ hc with hc | ⟨c0, hc0, hc⟩
        · exact Or.inr ⟨e, node.Reaches.child n c e hc hcd, rfl⟩
        · subst hc
          rcases ih _ e hcd hne with h | ⟨e1, h1, h2⟩
          · exact Or.inl h
          · exact Or.inr ⟨e1, node.Reaches.child n c0 e1 hc0 h1, h2⟩

/-- Every non-empty pattern in the trie of method `m` was passed to a call
`addRoute(m, ...)`. -/
theorem routerOf_patterns (ops : List Route) : ∀ (m : Str) (root e : node),
    (routerOf ops).roots m = some root → node.Reaches root e → e.pattern ≠ [] →
    ∃ op ∈ ops, op.method = m ∧ op.pattern = e.pattern := by
  induction ops using List.reverseRecOn with
  | nil => intro m root e h; cases h
  | append_singleton ops op ih =>
    intro m root e hroot hr hne
    rw [routerOf_append] at hroot
    by_cases hm : op.method = m
    · subst hm
      rw [router.addRoute_roots_self] at hroot
      cases hroot
      rcases node.insert_reaches _ _ _ e hr hne with h | ⟨e1, h1, h2⟩
      · exact ⟨op, by simp, rfl, h.symm⟩
      · cases hold : (routerOf ops).roots op.method with
        | none =>
          rw [hold] at h1
          exfalso
          cases h1 with
          | self => exact hne (by rw [← h2]; rfl)
          | child _ c1 _ hc1 _ => simp [node.zero] at hc1
        | some old =>
          rw [hold] at h1
          obtain ⟨op1, ho1, ho2, ho3⟩ := ih op.method old e1 hold h1 (by rw [h2]; exact hne)
          exact ⟨op1, by simp [ho1], ho2, by rw [ho3, h2]⟩
    · rw [router.addRoute_roots_ne _ _ _ _ _ hm] at hroot
      obtain ⟨op1, ho1, ho2, ho3⟩ := ih m root e hroot hr hne
      exact ⟨op1, by simp [ho1], ho2, ho3⟩

theorem lastRegistered_some (ops : List Route) (op : Route) (h : op ∈ ops) :
    ∃ T, lastRegistered ops (router.key op.method op.pattern) = some T := by
  cases hf : ops.reverse.find? (fun x => router.key x.method x.pattern
      = router.key op.method op.pattern) with
  | none =>
    have := List.find?_eq_none.1 hf op (List.mem_reverse.2 h)
    simp at this
  | some x => exact ⟨x.handler, by simp [lastRegistered, hf]⟩

/-- C9: `handle` extends the chain `[M1..Mn]` of the context to exactly
`[M1..Mn, T]` and then starts it with `Next`.  When `getRoute(Method, Path)`
finds a node, T is the handler most recently registered under
`Method + "-" + node.pattern` and `Params` is set to the extracted map; when it
finds none, T is the synthetic 404 handler and `Params` is left unchanged. -/
theorem C9_handle_attach (ops : List Route) (c : Context) :
    (∀ n params, (routerOf ops).getRoute c.Method c.Path = RouteResult.found n params →
      ∃ T, lastRegistered ops (router.key c.Method n.pattern) = some T ∧
        router.handle.attach (routerOf ops) c
          = some { c with Params := params, handlers := c.handlers ++ [T] } ∧
        ∀ fuel, router.handle fuel (routerOf ops) c
          = Context.Next fuel { c with Params := params, handlers := c.handlers ++ [T] }) ∧
    ((routerOf ops).getRoute c.Method c.Path = RouteResult.notFound →
      router.handle.attach (routerOf ops) c
          = some { c with handlers := c.handlers ++ [router.notFoundHandler c.Path] } ∧
        ∀ fuel, router.handle fuel (routerOf ops) c
          = Context.Next fuel
              { c with handlers := c.handlers ++ [router.notFoundHandler c.Path] }) := by
  constructor
  · intro n params hfound
    -- the node found lies in the trie of the method and has a non-empty pattern
    have hreg : ∃ op ∈ ops, op.method = c.Method ∧ op.pattern = n.pattern := by
      simp only [router.getRoute] at hfound
      cases hroot : (routerOf ops).roots c.Method with
      | none => rw [hroot] at hfound; cases hfound
      | some root =>
        rw [hroot] at hfound
        simp only at hfound
        cases hs : root.search (parsePattern c.Path) with
        | none => rw [hs] at hfound; cases hfound
        | some e =>
          rw [hs] at hfound
          simp only at hfound
          split at hfound
          · cases hfound
            obtain ⟨r1, r2⟩ := node.search_reaches _ _ _ hs
            exact routerOf_patterns ops c.Method root _ hroot r1 r2
          · cases hfound
    obtain ⟨op, hop, hm, hp⟩ := hreg
    obtain ⟨T, hT⟩ := lastRegistered_some ops op hop
    rw [hm, hp] at hT
    have hat : (routerOf ops).handlerAt (router.key c.Method n.pattern) = T := by
      simp [router.handlerAt, routerOf_handlers, hT]
    have hattach : router.handle.attach (routerOf ops) c
        = some { c with Params := params, handlers := c.handlers ++ [T] } := by
      simp only [router.handle.attach, hfound, hat]
    exact ⟨T, hT, hattach, fun fuel => by simp only [router.handle, hattach]⟩
  · intro hnone
    have hattach : router.handle.attach (routerOf ops) c
        = some { c with handlers := c.handlers ++ [router.notFoundHandler c.Path] } := by
      simp only [router.handle.attach, hnone]
    exact ⟨hattach, fun fuel => by simp only [router.handle, hattach]⟩

/-- C10: for every method m and every router on which no `addRoute(m, ...)`
call was made, `getRoute(m, path)` returns `(nil, nil)` for every path,
whatever routes are registered under other methods. -/
theorem C10_unknown_method (ops : List Route) (m path : Str)
    (h : ∀ op ∈ ops, op.method ≠ m) :
    (routerOf ops).getRoute m path = RouteResult.notFound := by
  have hroot : (routerOf ops).roots m = none := foldl_addRoute_roots_ne ops m h newRouter
  simp only [router.getRoute, hroot]

theorem C10_unknown_method_witness :
    (routerOf [Route.mk "GET".toList "/hello".toList HandlerFunc.nil]).getRoute
      "get".toList "/hello".toList = RouteResult.notFound :=
  C10_unknown_method [Route.mk "GET".toList "/hello".toList HandlerFunc.nil]
    "get".toList "/hello".toList (by decide)

theorem C9_handle_attach_witness :
    (router.handle.attach
        (routerOf [Route.mk "GET".toList "/hello/:name".toList (HandlerFunc.fn [Stmt.mark 7])])
        (newContext "/hello/world".toList "GET".toList
          [HandlerFunc.fn [Stmt.mark 1, Stmt.Next]])).map
      (fun c1 => (c1.handlers, c1.Params "name".toList))
      = some ([HandlerFunc.fn [Stmt.mark 1, Stmt.Next], HandlerFunc.fn [Stmt.mark 7]],
          some "world".toList) ∧
    (router.handle.attach
        (routerOf [Route.mk "GET".toList "/hello/:name".toList (HandlerFunc.fn [Stmt.mark 7])])
        (newContext "/nowhere".toList "GET".toList
          [HandlerFunc.fn [Stmt.mark 1, Stmt.Next]])).map
      (fun c1 => (c1.handlers, c1.Params "name".toList))
      = some ([HandlerFunc.fn [Stmt.mark 1, Stmt.Next],
          HandlerFunc.fn [Stmt.String 404 "404 NOT FOUND: /nowhere\n".toList]], none) ∧
    ((∀ n params,
      (routerOf [Route.mk "GET".toList "/hello/:name".toList
          (HandlerFunc.fn [Stmt.mark 7])]).getRoute
        (newContext "/hello/world".toList "GET".toList
          [HandlerFunc.fn [Stmt.mark 1, Stmt.Next]]).Method
        (newContext "/hello/world".toList "GET".toList
          [HandlerFunc.fn [Stmt.mark 1, Stmt.Next]]).Path = RouteResult.found n params →
      ∃ T, lastRegistered
          [Route.mk "GET".toList "/hello/:name".toList (HandlerFunc.fn [Stmt.mark 7])]
          (router.key (newContext "/hello/world".toList "GET".toList
            [HandlerFunc.fn [Stmt.mark 1, Stmt.Next]]).Method n.pattern) = some T ∧
        router.handle.attach
          (routerOf [Route.mk "GET".toList "/hello/:name".toList
            (HandlerFunc.fn [Stmt.mark 7])])
          (newContext "/hello/world".toList "GET".toList
            [HandlerFunc.fn [Stmt.mark 1, Stmt.Next]])
          = some { newContext "/hello/world".toList "GET".toList
                    [HandlerFunc.fn [Stmt.mark 1, Stmt.Next]] with
              Params := params,
              handlers := (newContext "/hello/world".toList "GET".toList
                [HandlerFunc.fn [Stmt.mark 1, Stmt.Next]]).handlers ++ [T] } ∧
        ∀ fuel, router.handle fuel
          (routerOf [Route.mk "GET".toList "/hello/:name".toList
            (HandlerFunc.fn [Stmt.mark 7])])
          (newContext "/hello/world".toList "GET".toList
            [HandlerFunc.fn [Stmt.mark 1, Stmt.Next]])
          = Context.Next fuel { newContext "/hello/world".toList "GET".toList
                    [HandlerFunc.fn [Stmt.mark 1, Stmt.Next]] with
              Params := params,
              handlers := (newContext "/hello/world".toList "GET".toList
                [HandlerFunc.fn [Stmt.mark 1, Stmt.Next]]).handlers ++ [T] })) :=
  ⟨by decide, by decide,
   (C9_handle_attach
      [Route.mk "GET".toList "/hello/:name".toList (HandlerFunc.fn [Stmt.mark 7])]
      (newContext "/hello/world".toList "GET".toList
        [HandlerFunc.fn [Stmt.mark 1, Stmt.Next]])).1⟩

/-! ## The wildcard route, on the parsed request -/

theorem node.search_wildcard (P name : Str) (hP : P ≠ []) :
    ∀ (ls rs : List Str) (n : node), n.children = [] →
      strings.HasPrefixStar n.part = false →
      (∀ l ∈ ls, isCapture l = false) → rs ≠ [] →
      ∃ e, (n.insert P (ls ++ [('*' :: name)])).search (ls ++ rs) = some e ∧ e.pattern = P := by
  intro ls
  induction ls with
  | nil =>
    intro rs n hc hn _ hrs
    cases rs with
    | nil => exact absurd rfl hrs
    | cons r rs =>
      simp only [List.nil_append]
      rw [node.insert_leaf n P _ [] hc]
      have hm : node.matchesPart r ((node.fresh ('*' :: name)).insert P []) = true := by
        rw [node.matchesPart_insert]
        simp [node.matchesPart, node.fresh]
      refine ⟨(node.fresh ('*' :: name)).insert P [], ?_, by simp [node.insert]⟩
      have hterm : ((node.fresh ('*' :: name)).insert P []).search rs
          = some ((node.fresh ('*' :: name)).insert P []) := by
        cases rs with
        | nil => simp [node.search, node.terminal, node.insert, hP]
        | cons r1 rs1 =>
          simp [node.search, node.terminal, node.insert, node.fresh, strings.HasPrefixStar, hP]
      simp [node.search, hn, node.matchChildern, hm, hterm]
  | cons l ls ih =>
    intro rs n hc hn hls hrs
    simp only [List.cons_append]
    rw [node.insert_leaf n P l _ hc]
    have hl : isCapture l = false := hls l (List.mem_cons_self _ _)
    obtain ⟨e, he, hePat⟩ := ih rs (node.fresh l) rfl
      (by simpa [node.fresh] using isCapture_false_star l hl)
      (fun x hx => hls x (List.mem_cons_of_mem _ hx)) hrs
    refine ⟨e, ?_, hePat⟩
    have hm : node.matchesPart l ((node.fresh l).insert P (ls ++ [('*' :: name)])) = true := by
      rw [node.matchesPart_insert]
      simp [node.matchesPart, node.fresh]
    simp [node.search, hn, node.matchChildern, hm, he]

theorem router.getRoute.loop_wildcard (qs : List Str) (name : Str) (hname : name ≠ []) :
    ∀ (ls : List Str) (i : Nat) (params : Params),
      (∀ l ∈ ls, l ≠ [] ∧ isCapture l = false) → i + ls.length ≤ qs.length →
      router.getRoute.loop qs i (ls ++ [('*' :: name)]) params
        = some (mapSet params name (strings.Join (qs.drop (i + ls.length)) ['/'])) := by
  intro ls
  induction ls with
  | nil =>
    intro i params _ hlen
    have hl : 1 < (name.length + 1) := by
      cases name with
      | nil => exact absurd rfl hname
      | cons a b => simp
    simp only [List.length_nil, Nat.add_zero] at hlen
    simp [router.getRoute.loop, hlen, hl]
  | cons l ls ih =>
    intro i params hls hlen
    obtain ⟨hne, hcap⟩ := hls l (List.mem_cons_self _ _)
    simp only [List.length_cons] at hlen
    cases l with
    | nil => exact absurd rfl hne
    | cons a b =>
      have ha : a ≠ ':' ∧ a ≠ '*' := by
        simp only [isCapture, Bool.or_eq_false_iff, beq_eq_false_iff_ne] at hcap
        exact ⟨hcap.1, hcap.2⟩
      have hstep : router.getRoute.loop qs i ((a :: b) :: (ls ++ [('*' :: name)])) params
          = router.getRoute.loop qs (i + 1) (ls ++ [('*' :: name)]) params := by
        rw [router.getRoute.loop]
        simp [ha.1, ha.2]
      rw [List.cons_append, hstep,
        ih (i + 1) params (fun x hx => hls x (List.mem_cons_of_mem _ hx)) (by omega)]
      simp only [List.length_cons]
      have : i + 1 + ls.length = i + (ls.length + 1) := by omega
      rw [this]

/-- The wildcard route on the parsed request: for a router whose only route
under method m is a pattern with the literal segments `ls` and a final `*name`
segment with non-empty name, every request whose parsed segment list is `ls`
followed by at least one more segment `rs` is resolved to that pattern, with
`name` bound to `rs` joined by `/`. -/
theorem router.getRoute_wildcard (ops1 ops2 : List Route) (m P path name : Str)
    (h : HandlerFunc) (ls rs : List Str)
    (h1 : ∀ op ∈ ops1, op.method ≠ m) (h2 : ∀ op ∈ ops2, op.method ≠ m)
    (hP : parsePattern P = ls ++ [('*' :: name)]) (hname : name ≠ [])
    (hls : ∀ l ∈ ls, isCapture l = false)
    (hpath : parsePattern path = ls ++ rs) (hrs : rs ≠ []) :
    ∃ n params,
      (routerOf (ops1 ++ Route.mk m P h :: ops2)).getRoute m path = RouteResult.found n params ∧
      n.pattern = P ∧ params name = some (strings.Join rs ['/']) ∧
      ∀ k, k ≠ name → params k = none := by
  have hPne : P ≠ [] := by
    intro e
    rw [e] at hP
    have : parsePattern [] = [] := by decide
    rw [this] at hP
    cases ls <;> simp at hP
  obtain ⟨e, he, hePat⟩ := node.search_wildcard P name hPne ls rs node.zero rfl rfl hls hrs
  have hlsne : ∀ l ∈ ls, l ≠ [] ∧ isCapture l = false := fun l hl =>
    ⟨parsePattern_ne_nil P l (by rw [hP]; simp [hl]), hls l hl⟩
  have hloop := router.getRoute.loop_wildcard (ls ++ rs) name hname ls 0 (fun _ => none) hlsne
    (by simp)
  have hdrop : List.drop (0 + ls.length) (ls ++ rs) = rs := by simp
  rw [hdrop] at hloop
  refine ⟨e, mapSet (fun _ => none) name (strings.Join rs ['/']), ?_, hePat, ?_, ?_⟩
  · simp only [router.getRoute, routerOf_single_roots ops1 ops2 m P h h1 h2, hP, hpath, he,
      hePat, hloop]
  · simp [mapSet]
  · intro k hk
    simp [mapSet, hk]

/-- When no non-empty component of the path but the last begins with `*`,
`parsePattern` returns all the non-empty components. -/
theorem parsePattern_all (path : Str) (comps : List Str)
    (hc : (strings.Split path '/').filter (fun s => s ≠ []) = comps)
    (hstar : ∀ s ∈ comps.dropLast, strings.HasPrefixStar s = false) :
    parsePattern path = comps := by
  rw [parsePattern, parsePattern.loop_eq, List.nil_append, hc]
  clear hc
  induction comps with
  | nil => rfl
  | cons a l ih =>
    cases l with
    | nil =>
      by_cases ha : strings.HasPrefixStar a = true <;>
        simp [cutAfterStar, List.takeWhile, List.dropWhile, ha]
    | cons b l =>
      have ha : strings.HasPrefixStar a = false := hstar a (by simp [List.dropLast])
      have ih1 := ih (fun s hs => hstar s (by
        simp only [List.dropLast_cons₂, List.mem_cons]
        exact Or.inr hs))
      have hcut : cutAfterStar (a :: b :: l) = a :: cutAfterStar (b :: l) := by
        simp [cutAfterStar, List.takeWhile, List.dropWhile, ha]
      rw [hcut, ih1]

/-! ## Exactly-once execution -/

theorem node.map_modifyFirst {β : Type} (g : node → β) (q : node → Bool) (f : node → node)
    (hg : ∀ x, g (f x) = g x) (l : List node) :
    (node.modifyFirst q f l).map g = l.map g := by
  induction l with
  | nil => rfl
  | cons c cs ih =>
    by_cases hc : q c = true
    · simp [node.modifyFirst, hc, hg]
    · simp [node.modifyFirst, hc, ih]

theorem node.find?_none_matches (p : Str) (l : List node)
    (h : l.find? (node.matchesPart p) = none) :
    ∀ c ∈ l, c.part ≠ p ∧ c.isWild = false := by
  intro c hc
  have := List.find?_eq_none.1 h c hc
  simp only [node.matchesPart, Bool.or_eq_true, beq_iff_eq, not_or, Bool.not_eq_true] at this
  exact this

theorem node.reaches_fresh (p : Str) (e : node) (h : node.Reaches (node.fresh p) e) :
    e = node.fresh p := by
  cases h with
  | self => rfl
  | child _ c _ hc _ => simp [node.fresh] at hc

theorem node.reaches_zero (e : node) (h : node.Reaches node.zero e) : e = node.zero := by
  cases h with
  | self => rfl
  | child _ c _ hc _ => simp [node.zero] at hc

theorem node.tidy_leaf (n : node) (h : n.children = []) : n.Tidy := by
  refine ⟨by rw [h]; simp, by rw [h]; simp, ?_⟩
  intro pre post e
  rw [h] at e
  cases pre <;> simp at e

/-- `insert` keeps every node of the trie tidy. -/
theorem node.insert_tidy (P : Str) : ∀ (ps : List Str) (n : node), (∀ p ∈ ps, p ≠ []) →
    (∀ e, node.Reaches n e → e.Tidy) → ∀ e, node.Reaches (n.insert P ps) e → e.Tidy := by
  intro ps
  induction ps with
  | nil =>
    intro n _ hn e hr
    simp only [node.insert] at hr
    cases hr with
    | self => exact hn n (node.Reaches.self n)
    | child _ c _ hc hcd => exact hn e (node.Reaches.child n c e hc hcd)
  | cons p ps ih =>
    intro n hps hn e hr
    have hp : p ≠ [] := hps p (List.mem_cons_self _ _)
    have hps1 : ∀ x ∈ ps, x ≠ [] := fun x hx => hps x (List.mem_cons_of_mem _ hx)
    obtain ⟨t1, t2, t3⟩ := hn n (node.Reaches.self n)
    rw [node.insert] at hr
    split at hr
    · rename_i hm
      have hnone := node.find?_none_matches p n.children hm
      cases hr with
      | self =>
        refine ⟨?_, ?_, ?_⟩
        · simp only [node.children_mk, List.map_append, List.map_cons, List.map_nil,
            node.insert_part]
          refine List.Nodup.append t1 (by simp) ?_
          intro x hx1 hx2
          obtain ⟨c, hc, hcx⟩ := List.mem_map.1 hx1
          have : x = (node.fresh p).part := by simpa using hx2
          rw [this] at hcx
          exact (hnone c hc).1 (by simpa [node.fresh] using hcx)
        · intro c hc
          simp only [node.children_mk, List.mem_append, List.mem_singleton] at hc
          rcases hc with hc | hc
          · exact t2 c hc
          · subst hc
            rw [node.insert_part, node.insert_isWild, node.fresh_isWild]
            exact ⟨by simpa [node.fresh] using hp, by simp [node.fresh]⟩
        · intro pre post e1
          simp only [node.children_mk, List.map_append, List.map_cons, List.map_nil] at e1
          rcases List.eq_nil_or_concat post with h | ⟨post1, x, h⟩
          · exact h
          · exfalso
            rw [h] at e1
            have e2 : List.map node.isWild n.children ++ [((node.fresh p).insert P ps).isWild]
                = (pre ++ true :: post1) ++ [x] := by
              rw [e1]; simp
            have e3 := (List.append_inj' e2 rfl).1
            have hmem : true ∈ List.map node.isWild n.children := by
              rw [e3]; simp
            obtain ⟨c, hc, hcw⟩ := List.mem_map.1 hmem
            have := (hnone c hc).2
            rw [hcw] at this
            exact absurd this (by simp)
      | child _ c _ hc hcd =>
        simp only [node.children_mk, List.mem_append, List.mem_singleton] at hc
        rcases hc with hc | hc
        · exact hn e (node.Reaches.child n c e hc hcd)
        · subst hc
          refine ih (node.fresh p) hps1 ?_ e hcd
          intro e1 he1
          rw [node.reaches_fresh p e1 he1]
          exact node.tidy_leaf _ rfl
    · cases hr with
      | self =>
        refine ⟨?_, ?_, ?_⟩
        · simp only [node.children_mk]
          rw [node.map_modifyFirst node.part _ _ (fun x => node.insert_part x P ps)]
          exact t1
        · intro c hc
          simp only [node.children_mk] at hc
          rcases node.mem_modifyFirst _ _ _ _ hc with hc | ⟨c0, hc0, hc⟩
          · exact t2 c hc
          · subst hc
            rw [node.insert_part, node.insert_isWild]
            exact t2 c0 hc0
        · intro pre post e1
          simp only [node.children_mk] at e1
          rw [node.map_modifyFirst node.isWild _ _ (fun x => node.insert_isWild x P ps)] at e1
          exact t3 pre post e1
      | child _ c _ hc hcd =>
        simp only [node.children_mk] at hc
        rcases node.mem_modifyFirst _ _ _ _ hc with hc | ⟨c0, hc0, hc⟩
        · exact hn e (node.Reaches.child n c e hc hcd)
        · subst hc
          exact ih c0 hps1 (fun e1 he1 => hn e1 (node.Reaches.child n c0 e1 hc0 he1)) e hcd

/-- Every node of every trie reached by `addRoute` calls is tidy. -/
theorem routerOf_tidy (ops : List Route) : ∀ (m : Str) (root e : node),
    (routerOf ops).roots m = some root → node.Reaches root e → e.Tidy := by
  induction ops using List.reverseRecOn with
  | nil => intro m root e h; cases h
  | append_singleton ops op ih =>
    intro m root e hroot hr
    rw [routerOf_append] at hroot
    by_cases hm : op.method = m
    · subst hm
      rw [router.addRoute_roots_self] at hroot
      cases hroot
      refine node.insert_tidy _ _ _ (parsePattern_ne_nil op.pattern) ?_ e hr
      intro e1 he1
      cases hold : (routerOf ops).roots op.method with
      | none =>
        rw [hold] at he1
        rw [node.reaches_zero e1 he1]
        exact node.tidy_leaf _ rfl
      | some old =>
        rw [hold] at he1
        exact ih op.method old e1 hold he1
    · rw [router.addRoute_roots_ne _ _ _ _ _ hm] at hroot
      exact ih m root e hroot hr

/-- C11: in every trie reached from a new router by `addRoute` calls, no node
has two children with the same part, and every non-root node (every child of a
node of the trie) has a non-empty part and has `isWild` true exactly when its
part begins with `:` or `*`. -/
theorem C11_sibling_unique (ops : List Route) (m : Str) (root n : node)
    (hroot : (routerOf ops).roots m = some root) (hn : node.Reaches root n) :
    (n.children.map node.part).Nodup ∧
    ∀ c ∈ n.children, c.part ≠ [] ∧ (c.isWild = true ↔ isCapture c.part = true) := by
  obtain ⟨t1, t2, _⟩ := routerOf_tidy ops m root n hroot hn
  refine ⟨t1, fun c hc => ⟨(t2 c hc).1, ?_⟩⟩
  rw [(t2 c hc).2]

theorem C11_sibling_unique_witness :
    ((node.mk [] [] [node.mk [] "a".toList [node.mk "/a/x".toList "x".toList [] false] false,
        node.mk [] ":p".toList [node.mk "/:p/y".toList "y".toList [] false] true]
        false).children.map node.part).Nodup ∧
    ∀ c ∈ (node.mk [] [] [node.mk [] "a".toList [node.mk "/a/x".toList "x".toList [] false] false,
        node.mk [] ":p".toList [node.mk "/:p/y".toList "y".toList [] false] true]
        false).children,
      c.part ≠ [] ∧ (c.isWild = true ↔ isCapture c.part = true) :=
  C11_sibling_unique
    [Route.mk "GET".toList "/a/x".toList HandlerFunc.nil,
     Route.mk "GET".toList "/:p/y".toList HandlerFunc.nil]
    "GET".toList _ _ (by decide) (node.Reaches.self _)

/-! ## The catch-all child -/

theorem node.modifyFirst_skip (q : node → Bool) (f : node → node) (l1 l2 : List node)
    (h : ∀ x ∈ l1, q x = false) :
    node.modifyFirst q f (l1 ++ l2) = l1 ++ node.modifyFirst q f l2 := by
  induction l1 with
  | nil => rfl
  | cons c cs ih =>
    have hc : q c = false := h c (List.mem_cons_self _ _)
    simp [node.modifyFirst, hc, ih (fun x hx => h x (List.mem_cons_of_mem _ hx))]

theorem node.length_modifyFirst (q : node → Bool) (f : node → node) (l : List node) :
    (node.modifyFirst q f l).length = l.length := by
  induction l with
  | nil => rfl
  | cons c cs ih =>
    by_cases hc : q c = true
    · simp [node.modifyFirst, hc]
    · simp [node.modifyFirst, hc, ih]

/-- The children of a node after `insert`, when a child matches the segment. -/
theorem node.insert_children_some (n : node) (P p : Str) (ps : List Str) (ch : node)
    (h : n.matchChild p = some ch) :
    (n.insert P (p :: ps)).children =
      node.modifyFirst (node.matchesPart p) (fun child => child.insert P ps) n.children := by
  rw [node.insert, h]
  rfl

theorem node.matchChild_of_wild (n : node) (p : Str) (w : node) (hw : w ∈ n.children)
    (hwild : w.isWild = true) : ∃ ch, n.matchChild p = some ch := by
  cases h : n.matchChild p with
  | some ch => exact ⟨ch, rfl⟩
  | none =>
    have := (node.find?_none_matches p n.children h w hw).2
    rw [hwild] at this
    exact absurd this (by simp)

/-- An insertion leaves the number of children of every node that has a wild
child as it is: the node is found again at the same place of the trie, with
as many children. -/
theorem node.insert_follow (P : Str) : ∀ (ps : List Str) (n : node) (path : List Nat)
    (e : node), n.follow path = some e → (∃ w ∈ e.children, w.isWild = true) →
    ∃ e1, (n.insert P ps).follow path = some e1 ∧
      e1.children.length = e.children.length := by
  intro ps
  induction ps with
  | nil =>
    intro n path e hf _
    cases path with
    | nil =>
      simp only [node.follow] at hf
      cases hf
      exact ⟨_, rfl, by simp [node.insert]⟩
    | cons i path =>
      refine ⟨e, ?_, rfl⟩
      simp only [node.follow, node.insert, node.children_mk] at hf ⊢
      exact hf
  | cons p ps ih =>
    intro n path e hf hw
    cases path with
    | nil =>
      simp only [node.follow] at hf
      cases hf
      obtain ⟨w, hw1, hw2⟩ := hw
      obtain ⟨ch, hch⟩ := node.matchChild_of_wild n p w hw1 hw2
      exact ⟨_, rfl, by rw [node.insert_children_some n P p ps ch hch,
        node.length_modifyFirst]⟩
    | cons i path =>
      simp only [node.follow] at hf
      cases hci : n.children[i]? with
      | none => rw [hci] at hf; cases hf
      | some c =>
        rw [hci] at hf
        simp only at hf
        cases hm : n.matchChild p with
        | none =>
          refine ⟨e, ?_, rfl⟩
          have hlt : i < n.children.length := (List.getElem?_eq_some_iff.1 hci).1
          simp only [node.follow, node.insert, hm, node.children_mk]
          rw [List.getElem?_append_left hlt, hci]
          exact hf
        | some ch =>
          have hkey : ∀ (l : List node) (i : Nat) (c : node), l[i]? = some c →
              (node.modifyFirst (node.matchesPart p) (fun child => child.insert P ps) l)[i]?
                = some c ∨
              (node.modifyFirst (node.matchesPart p) (fun child => child.insert P ps) l)[i]?
                = some (c.insert P ps) := by
            intro l
            induction l with
            | nil => intro i c h; simp at h
            | cons x xs ihl =>
              intro i c h
              by_cases hx : node.matchesPart p x = true
              · cases i with
                | zero =>
                  right
                  simp only [List.getElem?_cons_zero, Option.some.injEq] at h
                  subst h
                  simp [node.modifyFirst, hx]
                | succ i =>
                  left
                  simpa [node.modifyFirst, hx] using h
              · cases i with
                | zero =>
                  left
                  simpa [node.modifyFirst, hx] using h
                | succ i =>
                  have := ihl i c (by simpa using h)
                  simpa [node.modifyFirst, hx] using this
          simp only [node.follow]
          rw [node.insert_children_some n P p ps ch hm]
          rcases hkey n.children i c hci with h1 | h1
          · rw [h1]
            exact ⟨e, hf, rfl⟩
          · rw [h1]
            exact ih c path e hf hw

/-- C12 (amended): in every trie reached by `addRoute` calls, a child with
`isWild = true` is the last element of `children`, so each node has at most
one.  Once a node has such a child `w`, no insertion adds another child to the
node (nor to any node of the trie with a wild child): the inserted segment is
routed into the earlier child whose part equals it, if there is one, and into
`w` otherwise. -/
theorem C12_catch_all (ops : List Route) (m : Str) (root n : node)
    (hroot : (routerOf ops).roots m = some root) (hn : node.Reaches root n) :
    (∀ pre c post, n.children = pre ++ c :: post → c.isWild = true → post = []) ∧
    (∀ pre w, n.children = pre ++ [w] → w.isWild = true → ∀ (P p : Str) (ps : List Str),
      (n.insert P (p :: ps)).children.length = n.children.length ∧
      ((∀ c ∈ pre, c.part ≠ p) →
        (n.insert P (p :: ps)).children = pre ++ [w.insert P ps]) ∧
      (∀ pre1 c post1, pre = pre1 ++ c :: post1 → c.part = p →
        (n.insert P (p :: ps)).children = pre1 ++ c.insert P ps :: (post1 ++ [w]))) ∧
    (∀ (P : Str) (ps : List Str) (path : List Nat) (e : node), root.follow path = some e →
      (∃ w ∈ e.children, w.isWild = true) →
      ∃ e1, (root.insert P ps).follow path = some e1 ∧
        e1.children.length = e.children.length) := by
  obtain ⟨t1, _, t3⟩ := routerOf_tidy ops m root n hroot hn
  have hlast : ∀ pre c post, n.children = pre ++ c :: post → c.isWild = true → post = [] := by
    intro pre c post e hc
    have e1 : n.children.map node.isWild
        = pre.map node.isWild ++ true :: post.map node.isWild := by
      rw [e]; simp [hc]
    have := t3 _ _ e1
    exact List.map_eq_nil_iff.1 this
  refine ⟨hlast, ?_, fun P ps path e hf hw => node.insert_follow P ps root path e hf hw⟩
  intro pre w hch hw P p ps
  -- no child before `w` is wild
  have hpre : ∀ c ∈ pre, c.isWild = false := by
    intro c hc
    obtain ⟨a, b, hab⟩ := List.append_of_mem hc
    by_contra hcw
    have hcw1 : c.isWild = true := by simpa using hcw
    have := hlast a c (b ++ [w]) (by rw [hch, hab]; simp) hcw1
    simp at this
  obtain ⟨ch, hm⟩ := node.matchChild_of_wild n p w (by rw [hch]; simp) hw
  have hchildren := node.insert_children_some n P p ps ch hm
  have hwm : node.matchesPart p w = true := by simp [node.matchesPart, hw]
  refine ⟨by rw [hchildren, node.length_modifyFirst], ?_, ?_⟩
  · intro hparts
    rw [hchildren, hch, node.modifyFirst_skip _ _ pre [w]
      (fun x hx => by simp [node.matchesPart, hparts x hx, hpre x hx])]
    simp [node.modifyFirst, hwm]
  · intro pre1 c post1 hsplit hcp
    have hnodup : ((pre1 ++ c :: post1 ++ [w]).map node.part).Nodup := by
      rw [← hsplit, ← hch]; exact t1
    have hpre1 : ∀ x ∈ pre1, node.matchesPart p x = false := by
      intro x hx
      have hxw : x.isWild = false := hpre x (by rw [hsplit]; simp [hx])
      have hxp : x.part ≠ p := by
        intro hxp
        simp only [List.append_assoc, List.cons_append, List.map_append, List.map_cons] at hnodup
        have hdis := (List.nodup_append.1 hnodup).2.2
        exact hdis (List.mem_map.2 ⟨x, hx, hxp⟩) (by rw [hcp]; simp)
      simp [node.matchesPart, hxp, hxw]
    have hcm : node.matchesPart p c = true := by simp [node.matchesPart, hcp]
    rw [hchildren, hch, hsplit, List.append_assoc, node.modifyFirst_skip _ _ pre1 _ hpre1]
    simp [node.modifyFirst, hcm]

/-- C12, as stated, fails when an earlier child has exactly the inserted part:
in the trie of `/a/x` and `/:p/y` the root has the children `a` and `:p`;
inserting `/a/z` goes into `a`, and the wild child `:p` stays as it was. -/
theorem C12_counterexample :
    (routerOf [Route.mk "GET".toList "/a/x".toList HandlerFunc.nil,
        Route.mk "GET".toList "/:p/y".toList HandlerFunc.nil]).roots "GET".toList
      = some (node.mk [] []
          [node.mk [] "a".toList [node.mk "/a/x".toList "x".toList [] false] false,
           node.mk [] ":p".toList [node.mk "/:p/y".toList "y".toList [] false] true] false) ∧
    parsePattern "/a/z".toList = ["a".toList, "z".toList] ∧
    ((node.mk [] []
          [node.mk [] "a".toList [node.mk "/a/x".toList "x".toList [] false] false,
           node.mk [] ":p".toList [node.mk "/:p/y".toList "y".toList [] false] true]
          false).insert "/a/z".toList ["a".toList, "z".toList]).children
      = [node.mk [] "a".toList [node.mk "/a/x".toList "x".toList [] false,
            node.mk "/a/z".toList "z".toList [] false] false,
         node.mk [] ":p".toList [node.mk "/:p/y".toList "y".toList [] false] true] ∧
    ((node.mk [] []
          [node.mk [] "a".toList [node.mk "/a/x".toList "x".toList [] false] false,
           node.mk [] ":p".toList [node.mk "/:p/y".toList "y".toList [] false] true]
          false).insert "/a/z".toList ["a".toList, "z".toList]).children
      ≠ [node.mk [] "a".toList [node.mk "/a/x".toList "x".toList [] false] false,
         (node.mk [] ":p".toList [node.mk "/:p/y".toList "y".toList [] false] true).insert
            "/a/z".toList ["z".toList]] := by
  refine ⟨by decide, by decide, by decide, by decide⟩

theorem C12_catch_all_witness :
    (∀ pre c post,
      (node.mk [] []
          [node.mk [] "a".toList [node.mk "/a/x".toList "x".toList [] false] false,
           node.mk [] ":p".toList [node.mk "/:p/y".toList "y".toList [] false] true]
          false).children = pre ++ c :: post → c.isWild = true → post = []) ∧
    (∀ pre w,
      (node.mk [] []
          [node.mk [] "a".toList [node.mk "/a/x".toList "x".toList [] false] false,
           node.mk [] ":p".toList [node.mk "/:p/y".toList "y".toList [] false] true]
          false).children = pre ++ [w] → w.isWild = true → ∀ (P p : Str) (ps : List Str),
      ((node.mk [] []
          [node.mk [] "a".toList [node.mk "/a/x".toList "x".toList [] false] false,
           node.mk [] ":p".toList [node.mk "/:p/y".toList "y".toList [] false] true]
          false).insert P (p :: ps)).children.length
        = (node.mk [] []
          [node.mk [] "a".toList [node.mk "/a/x".toList "x".toList [] false] false,
           node.mk [] ":p".toList [node.mk "/:p/y".toList "y".toList [] false] true]
          false).children.length ∧
      ((∀ c ∈ pre, c.part ≠ p) →
        ((node.mk [] []
          [node.mk [] "a".toList [node.mk "/a/x".toList "x".toList [] false] false,
           node.mk [] ":p".toList [node.mk "/:p/y".toList "y".toList [] false] true]
          false).insert P (p :: ps)).children = pre ++ [w.insert P ps]) ∧
      (∀ pre1 c post1, pre = pre1 ++ c :: post1 → c.part = p →
        ((node.mk [] []
          [node.mk [] "a".toList [node.mk "/a/x".toList "x".toList [] false] false,
           node.mk [] ":p".toList [node.mk "/:p/y".toList "y".toList [] false] true]
          false).insert P (p :: ps)).children
          = pre1 ++ c.insert P ps :: (post1 ++ [w]))) ∧
    (∀ (P : Str) (ps : List Str) (path : List Nat) (e : node),
      (node.mk [] []
          [node.mk [] "a".toList [node.mk "/a/x".toList "x".toList [] false] false,
           node.mk [] ":p".toList [node.mk "/:p/y".toList "y".toList [] false] true]
          false).follow path = some e →
      (∃ w ∈ e.children, w.isWild = true) →
      ∃ e1, ((node.mk [] []
          [node.mk [] "a".toList [node.mk "/a/x".toList "x".toList [] false] false,
           node.mk [] ":p".toList [node.mk "/:p/y".toList "y".toList [] false] true]
          false).insert P ps).follow path = some e1 ∧
        e1.children.length = e.children.length) :=
  C12_catch_all
    [Route.mk "GET".toList "/a/x".toList HandlerFunc.nil,
     Route.mk "GET".toList "/:p/y".toList HandlerFunc.nil]
    "GET".toList _ _ (by decide) (node.Reaches.self _)

/-! ## Search as first match in depth-first order -/

theorem findSome?_filter_first (q : node → Bool) (f : node → Option node) :
    ∀ (l : List node) (e : node), (l.filter q).findSome? f = some e →
    ∃ (i : Nat) (c : node), l[i]? = some c ∧ q c = true ∧ f c = some e ∧
      ∀ (j : Nat) (c1 : node), j < i → l[j]? = some c1 → q c1 = true → f c1 = none := by
  intro l
  induction l with
  | nil => intro e h; simp at h
  | cons x xs ih =>
    intro e h
    by_cases hx : q x = true
    · simp only [List.filter_cons, hx, if_true, List.findSome?_cons] at h
      cases hfx : f x with
      | some e1 =>
        rw [hfx] at h
        simp only [Option.some.injEq] at h
        subst h
        exact ⟨0, x, by simp, hx, hfx, fun j c1 hj => absurd hj (Nat.not_lt_zero j)⟩
      | none =>
        rw [hfx] at h
        obtain ⟨i, c, h1, h2, h3, h4⟩ := ih e h
        refine ⟨i + 1, c, by simpa using h1, h2, h3, ?_⟩
        intro j c1 hj hc1 hq
        cases j with
        | zero =>
          simp only [List.getElem?_cons_zero, Option.some.injEq] at hc1
          subst hc1
          exact hfx
        | succ j => exact h4 j c1 (by omega) (by simpa using hc1) hq
    · have hx1 : q x = false := by simpa using hx
      simp only [List.filter_cons, hx1, Bool.false_eq_true, if_false] at h
      obtain ⟨i, c, h1, h2, h3, h4⟩ := ih e h
      refine ⟨i + 1, c, by simpa using h1, h2, h3, ?_⟩
      intro j c1 hj hc1 hq
      cases j with
      | zero =>
        simp only [List.getElem?_cons_zero, Option.some.injEq] at hc1
        subst hc1
        rw [hx1] at hq
        exact absurd hq (by simp)
      | succ j => exact h4 j c1 (by omega) (by simpa using hc1) hq

theorem node.walk_stop (n e : node) (parts : List Str) (path : List Nat)
    (hstop : parts = [] ∨ strings.HasPrefixStar n.part = true)
    (h : n.walk parts path = some e) : path = [] ∧ e = n := by
  cases parts with
  | nil =>
    simp only [node.walk] at h
    split at h
    · exact ⟨by assumption, (Option.some.inj h).symm⟩
    · cases h
  | cons p rest =>
    have hs : strings.HasPrefixStar n.part = true := by
      rcases hstop with h1 | h1
      · cases h1
      · exact h1
    simp only [node.walk, hs, if_true] at h
    split at h
    · exact ⟨by assumption, (Option.some.inj h).symm⟩
    · cases h

theorem node.walk_step (n e : node) (p : Str) (rest : List Str) (path : List Nat)
    (hs : strings.HasPrefixStar n.part = false) (h : n.walk (p :: rest) path = some e) :
    ∃ i path1 c, path = i :: path1 ∧ n.children[i]? = some c ∧
      node.matchesPart p c = true ∧ c.walk rest path1 = some e := by
  cases path with
  | nil => simp [node.walk, hs] at h
  | cons i path1 =>
    simp only [node.walk, hs, Bool.false_eq_true, if_false] at h
    cases hc : n.children[i]? with
    | none => rw [hc] at h; cases h
    | some c =>
      rw [hc] at h
      simp only at h
      by_cases hm : node.matchesPart p c = true
      · rw [if_pos hm] at h
        exact ⟨i, path1, c, rfl, hc, hm, h⟩
      · rw [if_neg hm] at h
        cases h

theorem node.search_stop (n : node) (parts : List Str)
    (hstop : parts = [] ∨ strings.HasPrefixStar n.part = true) :
    n.search parts = n.terminal := by
  cases parts with
  | nil => rfl
  | cons p rest =>
    have hs : strings.HasPrefixStar n.part = true := by
      rcases hstop with h1 | h1
      · cases h1
      · exact h1
    simp [node.search, hs]

/-- The search returns the end of the first chain, in depth-first order, that
ends at a node with a non-empty pattern; it returns nil when there is none. -/
theorem node.search_first : ∀ (parts : List Str) (n : node),
    (∀ e, n.search parts = some e →
      ∃ path, n.walk parts path = some e ∧ e.pattern ≠ [] ∧
        ∀ path1 e1, n.walk parts path1 = some e1 → e1.pattern ≠ [] →
          path1 = path ∨ pathBefore path path1) ∧
    (n.search parts = none → ∀ path e, n.walk parts path = some e → e.pattern = []) := by
  intro parts
  induction parts with
  | nil =>
    intro n
    constructor
    · intro e h
      rw [node.search_stop n [] (Or.inl rfl)] at h
      simp only [node.terminal] at h
      split at h
      · cases h
      · cases h
        refine ⟨[], by simp [node.walk], by assumption, ?_⟩
        intro path1 e1 h1 _
        exact Or.inl (node.walk_stop n e1 [] path1 (Or.inl rfl) h1).1
    · intro h path e hw
      rw [node.search_stop n [] (Or.inl rfl)] at h
      obtain ⟨_, he⟩ := node.walk_stop n e [] path (Or.inl rfl) hw
      subst he
      simp only [node.terminal] at h
      split at h
      · assumption
      · cases h
  | cons p rest ih =>
    intro n
    by_cases hs : strings.HasPrefixStar n.part = true
    · constructor
      · intro e h
        rw [node.search_stop n _ (Or.inr hs)] at h
        simp only [node.terminal] at h
        split at h
        · cases h
        · cases h
          refine ⟨[], by simp [node.walk, hs], by assumption, ?_⟩
          intro path1 e1 h1 _
          exact Or.inl (node.walk_stop n e1 _ path1 (Or.inr hs) h1).1
      · intro h path e hw
        rw [node.search_stop n _ (Or.inr hs)] at h
        obtain ⟨_, he⟩ := node.walk_stop n e _ path (Or.inr hs) hw
        subst he
        simp only [node.terminal] at h
        split at h
        · assumption
        · cases h
    · have hs1 : strings.HasPrefixStar n.part = false := by simpa using hs
      have hsearch : n.search (p :: rest)
          = (n.children.filter (node.matchesPart p)).findSome? (fun child => child.search rest) := by
        simp [node.search, hs1, node.matchChildern]
      constructor
      · intro e h
        rw [hsearch] at h
        obtain ⟨i, c, h1, h2, h3, h4⟩ := findSome?_filter_first _ _ _ e h
        obtain ⟨pathc, w1, w2, w3⟩ := (ih c).1 e h3
        refine ⟨i :: pathc, by simp [node.walk, hs1, h1, h2, w1], w2, ?_⟩
        intro path1 e1 hw1 hne1
        obtain ⟨j, q1, c1, hp, hc1, hm1, hwc1⟩ := node.walk_step n e1 p rest path1 hs1 hw1
        subst hp
        rcases Nat.lt_trichotomy j i with hlt | heq | hgt
        · exact absurd ((ih c1).2 (h4 j c1 hlt hc1 hm1) q1 e1 hwc1) hne1
        · subst heq
          rw [h1] at hc1
          cases hc1
          rcases w3 q1 e1 hwc1 hne1 with h5 | ⟨common, a, b, p1, p2, e5, e6, hab⟩
          · left; rw [h5]
          · right
            exact ⟨j :: common, a, b, p1, p2, by rw [e5]; rfl, by rw [e6]; rfl, hab⟩
        · right
          exact ⟨[], i, j, pathc, q1, rfl, rfl, hgt⟩
      · intro h path e hw
        rw [hsearch] at h
        obtain ⟨j, q1, c1, hp, hc1, hm1, hwc1⟩ := node.walk_step n e p rest path hs1 hw
        have hall := List.findSome?_eq_none_iff.1 h c1
          (List.mem_filter.2 ⟨List.getElem?_mem hc1, hm1⟩)
        exact (ih c1).2 hall q1 e hwc1

/-- C13: for every trie and every request segment list, `search(parts, 0)`
returns nil exactly when no chain from the root (each node below the root with
a part equal to the request segment of its level or wild, ending at its first
node at depth `len(parts)` or with a part beginning with `*`) ends at a node
with a non-empty pattern; when such chains exist it returns the end node of
the first one in depth-first order of the children lists. -/
theorem C13_search_first_match (n : node) (parts : List Str) :
    (n.search parts = none ↔
      ∀ path e, n.walk parts path = some e → e.pattern = []) ∧
    (∀ e, n.search parts = some e →
      ∃ path, n.walk parts path = some e ∧ e.pattern ≠ [] ∧
        ∀ path1 e1, n.walk parts path1 = some e1 → e1.pattern ≠ [] →
          path1 = path ∨ pathBefore path path1) := by
  refine ⟨⟨(node.search_first parts n).2, ?_⟩, (node.search_first parts n).1⟩
  intro h
  cases hs : n.search parts with
  | none => rfl
  | some e =>
    obtain ⟨path, w1, w2, _⟩ := (node.search_first parts n).1 e hs
    exact absurd (h path e w1) w2

theorem C13_search_first_match_witness :
    ((demoTrie.search ["a".toList, "c".toList]).map node.pattern = some "/:x/c".toList ∧
      (demoTrie.walk ["a".toList, "c".toList] [1, 0]).map node.pattern
        = some "/:x/c".toList ∧
      demoTrie.walk ["a".toList, "c".toList] [0, 0] = none) ∧
    ((demoTrie.search ["a".toList, "c".toList] = none ↔
      ∀ path e, demoTrie.walk ["a".toList, "c".toList] path = some e → e.pattern = []) ∧
    (∀ e, demoTrie.search ["a".toList, "c".toList] = some e →
      ∃ path, demoTrie.walk ["a".toList, "c".toList] path = some e ∧ e.pattern ≠ [] ∧
        ∀ path1 e1, demoTrie.walk ["a".toList, "c".toList] path1 = some e1 →
          e1.pattern ≠ [] → path1 = path ∨ pathBefore path path1)) :=
  ⟨by decide, C13_search_first_match demoTrie ["a".toList, "c".toList]⟩

/-! ## The routing invariant -/

theorem node.firstIdx_none (q : node → Bool) (l : List node) :
    node.firstIdx q l = none ↔ l.find? q = none := by
  induction l with
  | nil => simp [node.firstIdx]
  | cons c cs ih =>
    by_cases hc : q c = true
    · simp [node.firstIdx, hc, List.find?]
    · simp [node.firstIdx, hc, List.find?, ih]

theorem node.firstIdx_some (q : node → Bool) : ∀ (l : List node) (i : Nat),
    node.firstIdx q l = some i → ∃ c, l[i]? = some c ∧ q c = true ∧ l.find? q = some c := by
  intro l
  induction l with
  | nil => intro i h; simp [node.firstIdx] at h
  | cons c cs ih =>
    intro i h
    by_cases hc : q c = true
    · simp only [node.firstIdx, hc, if_true, Option.some.injEq] at h
      subst h
      exact ⟨c, by simp, hc, by simp [List.find?, hc]⟩
    · simp only [node.firstIdx, hc, Bool.false_eq_true, if_false, Option.map_eq_some'] at h
      obtain ⟨j, hj, hji⟩ := h
      subst hji
      obtain ⟨c1, h1, h2, h3⟩ := ih j hj
      exact ⟨c1, by simpa using h1, h2, by simp [List.find?, hc, h3]⟩

theorem node.firstIdx_of_find (q : node → Bool) (l : List node) (ch : node)
    (h : l.find? q = some ch) : ∃ i, node.firstIdx q l = some i ∧ l[i]? = some ch := by
  cases hi : node.firstIdx q l with
  | none =>
    rw [(node.firstIdx_none q l).1 hi] at h
    cases h
  | some i =>
    obtain ⟨c, h1, _, h3⟩ := node.firstIdx_some q l i hi
    rw [h] at h3
    cases h3
    exact ⟨i, rfl, h1⟩

theorem node.firstIdx_append_left (q : node → Bool) (l l2 : List node) (i : Nat)
    (h : node.firstIdx q l = some i) : node.firstIdx q (l ++ l2) = some i := by
  induction l generalizing i with
  | nil => simp [node.firstIdx] at h
  | cons c cs ih =>
    by_cases hc : q c = true
    · simpa [node.firstIdx, hc] using h
    · simp only [node.firstIdx, hc, Bool.false_eq_true, if_false, Option.map_eq_some'] at h
      obtain ⟨j, hj, hji⟩ := h
      simp [node.firstIdx, hc, ih j hj, hji]

theorem node.firstIdx_append_new (q : node → Bool) (l : List node) (x : node)
    (h : node.firstIdx q l = none) (hx : q x = true) :
    node.firstIdx q (l ++ [x]) = some l.length := by
  induction l with
  | nil => simp [node.firstIdx, hx]
  | cons c cs ih =>
    by_cases hc : q c = true
    · simp [node.firstIdx, hc] at h
    · simp only [node.firstIdx, hc, Bool.false_eq_true, if_false, Option.map_eq_none'] at h
      simp [node.firstIdx, hc, ih h]

theorem node.firstIdx_modifyFirst (q1 q : node → Bool) (f : node → node)
    (hq : ∀ x, q1 (f x) = q1 x) (l : List node) :
    node.firstIdx q1 (node.modifyFirst q f l) = node.firstIdx q1 l := by
  induction l with
  | nil => rfl
  | cons c cs ih =>
    by_cases hc : q c = true
    · simp [node.modifyFirst, hc, node.firstIdx, hq]
    · simp [node.modifyFirst, hc, node.firstIdx, ih]

theorem node.getElem?_modifyFirst (q : node → Bool) (f : node → node) :
    ∀ (l : List node) (i : Nat) (c : node), (node.modifyFirst q f l)[i]? = some c →
    l[i]? = some c ∨ ∃ c0, l[i]? = some c0 ∧ c = f c0 ∧ node.firstIdx q l = some i := by
  intro l
  induction l with
  | nil => intro i c h; simp [node.modifyFirst] at h
  | cons x xs ih =>
    intro i c h
    by_cases hx : q x = true
    · cases i with
      | zero =>
        right
        refine ⟨x, by simp, ?_, by simp [node.firstIdx, hx]⟩
        simpa [node.modifyFirst, hx] using h.symm
      | succ i =>
        left
        simpa [node.modifyFirst, hx] using h
    · cases i with
      | zero =>
        left
        simpa [node.modifyFirst, hx] using h
      | succ i =>
        have h1 : (node.modifyFirst q f xs)[i]? = some c := by
          simpa [node.modifyFirst, hx] using h
        rcases ih i c h1 with h2 | ⟨c0, h2, h3, h4⟩
        · left; simpa using h2
        · right
          exact ⟨c0, by simpa using h2, h3, by simp [node.firstIdx, hx, h4]⟩

theorem node.routed_leaf (d : Nat) (n : node) (hp : n.pattern = []) (hc : n.children = []) :
    node.Routed d n := by
  refine node.Routed.mk d n (fun h => absurd hp h) ?_ ?_
  · intro i c h; rw [hc] at h; simp at h
  · intro i c h; rw [hc] at h; simp at h

theorem getElem?_append_drop (pre ps : List Str) (p : Str) :
    (pre ++ p :: ps)[pre.length]? = some p := by
  rw [List.getElem?_append_right (Nat.le_refl _)]
  simp

/-- `insert` keeps the routing invariant, when the segments still to insert
are those of the pattern from the depth of the node on. -/
theorem node.insert_routed (P : Str) : ∀ (ps : List Str) (n : node) (d : Nat)
    (pre : List Str), parsePattern P = pre ++ ps → pre.length = d →
    node.Routed d n → node.Routed d (n.insert P ps) := by
  intro ps
  induction ps with
  | nil =>
    intro n d pre hP hd hR
    cases hR with
    | mk _ _ r1 r2 r3 =>
      simp only [node.insert]
      refine node.Routed.mk d _ ?_ r2 r3
      intro _
      simp only [node.pattern_mk]
      rw [hP]
      simpa using hd
  | cons p ps ih =>
    intro n d pre hP hd hR
    have hP1 : parsePattern P = (pre ++ [p]) ++ ps := by rw [hP]; simp
    have hPd : (parsePattern P)[d]? = some p := by
      rw [hP, ← hd]; exact getElem?_append_drop pre ps p
    cases hR with
    | mk _ _ r1 r2 r3 =>
      cases hm : n.matchChild p with
      | none =>
        have hnone : node.firstIdx (node.matchesPart p) n.children = none :=
          (node.firstIdx_none _ _).2 hm
        have hnew : node.matchesPart p ((node.fresh p).insert P ps) = true := by
          rw [node.matchesPart_insert]
          simp [node.matchesPart, node.fresh]
        have hins : n.insert P (p :: ps) = node.mk n.pattern n.part
            (n.children ++ [(node.fresh p).insert P ps]) n.isWild := by
          rw [node.insert, hm]
        rw [hins]
        have hsplit : ∀ (i : Nat) (c : node),
            (n.children ++ [(node.fresh p).insert P ps])[i]? = some c →
            n.children[i]? = some c ∨
              (i = n.children.length ∧ c = (node.fresh p).insert P ps) := by
          intro i c h
          by_cases hi : i < n.children.length
          · left
            rw [List.getElem?_append_left hi] at h
            exact h
          · right
            rw [List.getElem?_append_right (by omega)] at h
            have h0 : i - n.children.length = 0 := by
              by_contra hne
              have hk : i - n.children.length = (i - n.children.length - 1) + 1 := by omega
              rw [hk] at h
              simp at h
            rw [h0] at h
            simp only [List.getElem?_cons_zero, Option.some.injEq] at h
            exact ⟨by omega, h.symm⟩
        refine node.Routed.mk d _ r1 ?_ ?_
        · intro i c h
          simp only [node.children_mk] at h
          rcases hsplit i c h with h1 | ⟨_, h1⟩
          · exact r2 i c h1
          · rw [h1]
            exact ih (node.fresh p) (d + 1) (pre ++ [p]) hP1 (by simp [hd])
              (node.routed_leaf _ _ rfl rfl)
        · intro i c h e he hne
          simp only [node.children_mk] at h ⊢
          rcases hsplit i c h with h1 | ⟨hi, h1⟩
          · obtain ⟨q, hq1, hq2⟩ := r3 i c h1 e he hne
            exact ⟨q, hq1, node.firstIdx_append_left _ _ _ _ hq2⟩
          · rw [h1] at he
            rcases node.insert_reaches P ps _ e he hne with h2 | ⟨e1, h2, h3⟩
            · rw [h2, hi]
              exact ⟨p, hPd, node.firstIdx_append_new _ _ _ hnone hnew⟩
            · exfalso
              rw [node.reaches_fresh p e1 h2] at h3
              exact hne (by rw [← h3]; rfl)
      | some ch =>
        have hins : n.insert P (p :: ps) = node.mk n.pattern n.part
            (node.modifyFirst (node.matchesPart p) (fun child => child.insert P ps) n.children)
            n.isWild := by
          rw [node.insert, hm]
        rw [hins]
        have hpres : ∀ (q : Str) (x : node),
            node.matchesPart q ((fun child => child.insert P ps) x) = node.matchesPart q x :=
          fun q x => node.matchesPart_insert q P ps x
        refine node.Routed.mk d _ r1 ?_ ?_
        · intro i c h
          simp only [node.children_mk] at h
          rcases node.getElem?_modifyFirst _ _ _ i c h with h1 | ⟨c0, h1, h2, _⟩
          · exact r2 i c h1
          · rw [h2]
            exact ih c0 (d + 1) (pre ++ [p]) hP1 (by simp [hd]) (r2 i c0 h1)
        · intro i c h e he hne
          simp only [node.children_mk] at h ⊢
          have hkeep : ∀ q : Str, node.firstIdx (node.matchesPart q) n.children = some i →
              node.firstIdx (node.matchesPart q)
                (node.modifyFirst (node.matchesPart p) (fun child => child.insert P ps)
                  n.children) = some i := by
            intro q hq
            rw [node.firstIdx_modifyFirst _ _ _ (hpres q)]
            exact hq
          rcases node.getElem?_modifyFirst _ _ _ i c h with h1 | ⟨c0, h1, h2, h4⟩
          · obtain ⟨q, hq1, hq2⟩ := r3 i c h1 e he hne
            exact ⟨q, hq1, hkeep q hq2⟩
          · rw [h2] at he
            rcases node.insert_reaches P ps c0 e he hne with h5 | ⟨e1, h5, h6⟩
            · rw [h5]
              exact ⟨p, hPd, hkeep p h4⟩
            · obtain ⟨q, hq1, hq2⟩ := r3 i c0 h1 e1 h5 (by rw [h6]; exact hne)
              rw [h6] at hq1
              exact ⟨q, hq1, hkeep q hq2⟩

/-- Every trie reached by `addRoute` calls satisfies the routing invariant. -/
theorem routerOf_routed (ops : List Route) : ∀ (m : Str) (root : node),
    (routerOf ops).roots m = some root → node.Routed 0 root := by
  induction ops using List.reverseRecOn with
  | nil => intro m root h; cases h
  | append_singleton ops op ih =>
    intro m root hroot
    rw [routerOf_append] at hroot
    by_cases hm : op.method = m
    · subst hm
      rw [router.addRoute_roots_self] at hroot
      cases hroot
      refine node.insert_routed _ _ _ 0 [] rfl rfl ?_
      cases hold : (routerOf ops).roots op.method with
      | none => exact node.routed_leaf _ _ rfl rfl
      | some old => exact ih op.method old hold
    · rw [router.addRoute_roots_ne _ _ _ _ _ hm] at hroot
      exact ih m root hroot

/-! ## The path of a match -/

theorem node.Chain.reaches {n e : node} {cs : List node} (h : node.Chain n cs e) :
    node.Reaches n e := by
  induction h with
  | nil n => exact node.Reaches.self n
  | cons n c cs e hc _ ih => exact node.Reaches.child n c e hc ih

theorem forall₂_getElem? {α β : Type} (R : α → β → Prop) : ∀ (l1 : List α) (l2 : List β),
    List.Forall₂ R l1 l2 → ∀ (i : Nat) (a : α) (b : β), l1[i]? = some a → l2[i]? = some b →
    R a b := by
  intro l1 l2 h
  induction h with
  | nil => intro i a b h1; simp at h1
  | cons hab _ ih =>
    intro i a b h1 h2
    cases i with
    | zero =>
      simp only [List.getElem?_cons_zero, Option.some.injEq] at h1 h2
      subst h1 h2
      exact hab
    | succ i => exact ih i a b (by simpa using h1) (by simpa using h2)

/-- Along a chain of a routed trie, the segments of the pattern stored at the
end, from the depth of the start on, are matched one by one by the nodes of
the chain; in particular there are as many as the chain is long. -/
theorem node.routed_chain : ∀ {n e : node} {cs : List node}, node.Chain n cs e →
    ∀ d, node.Routed d n → e.pattern ≠ [] →
    ∃ pre suf, parsePattern e.pattern = pre ++ suf ∧ pre.length = d ∧
      List.Forall₂ (fun c s => node.matchesPart s c = true) cs suf := by
  intro n e cs h
  induction h with
  | nil n =>
    intro d hR hne
    cases hR with
    | mk _ _ r1 _ _ => exact ⟨parsePattern n.pattern, [], by simp, r1 hne, List.Forall₂.nil⟩
  | cons n c cs e hc hch ih =>
    intro d hR hne
    cases hR with
    | mk _ _ r1 r2 r3 =>
      obtain ⟨i, hi⟩ := List.getElem?_of_mem hc
      obtain ⟨pre1, suf1, e1, e2, e3⟩ := ih (d + 1) (r2 i c hi) hne
      obtain ⟨p, hp1, hp2⟩ := r3 i c hi e hch.reaches hne
      obtain ⟨c1, hc1, hc2, _⟩ := node.firstIdx_some _ _ _ hp2
      rw [hi] at hc1
      cases hc1
      rcases List.eq_nil_or_concat pre1 with h0 | ⟨pre0, x, h0⟩
      · rw [h0] at e2
        simp at e2
      · rw [List.concat_eq_append] at h0
        subst h0
        have hlen : pre0.length = d := by simpa using e2
        have hx : x = p := by
          have : (parsePattern e.pattern)[d]? = some x := by
            rw [e1, ← hlen, List.append_assoc]
            exact getElem?_append_drop pre0 suf1 x
          rw [this] at hp1
          exact Option.some.inj hp1
        subst hx
        exact ⟨pre0, x :: suf1, by rw [e1]; simp, hlen, List.Forall₂.cons hc2 e3⟩

/-- The node `search` returns is the end of a chain whose nodes match the
request segments one by one; the chain uses up the request unless it ends at a
node with a part beginning with `*`. -/
theorem node.search_chain : ∀ (qs : List Str) (n e : node), n.search qs = some e →
    ∃ cs qs1 qs2, node.Chain n cs e ∧ qs = qs1 ++ qs2 ∧
      List.Forall₂ (fun c q => node.matchesPart q c = true) cs qs1 ∧
      (qs2 = [] ∨ strings.HasPrefixStar e.part = true) ∧ e.pattern ≠ [] := by
  intro qs
  induction qs with
  | nil =>
    intro n e h
    rw [node.search_stop n [] (Or.inl rfl)] at h
    simp only [node.terminal] at h
    split at h
    · cases h
    · cases h
      exact ⟨[], [], [], node.Chain.nil n, rfl, List.Forall₂.nil, Or.inl rfl, by assumption⟩
  | cons q rest ih =>
    intro n e h
    by_cases hs : strings.HasPrefixStar n.part = true
    · rw [node.search_stop n _ (Or.inr hs)] at h
      simp only [node.terminal] at h
      split at h
      · cases h
      · cases h
        exact ⟨[], [], q :: rest, node.Chain.nil n, rfl, List.Forall₂.nil, Or.inr hs,
          by assumption⟩
    · have hs1 : strings.HasPrefixStar n.part = false := by simpa using hs
      have hsearch : n.search (q :: rest)
          = (n.children.filter (node.matchesPart q)).findSome? (fun child => child.search rest) := by
        simp [node.search, hs1, node.matchChildern]
      rw [hsearch] at h
      obtain ⟨ch, hch, hse⟩ := List.exists_of_findSome?_eq_some h
      obtain ⟨hmem, hmatch⟩ := List.mem_filter.1 hch
      obtain ⟨cs, qs1, qs2, c1, c2, c3, c4, c5⟩ := ih ch e hse
      exact ⟨ch :: cs, q :: qs1, qs2, node.Chain.cons n ch cs e hmem c1, by rw [c2]; rfl,
        List.Forall₂.cons hmatch c3, c4, c5⟩

/-- The parameter loop never panics when the pattern has no empty segment and
is not longer than what is left of the request. -/
theorem router.getRoute.loop_in_range (qs : List Str) : ∀ (ps : List Str) (i : Nat)
    (params : Params), (∀ p ∈ ps, p ≠ []) → i + ps.length ≤ qs.length →
    ∃ r, router.getRoute.loop qs i ps params = some r := by
  intro ps
  induction ps with
  | nil => intro i params _ _; exact ⟨params, by simp [router.getRoute.loop]⟩
  | cons p ps ih =>
    intro i params hps hlen
    simp only [List.length_cons] at hlen
    have hps1 : ∀ x ∈ ps, x ≠ [] := fun x hx => hps x (List.mem_cons_of_mem _ hx)
    cases p with
    | nil => exact absurd rfl (hps [] (List.mem_cons_self _ _))
    | cons c name =>
      have hi : i < qs.length := by omega
      rw [router.getRoute.loop]
      by_cases hc : c = ':'
      · simp only [hc, if_true, List.getElem?_eq_getElem hi]
        exact ih (i + 1) _ hps1 (by omega)
      · simp only [hc, if_false]
        by_cases hstar : c = '*' ∧ (c :: name).length > 1
        · rw [if_pos hstar, if_pos (by omega)]
          exact ⟨_, rfl⟩
        · rw [if_neg hstar]
          exact ih (i + 1) _ hps1 (by omega)

/-- What a successful search in a reachable trie gives: the chain from the
root to the node found, as long as the parsed pattern of that node and not
longer than the parsed request. -/
theorem routerOf_search (ops : List Route) (m : Str) (root e : node) (qs : List Str)
    (hroot : (routerOf ops).roots m = some root) (hs : root.search qs = some e) :
    ∃ cs qs1 qs2, node.Chain root cs e ∧ qs = qs1 ++ qs2 ∧ e.pattern ≠ [] ∧
      List.Forall₂ (fun c q => node.matchesPart q c = true) cs qs1 ∧
      List.Forall₂ (fun c s => node.matchesPart s c = true) cs (parsePattern e.pattern) ∧
      (qs2 = [] ∨ strings.HasPrefixStar e.part = true) := by
  obtain ⟨cs, qs1, qs2, c1, c2, c3, c4, c5⟩ := node.search_chain qs root e hs
  obtain ⟨pre, suf, e1, e2, e3⟩ := node.routed_chain c1 0 (routerOf_routed ops m root hroot) c5
  have hpre : pre = [] := List.length_eq_zero.1 e2
  subst hpre
  rw [List.nil_append] at e1
  rw [← e1] at e3
  exact ⟨cs, qs1, qs2, c1, c2, c5, c3, e3, c4⟩

/-- C17: for every router reached by `addRoute` calls and every request path,
the node `search` returns stands at a depth equal to
`len(parsePattern(n.pattern))`, and that depth is at most the number of parsed
request segments; so the parameter loop of `getRoute` stays within bounds and
`getRoute` never panics. -/
theorem C17_params_in_range (ops : List Route) (m path : Str) :
    (routerOf ops).getRoute m path ≠ RouteResult.panic ∧
    ∀ root e, (routerOf ops).roots m = some root →
      root.search (parsePattern path) = some e →
      ∃ cs, node.Chain root cs e ∧ cs.length = (parsePattern e.pattern).length ∧
        cs.length ≤ (parsePattern path).length ∧
        ∃ params, router.getRoute.loop (parsePattern path) 0 (parsePattern e.pattern)
          (fun _ => none) = some params := by
  have key : ∀ root e, (routerOf ops).roots m = some root →
      root.search (parsePattern path) = some e →
      ∃ cs, node.Chain root cs e ∧ cs.length = (parsePattern e.pattern).length ∧
        cs.length ≤ (parsePattern path).length ∧
        ∃ params, router.getRoute.loop (parsePattern path) 0 (parsePattern e.pattern)
          (fun _ => none) = some params := by
    intro root e hroot hs
    obtain ⟨cs, qs1, qs2, c1, c2, _, c4, c5, _⟩ := routerOf_search ops m root e _ hroot hs
    have hl1 : cs.length = (parsePattern e.pattern).length := c5.length_eq
    have hl2 : cs.length ≤ (parsePattern path).length := by
      rw [c2, List.length_append, ← c4.length_eq]
      omega
    exact ⟨cs, c1, hl1, hl2, router.getRoute.loop_in_range _ _ 0 _
      (parsePattern_ne_nil e.pattern) (by omega)⟩
  refine ⟨?_, key⟩
  simp only [router.getRoute]
  cases hroot : (routerOf ops).roots m with
  | none => simp
  | some root =>
    simp only
    cases hs : root.search (parsePattern path) with
    | none => simp
    | some e =>
      obtain ⟨_, _, _, _, params, hp⟩ := key root e hroot hs
      simp [hp]

theorem C17_params_in_range_witness :
    (routerOf [Route.mk "GET".toList "/:x/b".toList HandlerFunc.nil,
        Route.mk "GET".toList "/a/b".toList HandlerFunc.nil]).getRoute
      "GET".toList "/zzz/b".toList ≠ RouteResult.panic ∧
    ∀ root e,
      (routerOf [Route.mk "GET".toList "/:x/b".toList HandlerFunc.nil,
        Route.mk "GET".toList "/a/b".toList HandlerFunc.nil]).roots "GET".toList
        = some root →
      root.search (parsePattern "/zzz/b".toList) = some e →
      ∃ cs, node.Chain root cs e ∧ cs.length = (parsePattern e.pattern).length ∧
        cs.length ≤ (parsePattern "/zzz/b".toList).length ∧
        ∃ params, router.getRoute.loop (parsePattern "/zzz/b".toList) 0
          (parsePattern e.pattern) (fun _ => none) = some params :=
  C17_params_in_range
    [Route.mk "GET".toList "/:x/b".toList HandlerFunc.nil,
     Route.mk "GET".toList "/a/b".toList HandlerFunc.nil]
    "GET".toList "/zzz/b".toList

/-- C15 (amended): for every router reached by `addRoute` calls and every
request, if `getRoute(m, path)` returns a node n, then n is the end of a chain
of trie nodes from the root, as long as the parsed pattern of n and not longer
than the parsed request; at every position where the node of the chain is not
wild, the request segment and the pattern segment are both equal to the part
of that node; and the request is exactly as long as the pattern unless the
part of n begins with `*`. -/
theorem C15_match_along_path (ops : List Route) (m path : Str) (n : node) (params : Params)
    (h : (routerOf ops).getRoute m path = RouteResult.found n params) :
    ∃ root cs, (routerOf ops).roots m = some root ∧ node.Chain root cs n ∧
      n.pattern ≠ [] ∧
      cs.length = (parsePattern n.pattern).length ∧
      cs.length ≤ (parsePattern path).length ∧
      (strings.HasPrefixStar n.part = false →
        (parsePattern path).length = (parsePattern n.pattern).length) ∧
      ∀ (i : Nat) (c : node) (s q : Str), cs[i]? = some c →
        (parsePattern n.pattern)[i]? = some s → (parsePattern path)[i]? = some q →
        c.isWild = false → q = c.part ∧ s = c.part := by
  simp only [router.getRoute] at h
  cases hroot : (routerOf ops).roots m with
  | none => rw [hroot] at h; cases h
  | some root =>
    rw [hroot] at h
    simp only at h
    cases hs : root.search (parsePattern path) with
    | none => rw [hs] at h; cases h
    | some e =>
      rw [hs] at h
      simp only at h
      split at h
      · cases h
        obtain ⟨cs, qs1, qs2, c1, c2, c3, c4, c5, c6⟩ := routerOf_search ops m root _ _ hroot hs
        have hl1 := c5.length_eq
        have hl0 : cs.length = qs1.length := c4.length_eq
        refine ⟨root, cs, rfl, c1, c3, hl1, ?_, ?_, ?_⟩
        · rw [c2, List.length_append]; omega
        · intro hstar
          rcases c6 with h6 | h6
          · rw [c2, h6, List.append_nil, ← hl0, hl1]
          · rw [hstar] at h6
            exact absurd h6 (by simp)
        · intro i c s q hc hsi hqi hw
          have hlt : i < qs1.length := by
            rw [← hl0]
            exact (List.getElem?_eq_some_iff.1 hc).1
          have hq1 : qs1[i]? = some q := by
            rw [c2, List.getElem?_append_left hlt] at hqi
            exact hqi
          have m1 := forall₂_getElem? _ _ _ c4 i c q hc hq1
          have m2 := forall₂_getElem? _ _ _ c5 i c s hc hsi
          simp only [node.matchesPart, hw, Bool.or_false, beq_iff_eq] at m1 m2
          exact ⟨m1.symm, m2.symm⟩
      · cases h

/-- C15, as stated, fails: with the routes `/:x/b` and then `/a/b`, the second
insertion goes through the wild child `:x` and overwrites the pattern of its
child `b`; the request `/zzz/b` is then resolved to the pattern `/a/b`, whose
literal first segment `a` is not the request segment `zzz`. -/
theorem C15_counterexample :
    ∃ n params,
      (routerOf [Route.mk "GET".toList "/:x/b".toList HandlerFunc.nil,
          Route.mk "GET".toList "/a/b".toList HandlerFunc.nil]).getRoute
        "GET".toList "/zzz/b".toList = RouteResult.found n params ∧
      n.pattern = "/a/b".toList ∧
      (parsePattern n.pattern)[0]? = some "a".toList ∧
      isCapture "a".toList = false ∧
      (parsePattern "/zzz/b".toList)[0]? = some "zzz".toList ∧
      "zzz".toList ≠ "a".toList :=
  ⟨_, _, rfl, by decide, by decide, by decide, by decide, by decide⟩

theorem C15_match_along_path_witness :
    ∃ root cs,
      (routerOf [Route.mk "GET".toList "/:x/b".toList HandlerFunc.nil,
          Route.mk "GET".toList "/a/b".toList HandlerFunc.nil]).roots "GET".toList
        = some root ∧
      node.Chain root cs (node.mk "/a/b".toList "b".toList [] false) ∧
      (node.mk "/a/b".toList "b".toList [] false).pattern ≠ [] ∧
      cs.length = (parsePattern (node.mk "/a/b".toList "b".toList [] false).pattern).length ∧
      cs.length ≤ (parsePattern "/zzz/b".toList).length ∧
      (strings.HasPrefixStar (node.mk "/a/b".toList "b".toList [] false).part = false →
        (parsePattern "/zzz/b".toList).length
          = (parsePattern (node.mk "/a/b".toList "b".toList [] false).pattern).length) ∧
      ∀ (i : Nat) (c : node) (s q : Str), cs[i]? = some c →
        (parsePattern (node.mk "/a/b".toList "b".toList [] false).pattern)[i]? = some s →
        (parsePattern "/zzz/b".toList)[i]? = some q →
        c.isWild = false → q = c.part ∧ s = c.part :=
  C15_match_along_path
    [Route.mk "GET".toList "/:x/b".toList HandlerFunc.nil,
     Route.mk "GET".toList "/a/b".toList HandlerFunc.nil]
    "GET".toList "/zzz/b".toList (node.mk "/a/b".toList "b".toList [] false)
    (fun _ => none) rfl

/-! ## The list of routes -/

mutual
theorem node.travel_acc : ∀ (n : node) (acc : List node), n.travel acc = acc ++ n.travel []
  | node.mk pattern part children isWild, acc => by
    rw [node.travel, node.travel, node.travelChildren_acc children]
    by_cases hp : pattern = []
    · simp [hp]
    · simp only [ne_eq, hp, not_false_eq_true, if_true, List.nil_append]
      rw [node.travelChildren_acc children [node.mk pattern part children isWild]]
      simp
theorem node.travelChildren_acc : ∀ (cs : List node) (acc : List node),
    node.travelChildren cs acc = acc ++ node.travelChildren cs []
  | [], acc => by simp [node.travelChildren]
  | c :: cs, acc => by
    rw [node.travelChildren, node.travelChildren, node.travelChildren_acc cs (c.travel acc),
      node.travelChildren_acc cs (c.travel []), node.travel_acc c acc]
    simp
end

theorem node.travel_mk (pattern part : Str) (children : List node) (isWild : Bool) :
    (node.mk pattern part children isWild).travel [] =
      (if pattern ≠ [] then [node.mk pattern part children isWild] else []) ++
        node.travelChildren children [] := by
  rw [node.travel, node.travelChildren_acc]
  by_cases hp : pattern = [] <;> simp [hp]

theorem node.travelChildren_cons (c : node) (cs : List node) :
    node.travelChildren (c :: cs) [] = c.travel [] ++ node.travelChildren cs [] := by
  rw [node.travelChildren, node.travelChildren_acc]

mutual
theorem node.mem_travel : ∀ (n x : node), x ∈ n.travel [] →
    node.Reaches n x ∧ x.pattern ≠ []
  | node.mk pattern part children isWild, x => by
    intro h
    rw [node.travel_mk] at h
    rcases List.mem_append.1 h with h1 | h1
    · by_cases hp : pattern = []
      · simp [hp] at h1
      · simp only [ne_eq, hp, not_false_eq_true, if_true, List.mem_singleton] at h1
        subst h1
        exact ⟨node.Reaches.self _, by simpa using hp⟩
    · obtain ⟨j, c, hj, hr, hne⟩ := node.mem_travelChildren children x h1
      exact ⟨node.Reaches.child _ c x (List.getElem?_mem hj) hr, hne⟩
theorem node.mem_travelChildren : ∀ (cs : List node) (x : node),
    x ∈ node.travelChildren cs [] →
    ∃ (j : Nat) (c : node), cs[j]? = some c ∧ node.Reaches c x ∧ x.pattern ≠ []
  | [], x => by
    intro h
    simp [node.travelChildren] at h
  | c :: cs, x => by
    intro h
    rw [node.travelChildren_cons] at h
    rcases List.mem_append.1 h with h1 | h1
    · obtain ⟨hr, hne⟩ := node.mem_travel c x h1
      exact ⟨0, c, by simp, hr, hne⟩
    · obtain ⟨j, c1, hj, hr, hne⟩ := node.mem_travelChildren cs x h1
      exact ⟨j + 1, c1, by simpa using hj, hr, hne⟩
end

mutual
theorem node.nodup_travel : ∀ (n : node) (d : Nat), node.Routed d n →
    ((n.travel []).map node.pattern).Nodup
  | node.mk pattern part children isWild, d => by
    intro hR
    cases hR with
    | mk _ _ r1 r2 r3 =>
      simp only [node.children_mk, node.pattern_mk] at r1 r2 r3
      have hch := node.nodup_travelChildren children d children 0 r2
        (fun j c hj e he hne => by simpa using r3 j c hj e he hne)
      rw [node.travel_mk]
      by_cases hp : pattern = []
      · simpa [hp] using hch
      · simp only [ne_eq, hp, not_false_eq_true, if_true, List.singleton_append, List.map_cons,
          node.pattern_mk, List.nodup_cons]
        refine ⟨?_, hch⟩
        intro hmem
        obtain ⟨x, hx, hxp⟩ := List.mem_map.1 hmem
        obtain ⟨j, c, hj, hr, hne⟩ := node.mem_travelChildren children x hx
        obtain ⟨q, hq, _⟩ := r3 j c hj x hr hne
        have hlt : d < (parsePattern x.pattern).length := (List.getElem?_eq_some_iff.1 hq).1
        rw [hxp, r1 hp] at hlt
        exact Nat.lt_irrefl _ hlt
theorem node.nodup_travelChildren : ∀ (cs : List node) (d : Nat) (full : List node) (k : Nat),
    (∀ (j : Nat) (c : node), cs[j]? = some c → node.Routed (d + 1) c) →
    (∀ (j : Nat) (c : node), cs[j]? = some c → ∀ e, node.Reaches c e → e.pattern ≠ [] →
      ∃ p, (parsePattern e.pattern)[d]? = some p ∧
        node.firstIdx (node.matchesPart p) full = some (k + j)) →
    ((node.travelChildren cs []).map node.pattern).Nodup
  | [], d, full, k => by
    intro _ _
    simp [node.travelChildren]
  | c :: cs, d, full, k => by
    intro h1 h2
    rw [node.travelChildren_cons, List.map_append]
    refine List.Nodup.append (node.nodup_travel c (d + 1) (h1 0 c (by simp)))
      (node.nodup_travelChildren cs d full (k + 1)
        (fun j c1 hj => h1 (j + 1) c1 (by simpa using hj))
        (fun j c1 hj e he hne => by
          obtain ⟨p, hp1, hp2⟩ := h2 (j + 1) c1 (by simpa using hj) e he hne
          exact ⟨p, hp1, by rw [hp2]; congr 1; omega⟩)) ?_
    intro P hP1 hP2
    obtain ⟨x, hx, hxp⟩ := List.mem_map.1 hP1
    obtain ⟨y, hy, hyp⟩ := List.mem_map.1 hP2
    obtain ⟨hxr, hxne⟩ := node.mem_travel c x hx
    obtain ⟨j, c1, hj, hyr, hyne⟩ := node.mem_travelChildren cs y hy
    obtain ⟨p, hp1, hp2⟩ := h2 0 c (by simp) x hxr hxne
    obtain ⟨q, hq1, hq2⟩ := h2 (j + 1) c1 (by simpa using hj) y hyr hyne
    rw [hxp] at hp1
    rw [hyp, hp1] at hq1
    cases hq1
    rw [hp2] at hq2
    have := Option.some.inj hq2
    omega
end

/-- C14: for every router reached by `addRoute` calls and every method m, the
nodes `getRoutes(m)` returns all have a non-empty pattern, each pattern was
passed to some `addRoute(m, ...)` call, and no pattern is listed twice;
`getRoutes` returns nil for a method without a trie, that is, a method no
`addRoute` call was made for. -/
theorem C14_getRoutes (ops : List Route) (m : Str) :
    ((routerOf ops).roots m = none → (routerOf ops).getRoutes m = none) ∧
    ((∀ op ∈ ops, op.method ≠ m) → (routerOf ops).getRoutes m = none) ∧
    ∀ nodes, (routerOf ops).getRoutes m = some nodes →
      (∀ x ∈ nodes, x.pattern ≠ [] ∧ ∃ op ∈ ops, op.method = m ∧ op.pattern = x.pattern) ∧
      (nodes.map node.pattern).Nodup := by
  refine ⟨?_, ?_, ?_⟩
  · intro h
    simp only [router.getRoutes, h]
  · intro h
    have hroot : (routerOf ops).roots m = none := foldl_addRoute_roots_ne ops m h newRouter
    simp only [router.getRoutes, hroot]
  · intro nodes h
    simp only [router.getRoutes] at h
    cases hroot : (routerOf ops).roots m with
    | none => rw [hroot] at h; cases h
    | some root =>
      rw [hroot] at h
      cases h
      refine ⟨?_, node.nodup_travel root 0 (routerOf_routed ops m root hroot)⟩
      intro x hx
      obtain ⟨hr, hne⟩ := node.mem_travel root x hx
      exact ⟨hne, routerOf_patterns ops m root x hroot hr hne⟩

theorem C14_getRoutes_witness :
    ((routerOf [Route.mk "GET".toList "/:x/b".toList HandlerFunc.nil,
        Route.mk "GET".toList "/a/b".toList HandlerFunc.nil,
        Route.mk "GET".toList "/c".toList HandlerFunc.nil,
        Route.mk "GET".toList "/a/b".toList HandlerFunc.nil]).getRoutes "GET".toList).map
      (fun nodes => nodes.map node.pattern) = some ["/c".toList, "/a/b".toList] ∧
    (((routerOf [Route.mk "GET".toList "/:x/b".toList HandlerFunc.nil,
        Route.mk "GET".toList "/a/b".toList HandlerFunc.nil,
        Route.mk "GET".toList "/c".toList HandlerFunc.nil,
        Route.mk "GET".toList "/a/b".toList HandlerFunc.nil]).roots "GET".toList = none →
      (routerOf [Route.mk "GET".toList "/:x/b".toList HandlerFunc.nil,
        Route.mk "GET".toList "/a/b".toList HandlerFunc.nil,
        Route.mk "GET".toList "/c".toList HandlerFunc.nil,
        Route.mk "GET".toList "/a/b".toList HandlerFunc.nil]).getRoutes "GET".toList = none) ∧
    ((∀ op ∈ [Route.mk "GET".toList "/:x/b".toList HandlerFunc.nil,
        Route.mk "GET".toList "/a/b".toList HandlerFunc.nil,
        Route.mk "GET".toList "/c".toList HandlerFunc.nil,
        Route.mk "GET".toList "/a/b".toList HandlerFunc.nil], op.method ≠ "GET".toList) →
      (routerOf [Route.mk "GET".toList "/:x/b".toList HandlerFunc.nil,
        Route.mk "GET".toList "/a/b".toList HandlerFunc.nil,
        Route.mk "GET".toList "/c".toList HandlerFunc.nil,
        Route.mk "GET".toList "/a/b".toList HandlerFunc.nil]).getRoutes "GET".toList = none) ∧
    ∀ nodes,
      (routerOf [Route.mk "GET".toList "/:x/b".toList HandlerFunc.nil,
        Route.mk "GET".toList "/a/b".toList HandlerFunc.nil,
        Route.mk "GET".toList "/c".toList HandlerFunc.nil,
        Route.mk "GET".toList "/a/b".toList HandlerFunc.nil]).getRoutes "GET".toList
        = some nodes →
      (∀ x ∈ nodes, x.pattern ≠ [] ∧
        ∃ op ∈ [Route.mk "GET".toList "/:x/b".toList HandlerFunc.nil,
          Route.mk "GET".toList "/a/b".toList HandlerFunc.nil,
          Route.mk "GET".toList "/c".toList HandlerFunc.nil,
          Route.mk "GET".toList "/a/b".toList HandlerFunc.nil],
          op.method = "GET".toList ∧ op.pattern = x.pattern) ∧
      (nodes.map node.pattern).Nodup) :=
  ⟨by decide,
   C14_getRoutes [Route.mk "GET".toList "/:x/b".toList HandlerFunc.nil,
      Route.mk "GET".toList "/a/b".toList HandlerFunc.nil,
      Route.mk "GET".toList "/c".toList HandlerFunc.nil,
      Route.mk "GET".toList "/a/b".toList HandlerFunc.nil] "GET".toList⟩

/-! ## Handler keys -/

/-- The key `method + "-" + pattern` determines the method and the pattern when
the methods contain no `-`. -/
theorem router.key_inj : ∀ (m1 m2 P1 P2 : Str), '-' ∉ m1 → '-' ∉ m2 →
    router.key m1 P1 = router.key m2 P2 → m1 = m2 ∧ P1 = P2 := by
  intro m1
  induction m1 with
  | nil =>
    intro m2 P1 P2 _ h2 h
    cases m2 with
    | nil => exact ⟨rfl, by simpa [router.key] using h⟩
    | cons b m2 =>
      exfalso
      simp only [router.key, List.nil_append, List.cons_append, List.cons.injEq] at h
      exact h2 (by rw [h.1]; simp)
  | cons a m1 ih =>
    intro m2 P1 P2 h1 h2 h
    cases m2 with
    | nil =>
      exfalso
      simp only [router.key, List.nil_append, List.cons_append, List.cons.injEq] at h
      exact h1 (by rw [← h.1]; simp)
    | cons b m2 =>
      simp only [router.key, List.cons_append, List.cons.injEq] at h
      obtain ⟨hab, hrest⟩ := h
      obtain ⟨e1, e2⟩ := ih m2 P1 P2 (fun hm => h1 (List.mem_cons_of_mem _ hm))
        (fun hm => h2 (List.mem_cons_of_mem _ hm)) (by simpa [router.key] using hrest)
      exact ⟨by rw [hab, e1], e2⟩

theorem find?_congr_mem {α : Type} (p q : α → Bool) : ∀ (l : List α),
    (∀ x ∈ l, p x = q x) → l.find? p = l.find? q := by
  intro l
  induction l with
  | nil => intro _; rfl
  | cons x xs ih =>
    intro h
    have hx := h x (List.mem_cons_self _ _)
    have hxs := ih (fun y hy => h y (List.mem_cons_of_mem _ hy))
    simp [List.find?, hx, hxs]

/-- When no method contains `-`, the handler last registered under the key of
`(m, P)` is the handler of the last call `addRoute(m, P, ...)`. -/
theorem lastRegistered_eq_lastCall (ops : List Route) (m P : Str)
    (hops : ∀ op ∈ ops, '-' ∉ op.method) (hm : '-' ∉ m) :
    lastRegistered ops (router.key m P) = lastCall ops m P := by
  unfold lastRegistered lastCall
  congr 1
  apply find?_congr_mem
  intro op hop
  have hop1 : op ∈ ops := List.mem_reverse.1 hop
  by_cases h : op.method = m ∧ op.pattern = P
  · simp [h.1, h.2]
  · have hk : router.key op.method op.pattern ≠ router.key m P :=
      fun e => h (router.key_inj _ _ _ _ (hops op hop1) hm e)
    simp [hk, h]

/-- For every router reached from `newRouter` by `addRoute` calls whose methods
contain no `-`, whenever `getRoute(m, path)` returns a node n, `n.pattern` is
non-empty and the handlers map contains the key `m + "-" + n.pattern`, holding
the handler given to the most recent `addRoute(m, n.pattern, ...)` call. -/
theorem router.handler_present (ops : List Route) (m path : Str) (n : node) (params : Params)
    (hops : ∀ op ∈ ops, '-' ∉ op.method)
    (h : (routerOf ops).getRoute m path = RouteResult.found n params) :
    n.pattern ≠ [] ∧
    ∃ T, (routerOf ops).handlers (router.key m n.pattern) = some T ∧
      lastCall ops m n.pattern = some T := by
  have hreg : n.pattern ≠ [] ∧ ∃ op ∈ ops, op.method = m ∧ op.pattern = n.pattern := by
    simp only [router.getRoute] at h
    cases hroot : (routerOf ops).roots m with
    | none => rw [hroot] at h; cases h
    | some root =>
      rw [hroot] at h
      simp only at h
      cases hs : root.search (parsePattern path) with
      | none => rw [hs] at h; cases h
      | some e =>
        rw [hs] at h
        simp only at h
        split at h
        · cases h
          obtain ⟨r1, r2⟩ := node.search_reaches _ _ _ hs
          exact ⟨r2, routerOf_patterns ops m root _ hroot r1 r2⟩
        · cases h
  obtain ⟨hne, op, hop, hm, hp⟩ := hreg
  obtain ⟨T, hT⟩ := lastRegistered_some ops op hop
  rw [hm, hp] at hT
  have hdash : '-' ∉ m := by rw [← hm]; exact hops op hop
  refine ⟨hne, T, ?_, ?_⟩
  · rw [routerOf_handlers, hT]
  · rw [← lastRegistered_eq_lastCall ops m n.pattern hops hdash, hT]

/-- The unexported `router.addRoute` on its own does not keep the keys of
different routes apart when a method contains `-`: the calls
`addRoute("a", "-b/x", h1)` and `addRoute("a-", "b/x", h2)` write the same key
`a--b/x`.  The package calls it with the methods `GET` and `POST` only. -/
theorem router.addRoute_key_shared :
    ∃ n params,
      (routerOf [Route.mk "a".toList "-b/x".toList (HandlerFunc.fn [Stmt.mark 1]),
          Route.mk "a-".toList "b/x".toList (HandlerFunc.fn [Stmt.mark 2])]).getRoute
        "a".toList "-b/x".toList = RouteResult.found n params ∧
      n.pattern = "-b/x".toList ∧
      (routerOf [Route.mk "a".toList "-b/x".toList (HandlerFunc.fn [Stmt.mark 1]),
          Route.mk "a-".toList "b/x".toList (HandlerFunc.fn [Stmt.mark 2])]).handlers
        (router.key "a".toList n.pattern) = some (HandlerFunc.fn [Stmt.mark 2]) ∧
      lastCall [Route.mk "a".toList "-b/x".toList (HandlerFunc.fn [Stmt.mark 1]),
          Route.mk "a-".toList "b/x".toList (HandlerFunc.fn [Stmt.mark 2])]
        "a".toList n.pattern = some (HandlerFunc.fn [Stmt.mark 1]) :=
  ⟨_, _, rfl, by decide, by decide, by decide⟩

theorem engineRouter_eq (regs : List Registration) :
    engineRouter regs = routerOf (regs.map Registration.route) := by
  unfold engineRouter routerOf
  rw [List.foldl_map]
  congr 1
  funext r reg
  cases reg <;> rfl

theorem Registration.route_method (regs : List Registration) :
    ∀ op ∈ regs.map Registration.route, '-' ∉ op.method := by
  intro op hop
  obtain ⟨reg, _, rfl⟩ := List.mem_map.1 hop
  cases reg
  · show '-' ∉ "GET".toList
    decide
  · show '-' ∉ "POST".toList
    decide

/-- C16: for every router the package builds, that is, reached from
`newRouter` by the `addRoute` calls of `GET` and `POST`, whenever
`getRoute(m, path)` returns a node n, `n.pattern` is non-empty and the handlers
map contains the key `m + "-" + n.pattern`, holding the handler given to the
most recent `addRoute(m, n.pattern, ...)` call. -/
theorem C16_handler_present (regs : List Registration) (m path : Str) (n : node)
    (params : Params)
    (h : (engineRouter regs).getRoute m path = RouteResult.found n params) :
    n.pattern ≠ [] ∧
    ∃ T, (engineRouter regs).handlers (router.key m n.pattern) = some T ∧
      lastCall (regs.map Registration.route) m n.pattern = some T := by
  rw [engineRouter_eq] at h ⊢
  exact router.handler_present (regs.map Registration.route) m path n params
    (Registration.route_method regs) h

theorem C16_handler_present_witness :
    (node.mk "/hello/:name".toList ":name".toList [] true).pattern ≠ [] ∧
    ∃ T,
      (engineRouter [Registration.GET [] "/hello/:name".toList (HandlerFunc.fn [Stmt.mark 1]),
          Registration.POST "/hello".toList "/:name".toList (HandlerFunc.fn [Stmt.mark 2]),
          Registration.GET "/hello".toList "/:name".toList (HandlerFunc.fn [Stmt.mark 3])]).handlers
        (router.key "GET".toList (node.mk "/hello/:name".toList ":name".toList [] true).pattern)
        = some T ∧
      lastCall ([Registration.GET [] "/hello/:name".toList (HandlerFunc.fn [Stmt.mark 1]),
          Registration.POST "/hello".toList "/:name".toList (HandlerFunc.fn [Stmt.mark 2]),
          Registration.GET "/hello".toList "/:name".toList
            (HandlerFunc.fn [Stmt.mark 3])].map Registration.route)
        "GET".toList (node.mk "/hello/:name".toList ":name".toList [] true).pattern = some T :=
  C16_handler_present
    [Registration.GET [] "/hello/:name".toList (HandlerFunc.fn [Stmt.mark 1]),
     Registration.POST "/hello".toList "/:name".toList (HandlerFunc.fn [Stmt.mark 2]),
     Registration.GET "/hello".toList "/:name".toList (HandlerFunc.fn [Stmt.mark 3])]
    "GET".toList "/hello/world".toList (node.mk "/hello/:name".toList ":name".toList [] true)
    (mapSet (fun _ => none) "name".toList "world".toList) rfl
